import Mathlib

/-!
Verification of the retro-web virtual filesystem core.

The definitions below are a shallow embedding of the JavaScript source:

* `src/filesystem/path-resolver.js` (class PathResolver) — pure path algebra,
  embedded over character lists;
* `src/filesystem/storage.js` (class Storage) — the IndexedDB-backed store,
  embedded as a list of entry records with the unique `path` index and the
  non-unique `parentId` index made explicit;
* `src/filesystem/file.js` / `src/filesystem/directory.js` — the entry model;
* the VFS coordinator class (class VFS) — `createFile`, `readFile`,
  `writeFile`, `deleteFile`, `createDirectory`, `listDirectory`,
  `deleteDirectory`, `rename`, `copyFile`, `moveFile`, `search`, plus the
  path cache.

Modelling conventions: JavaScript timestamps (`new Date()`) are modelled by a
`clock : Nat` read from the state; the time-and-random id generator is
modelled by a counter (`nextId`), with generator uniqueness stated as an
explicit hypothesis where a theorem needs it; `Blob` byte size of a string is
its UTF-8 byte size; IndexedDB backend I/O failure on `put` is modelled by a
fault set carried in the store.  Event emission (`this.emit`) only forwards
to an external sink and has no effect on filesystem state, so it is not
modelled.  Thrown JavaScript errors are modelled by an error type with one
constructor per distinct error message template of the source.
-/

namespace RetroFS

/-- The Windows path separator (`this.separator` in path-resolver.js). -/
def sep : Char := '\\'

/-- The slash-conversion step of `PathResolver.normalize`:
`path.replace(/\//g, this.separator)`. -/
def slashToSep (cs : List Char) : List Char :=
  cs.map (fun c => if c = '/' then sep else c)

/-- The duplicate-separator collapse step of `PathResolver.normalize`:
`path.replace(/\\+/g, this.separator)`. -/
def collapseSep : List Char → List Char
  | [] => []
  | [c] => [c]
  | c :: d :: cs =>
    if c = sep ∧ d = sep then collapseSep (d :: cs)
    else c :: collapseSep (d :: cs)

/-- `path.split(this.separator)` (JavaScript `String.prototype.split` on a
single-character separator). -/
def splitSep : List Char → List (List Char)
  | [] => [[]]
  | c :: cs =>
    match splitSep cs with
    | [] => [[]]
    | s :: rest => if c = sep then [] :: s :: rest else (c :: s) :: rest

/-- The push/pop loop of `PathResolver.normalize`.  `acc` holds the kept
segments in reverse order; `'.'` and empty segments are skipped and `'..'`
pops the most recently kept segment unless at most one segment is kept
(`normalized.length > 1`). -/
def normLoop : List (List Char) → List (List Char) → List (List Char)
  | [], acc => acc
  | part :: rest, acc =>
    if part = [] ∨ part = ['.'] then normLoop rest acc
    else if part = ['.', '.'] then
      if acc.length > 1 then normLoop rest acc.tail else normLoop rest acc
    else normLoop rest (part :: acc)

/-- `normalized.join(this.separator)`. -/
def joinSep : List (List Char) → List Char
  | [] => []
  | [s] => s
  | s :: rest => s ++ sep :: joinSep rest

/-- The `/^[A-Z]:$/i` test of `PathResolver.normalize` and
`PathResolver.dirname`. -/
def isDrive2 : List Char → Bool
  | [c, d] => c.isAlpha && d = ':'
  | _ => false

/-- The segment pipeline of `PathResolver.normalize`: slash conversion,
separator collapse, split, and the push/pop loop. -/
def normSegs (cs : List Char) : List (List Char) :=
  (normLoop (splitSep (collapseSep (slashToSep cs))) []).reverse

/-- The tail of `PathResolver.normalize`: rejoin the kept segments, restore
the separator after a bare drive letter, and fall back to the default drive
root when everything was eliminated (`return result || 'C:' + sep`). -/
def assembleSegs (segs : List (List Char)) : List Char :=
  let r := joinSep segs
  let r2 := if isDrive2 r then r ++ [sep] else r
  if r2 = [] then ['C', ':', sep] else r2

/-- `PathResolver.normalize` on character lists (the body after the
empty-input guard). -/
def normChars (cs : List Char) : List Char :=
  assembleSegs (normSegs cs)

/-- `PathResolver.normalize`.  The source starts with `if (!path) return ''`,
so the empty string maps to itself. -/
def normalize (s : String) : String :=
  if s = "" then "" else String.mk (normChars s.data)

/-- Split a character list around its last separator, returning the parts
before and after it (models `path.lastIndexOf(this.separator)` plus the two
`substring` calls of dirname/basename). -/
def lastSepSplit : List Char → Option (List Char × List Char)
  | [] => none
  | c :: cs =>
    match lastSepSplit cs with
    | some (p, s) => some (c :: p, s)
    | none => if c = sep then some ([], cs) else none

/-- `PathResolver.dirname`. -/
def dirname (path : String) : String :=
  match lastSepSplit (normalize path).data with
  | none => "."
  | some (d, _) =>
    if isDrive2 d then String.mk (d ++ [sep])
    else if d = [] then String.mk [sep]
    else String.mk d

/-- `PathResolver.basename`.  The coordinator always calls it with the
default `ext = ''`, so the extension-stripping branch never runs. -/
def basename (path : String) : String :=
  match lastSepSplit (normalize path).data with
  | none => normalize path
  | some (_, n) => String.mk n

/-- Lower-casing used by `PathResolver.equals` / `PathResolver.isChildOf`
(JavaScript `toLowerCase`). -/
def lowerChars (cs : List Char) : List Char := cs.map Char.toLower

/-- `PathResolver.equals`: case-insensitive comparison of normalized paths. -/
def pathEquals (a b : String) : Bool :=
  lowerChars (normalize a).data == lowerChars (normalize b).data

/-- `PathResolver.isChildOf`: after lower-casing the normalized paths, the
parent gets a trailing separator if it lacks one, and the child must be a
proper extension of it. -/
def isChildOf (child parent : String) : Bool :=
  let c := lowerChars (normalize child).data
  let p := lowerChars (normalize parent).data
  let p2 := if p.getLast? = some sep then p else p ++ [sep]
  p2.isPrefixOf c && c ≠ p2

/-- A segment kept by the normalize loop: nonempty and neither `.` nor `..`. -/
def CleanSeg (s : List Char) : Prop :=
  s ≠ [] ∧ s ≠ ['.'] ∧ s ≠ ['.', '.']

/-- Absence of adjacent separators, the invariant under which the collapse
step is the identity. -/
def sepChain (l : List Char) : Prop :=
  l.Chain' (fun a b => ¬(a = sep ∧ b = sep))

/-- The extension split of `MimeTypes.getExtension`: the characters around
the last `'.'` of a file name. -/
def lastDotSplit : List Char → Option (List Char × List Char)
  | [] => none
  | c :: cs =>
    match lastDotSplit cs with
    | some (p, s) => some (c :: p, s)
    | none => if c = '.' then some ([], cs) else none

/-- `MimeTypes.getExtension`: empty when there is no dot or the only dot is
the leading character (`lastDot === -1 || lastDot === 0`), otherwise the
lower-cased substring from the last dot on. -/
def getExtension (name : String) : String :=
  match lastDotSplit name.data with
  | none => ""
  | some (d, ext) =>
    if d = [] then "" else String.mk ('.' :: lowerChars ext)

/-- The extension table of `MimeTypes` (mime-types.js `this.types`). -/
def mimeTable : List (String × String) :=
  [(".txt", "text/plain"), (".log", "text/plain"), (".md", "text/markdown"),
   (".json", "application/json"), (".xml", "application/xml"),
   (".html", "text/html"), (".htm", "text/html"), (".css", "text/css"),
   (".js", "text/javascript"), (".ts", "text/typescript"),
   (".pdf", "application/pdf"), (".doc", "application/msword"),
   (".docx", "application/vnd.openxmlformats-officedocument.wordprocessingml.document"),
   (".xls", "application/vnd.ms-excel"),
   (".xlsx", "application/vnd.openxmlformats-officedocument.spreadsheetml.sheet"),
   (".ppt", "application/vnd.ms-powerpoint"),
   (".pptx", "application/vnd.openxmlformats-officedocument.presentationml.presentation"),
   (".rtf", "application/rtf"),
   (".jpg", "image/jpeg"), (".jpeg", "image/jpeg"), (".png", "image/png"),
   (".gif", "image/gif"), (".bmp", "image/bmp"), (".ico", "image/x-icon"),
   (".svg", "image/svg+xml"), (".webp", "image/webp"),
   (".mp3", "audio/mpeg"), (".wav", "audio/wav"), (".ogg", "audio/ogg"),
   (".m4a", "audio/mp4"), (".wma", "audio/x-ms-wma"),
   (".mp4", "video/mp4"), (".avi", "video/x-msvideo"),
   (".mkv", "video/x-matroska"), (".mov", "video/quicktime"),
   (".wmv", "video/x-ms-wmv"), (".flv", "video/x-flv"),
   (".zip", "application/zip"), (".rar", "application/x-rar-compressed"),
   (".7z", "application/x-7z-compressed"), (".tar", "application/x-tar"),
   (".gz", "application/gzip"),
   (".exe", "application/x-msdownload"), (".dll", "application/x-msdownload"),
   (".bat", "application/x-bat"), (".cmd", "application/x-bat"),
   (".com", "application/x-msdownload"),
   (".bin", "application/octet-stream"), (".dat", "application/octet-stream")]

/-- Association-list lookup used for the extension table. -/
def tableLookup : List (String × String) → String → Option String
  | [], _ => none
  | kv :: rest, k => if kv.1 = k then some kv.2 else tableLookup rest k

/-- `MimeTypes.getMimeType`: `this.types[ext] || 'application/octet-stream'`. -/
def getMimeType (name : String) : String :=
  match tableLookup mimeTable (getExtension name) with
  | some t => t
  | none => "application/octet-stream"

/-- `{read, write, execute}` permission record. -/
structure Perms where
  read : Bool
  write : Bool
  execute : Bool
deriving DecidableEq, Repr

/-- `{hidden, system, readonly, archive}` attribute record.  Directory
records in the source have no `archive` key; the absent key is modelled as
`false`. -/
structure Attrs where
  hidden : Bool
  system : Bool
  readonly : Bool
  archive : Bool
deriving DecidableEq, Repr

/-- The `type` tag of an entry record (the source stores the strings
`'file'` / `'directory'`). -/
inductive EType where
  | file
  | dir
deriving DecidableEq, Repr

/-- A stored entry record: the common serialized shape of `File.toJSON` and
`Directory.toJSON`.  File records always have `children = []`; directory
records always have `content = ""`, `size = 0`, `mimeType = ""` (the
directory serializer emits no such keys). -/
structure Entry where
  id : String
  name : String
  path : String
  etype : EType
  parentId : Option String
  content : String
  size : Nat
  mimeType : String
  children : List String
  created : Nat
  modified : Nat
  accessed : Nat
  permissions : Perms
  attributes : Attrs
deriving DecidableEq, Repr

/-- The `entries` object store of storage.js, with the set of record ids on
which the backend's `put` request fails (modelling IndexedDB I/O failure,
the `request.onerror` path of `Storage.updateEntry`). -/
structure Store where
  entries : List Entry
  updateFaults : List String
deriving DecidableEq, Repr

/-- The state of one `VFS` instance: `storage.db` (null before
`storage.initialize`), the path cache, the `initialized` flag, the current
time and the id-generator counter. -/
structure VFSState where
  db : Option Store
  cache : List (String × Entry)
  initialized : Bool
  clock : Nat
  nextId : Nat
deriving DecidableEq, Repr

/-- The error taxonomy.  Each constructor stands for one distinct error
message template thrown by the source (storage.js / the VFS class); `typeError`
is the JavaScript TypeError raised when a property of a null value is
accessed (in particular `this.db.transaction` with `db = null`).
`notInitialized` appears in the specification's taxonomy; no code path of
the source constructs it. -/
inductive Err where
  | typeError
  | fileAlreadyExists (p : String)
  | dirAlreadyExists (p : String)
  | parentNotFound (p : String)
  | fileNotFound (p : String)
  | dirNotFound (p : String)
  | entryNotFound (p : String)
  | notAFile (p : String)
  | notADirectory (p : String)
  | dirNotEmpty (p : String)
  | createFailed (p : String)
  | updateFailed (p : String)
  | notInitialized
  | outOfFuel
deriving DecidableEq, Repr

/-- Result of an operation: the post-state (JavaScript object mutations
survive a throw) and either a value or the thrown error. -/
abbrev VRes (α : Type) := VFSState × Except Err α

/-- `Map.prototype.get` on the path cache. -/
def cacheGet : List (String × Entry) → String → Option Entry
  | [], _ => none
  | kv :: rest, p => if kv.1 = p then some kv.2 else cacheGet rest p

/-- `Map.prototype.set` on the path cache (replaces an existing key). -/
def cacheSet (c : List (String × Entry)) (p : String) (e : Entry) :
    List (String × Entry) :=
  if ∃ kv ∈ c, kv.1 = p then
    c.map (fun kv => if kv.1 = p then (p, e) else kv)
  else c ++ [(p, e)]

/-- `Map.prototype.delete` on the path cache. -/
def cacheDel (c : List (String × Entry)) (p : String) : List (String × Entry) :=
  c.filter (fun kv => kv.1 != p)

/-- The unique `path` index of the entries store (`index.get(path)`). -/
def listFindPath : List Entry → String → Option Entry
  | [], _ => none
  | e :: rest, p => if e.path = p then some e else listFindPath rest p

/-- `Storage.getEntryByPath` on the raw store. -/
def findByPath (st : Store) (p : String) : Option Entry :=
  listFindPath st.entries p

/-- Removal by primary key (`store.delete(id)`). -/
def removeById : List Entry → String → List Entry
  | [], _ => []
  | e :: rest, i => if e.id = i then removeById rest i else e :: removeById rest i

/-- The non-unique `parentId` index (`index.getAll(parentId)`). -/
def childrenOf : List Entry → String → List Entry
  | [], _ => []
  | e :: rest, p =>
    if e.parentId = some p then e :: childrenOf rest p else childrenOf rest p

/-- A token of the regular expression built by `Storage.searchByName`:
`new RegExp(pattern.replace(/\*​/g, '.*'), 'i')`.  A `*` of the pattern
becomes `.*`; a `.` of the pattern is the regex any-character; every other
pattern character is a literal (the embedding covers patterns without other
regex metacharacters). -/
inductive RTok where
  | lit (c : Char)
  | anyChar
  | star
deriving DecidableEq, Repr

/-- Token list of the derived regex. -/
def patToks (p : String) : List RTok :=
  p.data.map (fun c =>
    if c = '*' then RTok.star else if c = '.' then RTok.anyChar else RTok.lit c)

/-- Case-insensitive matching of a token list against some leading part of
the character list (regex semantics of a match starting at a fixed
position; trailing characters are allowed, as `RegExp.prototype.test` only
searches for a match).  The fuel only bounds the recursion depth: every
step shrinks tokens + characters, so any fuel above that sum is enough. -/
def matchToksF : Nat → List RTok → List Char → Bool
  | 0, _, _ => false
  | _ + 1, [], _ => true
  | fuel + 1, RTok.lit c :: ts, x :: xs =>
    if x.toLower = c.toLower then matchToksF fuel ts xs else false
  | _ + 1, RTok.lit _ :: _, [] => false
  | fuel + 1, RTok.anyChar :: ts, _ :: xs => matchToksF fuel ts xs
  | _ + 1, RTok.anyChar :: _, [] => false
  | fuel + 1, RTok.star :: ts, xs =>
    matchToksF fuel ts xs ||
      (match xs with
       | [] => false
       | _ :: xs2 => matchToksF fuel (RTok.star :: ts) xs2)

/-- Matching with adequate fuel. -/
def matchToks (ts : List RTok) (xs : List Char) : Bool :=
  matchToksF (ts.length + xs.length + 1) ts xs

/-- `regex.test(entry.name)`: an unanchored search succeeds if the token
list matches starting at any position of the name. -/
def regexTest (pat name : String) : Bool :=
  (List.range (name.data.length + 1)).any
    (fun i => matchToks (patToks pat) (name.data.drop i))

/-- The filter of `Storage.searchByName`. -/
def searchNames : List Entry → String → List Entry
  | [], _ => []
  | e :: rest, pat =>
    if regexTest pat e.name then e :: searchNames rest pat
    else searchNames rest pat

/-- The id generator of the `File` class, modelled by the state counter. -/
def fileId (n : Nat) : String := "file_" ++ Nat.repr n

/-- The id generator of the `Directory` class, modelled by the state
counter. -/
def dirId (n : Nat) : String := "dir_" ++ Nat.repr n

/-- JavaScript `a || b` on strings: the empty string is falsy. -/
def strOr (v d : String) : String := if v = "" then d else v

/-- Default file permissions (`File` constructor). -/
def filePerms : Perms := ⟨true, true, false⟩

/-- Default file attributes (`File` constructor). -/
def fileAttrs : Attrs := ⟨false, false, false, true⟩

/-- Default directory permissions (`Directory` constructor). -/
def dirPerms : Perms := ⟨true, true, true⟩

/-- Default directory attributes (`Directory` constructor; no `archive`
key). -/
def dirAttrs : Attrs := ⟨false, false, false, false⟩

/-- The options bag passed to `createFile` (`copyFile` populates it;
plain calls pass nothing). -/
structure FileOpts where
  mimeType : Option String
  permissions : Option Perms
  attributes : Option Attrs
deriving DecidableEq, Repr

/-- Empty options bag. -/
def noOpts : FileOpts := ⟨none, none, none⟩

/-- `options.mimeType || mimeTypes.getMimeType(this.name)`. -/
def optMime (o : Option String) (name : String) : String :=
  match o with
  | some m => strOr m (getMimeType name)
  | none => getMimeType name

/-- `new File({...})` in `VFS.createFile` followed by the immediate
`file.size = file.calculateSize(content)` assignment (`calculateSize` of a
string is its Blob byte length, i.e. its UTF-8 size). -/
def mkFile (nid : Nat) (name path parentId content : String) (opts : FileOpts)
    (clk : Nat) : Entry :=
  { id := fileId nid
    name := name
    path := path
    etype := EType.file
    parentId := some parentId
    content := content
    size := content.utf8ByteSize
    mimeType := optMime opts.mimeType name
    children := []
    created := clk
    modified := clk
    accessed := clk
    permissions := opts.permissions.getD filePerms
    attributes := opts.attributes.getD fileAttrs }

/-- `new Directory({...})` in `VFS.createDirectory`. -/
def mkDir (nid : Nat) (name path parentId : String) (clk : Nat) : Entry :=
  { id := dirId nid
    name := name
    path := path
    etype := EType.dir
    parentId := some parentId
    content := ""
    size := 0
    mimeType := ""
    children := []
    created := clk
    modified := clk
    accessed := clk
    permissions := dirPerms
    attributes := dirAttrs }

/-- `Directory.fromJSON(entry)` followed by `toJSON`: the round trip forces
the directory shape — no content/size/mimeType keys in the output record. -/
def dirRound (e : Entry) : Entry :=
  { e with etype := EType.dir, content := "", size := 0, mimeType := "" }

/-- `File.fromJSON(entry)` followed by `toJSON`: the file shape has no
children key, and an empty stored mimeType is falsy and recomputed by the
constructor. -/
def fileRound (e : Entry) : Entry :=
  { e with
    etype := EType.file
    children := []
    mimeType := strOr e.mimeType (getMimeType e.name) }

/-- `Directory.addChild`. -/
def addChild (d : Entry) (cid : String) (clk : Nat) : Entry :=
  if cid ∈ d.children then d
  else { d with children := d.children ++ [cid], modified := clk }

/-- `Directory.removeChild` (splice removes the first occurrence). -/
def removeChild (d : Entry) (cid : String) (clk : Nat) : Entry :=
  if cid ∈ d.children then
    { d with children := d.children.erase cid, modified := clk }
  else d

/-- `markAccessed` of both entry classes. -/
def markAccessed (e : Entry) (clk : Nat) : Entry := { e with accessed := clk }

/-- `File.setContent`: replace content, recompute size, stamp `modified`,
set the archive attribute. -/
def setContent (e : Entry) (c : String) (clk : Nat) : Entry :=
  { e with
    content := c
    size := c.utf8ByteSize
    modified := clk
    attributes := { e.attributes with archive := true } }

/-- The VFS constructor: null database handle, empty cache, not
initialized. -/
def VFS_new : VFSState :=
  { db := none
    cache := []
    initialized := false
    clock := 0
    nextId := 0 }

/-- `Storage.getEntryByPath` lifted to the coordinator state (a TypeError is
raised when `this.db` is null). -/
def stGetByPath (s : VFSState) (p : String) : VRes (Option Entry) :=
  match s.db with
  | none => (s, Except.error Err.typeError)
  | some st => (s, Except.ok (findByPath st p))

/-- `Storage.createEntry`: `store.add` fails when the primary key (id) or
the unique path index already holds the value. -/
def stCreateEntry (s : VFSState) (e : Entry) : VRes Unit :=
  match s.db with
  | none => (s, Except.error Err.typeError)
  | some st =>
    if ∃ x ∈ st.entries, x.id = e.id ∨ x.path = e.path then
      (s, Except.error (Err.createFailed e.path))
    else
      ({ s with db := some { st with entries := st.entries ++ [e] } },
        Except.ok ())

/-- `Storage.updateEntry`: `store.put` replaces the record with the same
primary key (or inserts), fails on a unique-path-index conflict with a
different record, and fails when the backend faults on this id. -/
def stPutEntry (s : VFSState) (e : Entry) : VRes Unit :=
  match s.db with
  | none => (s, Except.error Err.typeError)
  | some st =>
    if e.id ∈ st.updateFaults then (s, Except.error (Err.updateFailed e.path))
    else if ∃ x ∈ st.entries, x.id ≠ e.id ∧ x.path = e.path then
      (s, Except.error (Err.updateFailed e.path))
    else if ∃ x ∈ st.entries, x.id = e.id then
      ({ s with db := some { st with
          entries := st.entries.map (fun x => if x.id = e.id then e else x) } },
        Except.ok ())
    else
      ({ s with db := some { st with entries := st.entries ++ [e] } },
        Except.ok ())

/-- `Storage.deleteEntry`: `store.delete` succeeds whether or not the key is
present. -/
def stDeleteEntry (s : VFSState) (i : String) : VRes Unit :=
  match s.db with
  | none => (s, Except.error Err.typeError)
  | some st =>
    ({ s with db := some { st with entries := removeById st.entries i } },
      Except.ok ())

/-- `Storage.getChildren`. -/
def stGetChildren (s : VFSState) (pid : String) : VRes (List Entry) :=
  match s.db with
  | none => (s, Except.error Err.typeError)
  | some st => (s, Except.ok (childrenOf st.entries pid))

/-- `VFS.getEntry`: cache first, then storage, populating the cache on a
storage hit. -/
def getEntry (s : VFSState) (path : String) : VRes (Option Entry) :=
  let p := normalize path
  match cacheGet s.cache p with
  | some e => (s, Except.ok (some e))
  | none =>
    match s.db with
    | none => (s, Except.error Err.typeError)
    | some st =>
      match findByPath st p with
      | some e => ({ s with cache := cacheSet s.cache p e }, Except.ok (some e))
      | none => (s, Except.ok none)

/-- `VFS.exists`. -/
def existsPath (s : VFSState) (path : String) : VRes Bool :=
  match getEntry s (normalize path) with
  | (s1, Except.error e) => (s1, Except.error e)
  | (s1, Except.ok v) => (s1, Except.ok v.isSome)

/-- `VFS.getInfo`. -/
def getInfo (s : VFSState) (path : String) : VRes (Option Entry) :=
  getEntry s (normalize path)

/-- `VFS.createFile`. -/
def createFile (s : VFSState) (path content : String) (opts : FileOpts) :
    VRes Entry :=
  let p := normalize path
  match existsPath s p with
  | (s1, Except.error e) => (s1, Except.error e)
  | (s1, Except.ok true) => (s1, Except.error (Err.fileAlreadyExists p))
  | (s1, Except.ok false) =>
    let parentPath := dirname p
    match getEntry s1 parentPath with
    | (s2, Except.error e) => (s2, Except.error e)
    | (s2, Except.ok none) => (s2, Except.error (Err.parentNotFound parentPath))
    | (s2, Except.ok (some pe)) =>
      if pe.etype = EType.dir then
        let file := mkFile s2.nextId (basename p) p pe.id content opts s2.clock
        let s3 := { s2 with nextId := s2.nextId + 1 }
        match stCreateEntry s3 file with
        | (s4, Except.error e) => (s4, Except.error e)
        | (s4, Except.ok _) =>
          let parent := addChild (dirRound pe) file.id s4.clock
          match stPutEntry s4 parent with
          | (s5, Except.error e) => (s5, Except.error e)
          | (s5, Except.ok _) =>
            ({ s5 with cache := cacheSet (cacheSet s5.cache p file) parentPath parent },
              Except.ok file)
      else (s2, Except.error (Err.parentNotFound parentPath))

/-- `VFS.readFile`. -/
def readFile (s : VFSState) (path : String) : VRes String :=
  let p := normalize path
  match getEntry s p with
  | (s1, Except.error e) => (s1, Except.error e)
  | (s1, Except.ok none) => (s1, Except.error (Err.fileNotFound p))
  | (s1, Except.ok (some e)) =>
    if e.etype = EType.file then
      let f := markAccessed (fileRound e) s1.clock
      match stPutEntry s1 f with
      | (s2, Except.error err) => (s2, Except.error err)
      | (s2, Except.ok _) =>
        ({ s2 with cache := cacheSet s2.cache p f }, Except.ok f.content)
    else (s1, Except.error (Err.notAFile p))

/-- `VFS.writeFile`. -/
def writeFile (s : VFSState) (path content : String) : VRes Entry :=
  let p := normalize path
  match getEntry s p with
  | (s1, Except.error e) => (s1, Except.error e)
  | (s1, Except.ok none) => createFile s1 p content noOpts
  | (s1, Except.ok (some e)) =>
    if e.etype = EType.file then
      let f := setContent (fileRound e) content s1.clock
      match stPutEntry s1 f with
      | (s2, Except.error err) => (s2, Except.error err)
      | (s2, Except.ok _) =>
        ({ s2 with cache := cacheSet s2.cache p f }, Except.ok f)
    else (s1, Except.error (Err.notAFile p))

/-- `VFS.deleteFile`. -/
def deleteFile (s : VFSState) (path : String) : VRes Bool :=
  let p := normalize path
  match getEntry s p with
  | (s1, Except.error e) => (s1, Except.error e)
  | (s1, Except.ok none) => (s1, Except.error (Err.fileNotFound p))
  | (s1, Except.ok (some e)) =>
    if e.etype = EType.file then
      let parentPath := dirname p
      match getEntry s1 parentPath with
      | (s2, Except.error err) => (s2, Except.error err)
      | (s2, Except.ok pe?) =>
        let unlinked : VRes Unit :=
          match pe? with
          | none => (s2, Except.ok ())
          | some pe =>
            let parent := removeChild (dirRound pe) e.id s2.clock
            match stPutEntry s2 parent with
            | (s3, Except.error err) => (s3, Except.error err)
            | (s3, Except.ok _) =>
              ({ s3 with cache := cacheSet s3.cache parentPath parent },
                Except.ok ())
        match unlinked with
        | (s3, Except.error err) => (s3, Except.error err)
        | (s3, Except.ok _) =>
          match stDeleteEntry s3 e.id with
          | (s4, Except.error err) => (s4, Except.error err)
          | (s4, Except.ok _) =>
            ({ s4 with cache := cacheDel s4.cache p }, Except.ok true)
    else (s1, Except.error (Err.notAFile p))

/-- `VFS.createDirectory`. -/
def createDirectory (s : VFSState) (path : String) : VRes Entry :=
  let p := normalize path
  match existsPath s p with
  | (s1, Except.error e) => (s1, Except.error e)
  | (s1, Except.ok true) => (s1, Except.error (Err.dirAlreadyExists p))
  | (s1, Except.ok false) =>
    let parentPath := dirname p
    match getEntry s1 parentPath with
    | (s2, Except.error e) => (s2, Except.error e)
    | (s2, Except.ok none) => (s2, Except.error (Err.parentNotFound parentPath))
    | (s2, Except.ok (some pe)) =>
      if pe.etype = EType.dir then
        let d := mkDir s2.nextId (basename p) p pe.id s2.clock
        let s3 := { s2 with nextId := s2.nextId + 1 }
        match stCreateEntry s3 d with
        | (s4, Except.error e) => (s4, Except.error e)
        | (s4, Except.ok _) =>
          let parent := addChild (dirRound pe) d.id s4.clock
          match stPutEntry s4 parent with
          | (s5, Except.error e) => (s5, Except.error e)
          | (s5, Except.ok _) =>
            ({ s5 with cache := cacheSet (cacheSet s5.cache p d) parentPath parent },
              Except.ok d)
      else (s2, Except.error (Err.parentNotFound parentPath))

/-- `VFS.listDirectory`. -/
def listDirectory (s : VFSState) (path : String) : VRes (List Entry) :=
  let p := normalize path
  match getEntry s p with
  | (s1, Except.error e) => (s1, Except.error e)
  | (s1, Except.ok none) => (s1, Except.error (Err.dirNotFound p))
  | (s1, Except.ok (some e)) =>
    if e.etype = EType.dir then
      match stGetChildren s1 e.id with
      | (s2, Except.error err) => (s2, Except.error err)
      | (s2, Except.ok kids) =>
        let d := markAccessed (dirRound e) s2.clock
        match stPutEntry s2 d with
        | (s3, Except.error err) => (s3, Except.error err)
        | (s3, Except.ok _) =>
          ({ s3 with cache := cacheSet s3.cache p d }, Except.ok kids)
    else (s1, Except.error (Err.notADirectory p))

mutual

/-- `VFS.deleteDirectory` with explicit recursion fuel (the source recursion
terminates on finite trees; a fuel of at least the tree height suffices). -/
def deleteDirectory : Nat → VFSState → String → Bool → VRes Bool
  | 0, s, _, _ => (s, Except.error Err.outOfFuel)
  | fuel + 1, s, path, recursive =>
    let p := normalize path
    match getEntry s p with
    | (s1, Except.error e) => (s1, Except.error e)
    | (s1, Except.ok none) => (s1, Except.error (Err.dirNotFound p))
    | (s1, Except.ok (some e)) =>
      if e.etype = EType.dir then
        let d := dirRound e
        if d.children ≠ [] ∧ ¬recursive then
          (s1, Except.error (Err.dirNotEmpty p))
        else
          let afterKids : VRes Unit :=
            if recursive ∧ d.children ≠ [] then
              match stGetChildren s1 d.id with
              | (s2, Except.error err) => (s2, Except.error err)
              | (s2, Except.ok kids) => deleteChildren fuel s2 kids
            else (s1, Except.ok ())
          match afterKids with
          | (s2, Except.error err) => (s2, Except.error err)
          | (s2, Except.ok _) =>
            let parentPath := dirname p
            match getEntry s2 parentPath with
            | (s3, Except.error err) => (s3, Except.error err)
            | (s3, Except.ok pe?) =>
              let unlinked : VRes Unit :=
                match pe? with
                | none => (s3, Except.ok ())
                | some pe =>
                  let parent := removeChild (dirRound pe) e.id s3.clock
                  match stPutEntry s3 parent with
                  | (s4, Except.error err) => (s4, Except.error err)
                  | (s4, Except.ok _) =>
                    ({ s4 with cache := cacheSet s4.cache parentPath parent },
                      Except.ok ())
              match unlinked with
              | (s4, Except.error err) => (s4, Except.error err)
              | (s4, Except.ok _) =>
                match stDeleteEntry s4 e.id with
                | (s5, Except.error err) => (s5, Except.error err)
                | (s5, Except.ok _) =>
                  ({ s5 with cache := cacheDel s5.cache p }, Except.ok true)
      else (s1, Except.error (Err.notADirectory p))
termination_by fuel _ _ _ => (fuel, 0)

/-- The `for (const child of children)` loop of `VFS.deleteDirectory`. -/
def deleteChildren : Nat → VFSState → List Entry → VRes Unit
  | _, s, [] => (s, Except.ok ())
  | fuel, s, c :: rest =>
    let step : VRes Unit :=
      if c.etype = EType.dir then
        match deleteDirectory fuel s c.path true with
        | (s1, Except.error err) => (s1, Except.error err)
        | (s1, Except.ok _) => (s1, Except.ok ())
      else
        match deleteFile s c.path with
        | (s1, Except.error err) => (s1, Except.error err)
        | (s1, Except.ok _) => (s1, Except.ok ())
    match step with
    | (s1, Except.error err) => (s1, Except.error err)
    | (s1, Except.ok _) => deleteChildren fuel s1 rest
termination_by fuel _ cs => (fuel, cs.length + 1)

end

/-- The in-place field updates of `VFS.rename` (`entry.name = basename(newPath);
entry.path = newPath; entry.modified = new Date()`). -/
def renamedEntry (e : Entry) (np : String) (clk : Nat) : Entry :=
  { e with name := basename np, path := np, modified := clk }

/-- `VFS.rename`: the entry record is mutated in place (no class round
trip) and re-stored; only the two cache keys are touched. -/
def rename (s : VFSState) (oldPath newPath : String) : VRes Entry :=
  let op := normalize oldPath
  let np := normalize newPath
  match getEntry s op with
  | (s1, Except.error e) => (s1, Except.error e)
  | (s1, Except.ok none) => (s1, Except.error (Err.entryNotFound op))
  | (s1, Except.ok (some e)) =>
    let e2 := renamedEntry e np s1.clock
    match stPutEntry s1 e2 with
    | (s2, Except.error err) => (s2, Except.error err)
    | (s2, Except.ok _) =>
      ({ s2 with cache := cacheSet (cacheDel s2.cache op) np e2 }, Except.ok e2)

/-- `VFS.copyFile`. -/
def copyFile (s : VFSState) (srcPath destPath : String) : VRes Bool :=
  match readFile s srcPath with
  | (s1, Except.error e) => (s1, Except.error e)
  | (s1, Except.ok content) =>
    match getInfo s1 srcPath with
    | (s2, Except.error e) => (s2, Except.error e)
    | (s2, Except.ok none) => (s2, Except.error Err.typeError)
    | (s2, Except.ok (some info)) =>
      match createFile s2 destPath content
          ⟨some info.mimeType, some info.permissions,
            some { info.attributes with archive := true }⟩ with
      | (s3, Except.error e) => (s3, Except.error e)
      | (s3, Except.ok _) => (s3, Except.ok true)

/-- `VFS.moveFile`: copy then delete. -/
def moveFile (s : VFSState) (srcPath destPath : String) : VRes Bool :=
  match copyFile s srcPath destPath with
  | (s1, Except.error e) => (s1, Except.error e)
  | (s1, Except.ok _) =>
    match deleteFile s1 srcPath with
    | (s2, Except.error e) => (s2, Except.error e)
    | (s2, Except.ok _) => (s2, Except.ok true)

/-- The directory filter of `VFS.search`. -/
def searchFilter (results : List Entry) (d : String) : List Entry :=
  results.filter (fun e => isChildOf e.path d || pathEquals e.path d)

/-- `VFS.search`: the raw `directory` argument is compared against the
default literal before normalization. -/
def search (s : VFSState) (pattern directory : String) : VRes (List Entry) :=
  match s.db with
  | none => (s, Except.error Err.typeError)
  | some st =>
    let results := searchNames st.entries pattern
    if directory = "C:\\" then (s, Except.ok results)
    else (s, Except.ok (searchFilter results (normalize directory)))

/-- One coordinator call, for statements quantifying over the public
operations other than `initialize`. -/
inductive Op where
  | createFile (path content : String)
  | readFile (path : String)
  | writeFile (path content : String)
  | deleteFile (path : String)
  | createDirectory (path : String)
  | listDirectory (path : String)
  | deleteDirectory (fuel : Nat) (path : String) (recursive : Bool)
  | rename (oldPath newPath : String)
  | copyFile (srcPath destPath : String)
  | moveFile (srcPath destPath : String)
  | search (pattern directory : String)

/-- Dispatch an operation, discarding its value. -/
def runOp : Op → VFSState → VRes Unit
  | Op.createFile p c, s =>
    match createFile s p c noOpts with
    | (s1, Except.error e) => (s1, Except.error e)
    | (s1, Except.ok _) => (s1, Except.ok ())
  | Op.readFile p, s =>
    match readFile s p with
    | (s1, Except.error e) => (s1, Except.error e)
    | (s1, Except.ok _) => (s1, Except.ok ())
  | Op.writeFile p c, s =>
    match writeFile s p c with
    | (s1, Except.error e) => (s1, Except.error e)
    | (s1, Except.ok _) => (s1, Except.ok ())
  | Op.deleteFile p, s =>
    match deleteFile s p with
    | (s1, Except.error e) => (s1, Except.error e)
    | (s1, Except.ok _) => (s1, Except.ok ())
  | Op.createDirectory p, s =>
    match createDirectory s p with
    | (s1, Except.error e) => (s1, Except.error e)
    | (s1, Except.ok _) => (s1, Except.ok ())
  | Op.listDirectory p, s =>
    match listDirectory s p with
    | (s1, Except.error e) => (s1, Except.error e)
    | (s1, Except.ok _) => (s1, Except.ok ())
  | Op.deleteDirectory fuel p r, s =>
    match deleteDirectory fuel s p r with
    | (s1, Except.error e) => (s1, Except.error e)
    | (s1, Except.ok _) => (s1, Except.ok ())
  | Op.rename o n, s =>
    match rename s o n with
    | (s1, Except.error e) => (s1, Except.error e)
    | (s1, Except.ok _) => (s1, Except.ok ())
  | Op.copyFile a b, s =>
    match copyFile s a b with
    | (s1, Except.error e) => (s1, Except.error e)
    | (s1, Except.ok _) => (s1, Except.ok ())
  | Op.moveFile a b, s =>
    match moveFile s a b with
    | (s1, Except.error e) => (s1, Except.error e)
    | (s1, Except.ok _) => (s1, Except.ok ())
  | Op.search pat d, s =>
    match search s pat d with
    | (s1, Except.error e) => (s1, Except.error e)
    | (s1, Except.ok _) => (s1, Except.ok ())

/-- Positive fuel for the fueled operation (the fuel is an artifact of the
embedding, not of the source). -/
def opFueled : Op → Prop
  | Op.deleteDirectory fuel _ _ => 0 < fuel
  | _ => True

/-- Modelled from the spec: token list for a whole-name glob where `*` is
the only wildcard and every other character (including `.`) is a literal. -/
def globToks (p : String) : List RTok :=
  p.data.map (fun c => if c = '*' then RTok.star else RTok.lit c)

/-- Modelled from the spec: anchored glob matching — the token list must
consume the whole name (case-insensitive).  Fuel as in `matchToksF`. -/
def globMatchEndF : Nat → List RTok → List Char → Bool
  | 0, _, _ => false
  | _ + 1, [], [] => true
  | _ + 1, [], _ :: _ => false
  | fuel + 1, RTok.lit c :: ts, x :: xs =>
    if x.toLower = c.toLower then globMatchEndF fuel ts xs else false
  | _ + 1, RTok.lit _ :: _, [] => false
  | fuel + 1, RTok.anyChar :: ts, _ :: xs => globMatchEndF fuel ts xs
  | _ + 1, RTok.anyChar :: _, [] => false
  | fuel + 1, RTok.star :: ts, xs =>
    globMatchEndF fuel ts xs ||
      (match xs with
       | [] => false
       | _ :: xs2 => globMatchEndF fuel (RTok.star :: ts) xs2)

/-- Modelled from the spec: "glob-style (`*` wildcard) case-insensitive
match against name", the whole name matching the pattern. -/
def specGlobWholeMatch (pat name : String) : Bool :=
  globMatchEndF ((globToks pat).length + name.data.length + 1) (globToks pat)
    name.data

/-- Store wellformedness: pairwise distinct ids and paths (the IndexedDB
primary key and its unique path index guarantee this). -/
def storeWF (st : Store) : Prop :=
  st.entries.Pairwise (fun a b => a.id ≠ b.id ∧ a.path ≠ b.path)

/-- Cache coherence: every cached snapshot equals the stored record at its
path. -/
def cacheOk (st : Store) (c : List (String × Entry)) : Prop :=
  ∀ kv ∈ c, findByPath st kv.1 = some kv.2

/-- Invariant of a live coordinator: an open database, wellformed store,
coherent cache. -/
def Inv (s : VFSState) : Prop :=
  match s.db with
  | none => False
  | some st => storeWF st ∧ cacheOk st s.cache

instance (st : Store) : Decidable (storeWF st) := by
  unfold storeWF
  infer_instance

instance (st : Store) (c : List (String × Entry)) : Decidable (cacheOk st c) := by
  unfold cacheOk
  infer_instance

/-- Strict path containment, used to state which entries a recursive
`deleteDirectory` removes: `p` lies strictly inside the directory whose
exact stored path is `a` (the ancestor gets a trailing separator if it
lacks one, mirroring `PathResolver.isChildOf` but case-sensitively, since
the store keys entries by their exact path strings). -/
def underPath (a p : String) : Prop :=
  List.IsPrefix (if a.data.getLast? = some sep then a.data
    else a.data ++ [sep]) p.data ∧ p ≠ a

/-- `p` is the path `a` itself or lies strictly inside it. -/
def underEq (a p : String) : Prop := p = a ∨ underPath a p

instance (a p : String) : Decidable (underPath a p) := by
  unfold underPath
  infer_instance

instance (a p : String) : Decidable (underEq a p) := by
  unfold underEq
  infer_instance

/-- Well-formed directory tree over the entries store: unique ids and
paths, normalized nonempty paths, duplicate-free children lists, only the
drive root lacks a parent, every parented entry sits one path level below
its parent directory, and every `children` list holds exactly the ids of
the entries whose `parentId` points back at the directory. -/
def TreeOk (st : Store) : Prop :=
  storeWF st ∧
  (∀ x ∈ st.entries, normalize x.path = x.path) ∧
  (∀ x ∈ st.entries, x.path ≠ "") ∧
  (∀ x ∈ st.entries, x.children.Nodup) ∧
  (∀ x ∈ st.entries, x.parentId ≠ none → x.path.data.getLast? ≠ some sep) ∧
  (∀ x ∈ st.entries, x.parentId = none → x.path = "C:\\") ∧
  (∀ x ∈ st.entries, ∀ pid ∈ x.parentId,
    ∃ par ∈ st.entries, par.id = pid ∧ par.etype = EType.dir ∧
      par.path = dirname x.path ∧ underPath par.path x.path) ∧
  (∀ x ∈ st.entries, ∀ cid ∈ x.children,
    ∃ c ∈ st.entries, c.id = cid ∧ c.parentId = some x.id) ∧
  (∀ x ∈ st.entries, ∀ c ∈ st.entries, c.parentId = some x.id →
    c.id ∈ x.children)

instance (st : Store) : Decidable (TreeOk st) := by
  unfold TreeOk
  infer_instance

instance (s : VFSState) : Decidable (Inv s) :=
  match h : s.db with
  | none => Decidable.isFalse (by rw [Inv, h]; exact id)
  | some st =>
    decidable_of_iff (storeWF st ∧ cacheOk st s.cache) (by rw [Inv, h])


/-- Builder for concrete sample entries used in concrete evaluations. -/
def sampleEntry (i n p : String) (t : EType) (par : Option String)
    (cont : String) (kids : List String) : Entry :=
  { id := i
    name := n
    path := p
    etype := t
    parentId := par
    content := cont
    size := cont.utf8ByteSize
    mimeType := ""
    children := kids
    created := 0
    modified := 0
    accessed := 0
    permissions := filePerms
    attributes := fileAttrs }

/-- Sample root directory C:\ . -/
def sampleRoot : Entry := sampleEntry "root" "C:" "C:\\" EType.dir none "" ["d1"]

/-- Sample directory C:\A . -/
def sampleDirA : Entry :=
  sampleEntry "d1" "A" "C:\\A" EType.dir (some "root") "" ["f1"]

/-- Sample file C:\A\x.txt . -/
def sampleFileX : Entry :=
  sampleEntry "f1" "x.txt" "C:\\A\\x.txt" EType.file (some "d1") "hi" []

/-- Sample store holding the three sample entries. -/
def sampleStore : Store :=
  { entries := [sampleRoot, sampleDirA, sampleFileX], updateFaults := [] }

/-- Sample live coordinator state over the sample store. -/
def sampleState : VFSState :=
  { db := some sampleStore
    cache := []
    initialized := true
    clock := 7
    nextId := 0 }


/-- Sample live state whose cache already holds the root directory under
its normalized path (as a prior `getInfo("C:\\")` would leave it). -/
def staleState : VFSState :=
  { sampleState with cache := [("C:\\", sampleRoot)] }

/-- Sample store where the backend faults on updates of the file record. -/
def faultStore : Store :=
  { entries := [sampleRoot, sampleDirA, sampleFileX], updateFaults := ["f1"] }

/-- Sample live coordinator state over the faulting store. -/
def faultState : VFSState :=
  { db := some faultStore
    cache := []
    initialized := true
    clock := 7
    nextId := 0 }


/-- Sample directory C:\Docs . -/
def sampleDocs : Entry :=
  sampleEntry "d2" "Docs" "C:\\Docs" EType.dir (some "root2") "" ["f2"]

/-- Sample file C:\Docs\notes.txt.bak (its name contains a `.txt` part but
does not end in .txt). -/
def sampleBak : Entry :=
  sampleEntry "f2" "notes.txt.bak" "C:\\Docs\\notes.txt.bak" EType.file
    (some "d2") "b" []

/-- Sample root for the Docs tree. -/
def sampleRoot2 : Entry :=
  sampleEntry "root2" "C:" "C:\\" EType.dir none "" ["d2"]

/-- Sample store for the Docs tree. -/
def docsStore : Store :=
  { entries := [sampleRoot2, sampleDocs, sampleBak], updateFaults := [] }

/-- Sample live coordinator state over the Docs tree. -/
def docsState : VFSState :=
  { db := some docsStore
    cache := []
    initialized := true
    clock := 3
    nextId := 0 }


theorem splitSep_ne_nil : ∀ l : List Char, splitSep l ≠ []
  | [] => by simp [splitSep]
  | c :: cs => by
    simp only [splitSep]
    cases h : splitSep cs with
    | nil => simp
    | cons s rest =>
      by_cases hc : c = sep <;> simp [hc]

theorem splitSep_cons_eq {c : Char} {cs s : List Char} {rest : List (List Char)}
    (h : splitSep cs = s :: rest) :
    splitSep (c :: cs) = if c = sep then [] :: s :: rest else (c :: s) :: rest := by
  rw [splitSep, h]

theorem mem_of_mem_splitSep {a : Char} :
    ∀ {l s : List Char}, s ∈ splitSep l → a ∈ s → a ∈ l := by
  intro l
  induction l with
  | nil =>
    intro s hs ha
    simp [splitSep] at hs
    subst hs
    simp at ha
  | cons c cs ih =>
    intro s hs ha
    rcases h : splitSep cs with _ | ⟨s₀, rest⟩
    · exact absurd h (splitSep_ne_nil cs)
    · rw [splitSep_cons_eq h] at hs
      by_cases hc : c = sep
      · rw [if_pos hc, List.mem_cons] at hs
        rcases hs with hs | hs
        · subst hs; simp at ha
        · exact List.mem_cons_of_mem _ (ih (h ▸ hs) ha)
      · rw [if_neg hc, List.mem_cons] at hs
        rcases hs with hs | hs
        · subst hs
          rw [List.mem_cons] at ha
          rcases ha with ha | ha
          · exact ha ▸ List.mem_cons_self _ _
          · exact List.mem_cons_of_mem _
              (ih (h ▸ List.mem_cons_self _ _) ha)
        · exact List.mem_cons_of_mem _
            (ih (h ▸ List.mem_cons_of_mem _ hs) ha)

theorem sep_not_mem_splitSep :
    ∀ {l s : List Char}, s ∈ splitSep l → sep ∉ s := by
  intro l
  induction l with
  | nil =>
    intro s hs
    simp [splitSep] at hs
    subst hs
    simp
  | cons c cs ih =>
    intro s hs
    rcases h : splitSep cs with _ | ⟨s₀, rest⟩
    · exact absurd h (splitSep_ne_nil cs)
    · rw [splitSep_cons_eq h] at hs
      by_cases hc : c = sep
      · rw [if_pos hc, List.mem_cons] at hs
        rcases hs with hs | hs
        · subst hs; simp
        · exact ih (h ▸ hs)
      · rw [if_neg hc, List.mem_cons] at hs
        rcases hs with hs | hs
        · subst hs
          intro hm
          rw [List.mem_cons] at hm
          rcases hm with hm | hm
          · exact hc hm.symm
          · exact ih (h ▸ List.mem_cons_self _ _) hm
        · exact ih (h ▸ List.mem_cons_of_mem _ hs)

theorem slash_not_mem_slashToSep (cs : List Char) : '/' ∉ slashToSep cs := by
  intro h
  rw [slashToSep] at h
  rcases List.mem_map.1 h with ⟨c, _, hc⟩
  by_cases h' : c = '/'
  · rw [if_pos h'] at hc
    exact absurd hc (by decide)
  · rw [if_neg h'] at hc
    exact h' hc

theorem slashToSep_eq_self : ∀ {cs : List Char}, '/' ∉ cs → slashToSep cs = cs := by
  intro cs
  induction cs with
  | nil => intro _; rfl
  | cons c cs ih =>
    intro h
    have hc : c ≠ '/' := fun e => h (e ▸ List.mem_cons_self _ _)
    have hcs : '/' ∉ cs := fun m => h (List.mem_cons_of_mem _ m)
    simp only [slashToSep, List.map_cons]
    rw [if_neg hc]
    exact congrArg _ (ih hcs)

theorem mem_collapseSep {a : Char} : ∀ {l : List Char}, a ∈ collapseSep l → a ∈ l
  | [], h => by simp [collapseSep] at h
  | [c], h => by simpa [collapseSep] using h
  | c :: d :: cs, h => by
    rw [collapseSep] at h
    by_cases hc : c = sep ∧ d = sep
    · rw [if_pos hc] at h
      exact List.mem_cons_of_mem _ (mem_collapseSep h)
    · rw [if_neg hc, List.mem_cons] at h
      rcases h with h | h
      · exact h ▸ List.mem_cons_self _ _
      · exact List.mem_cons_of_mem _ (mem_collapseSep h)

theorem collapseSep_eq_self : ∀ {l : List Char}, sepChain l → collapseSep l = l
  | [], _ => rfl
  | [_], _ => rfl
  | c :: d :: cs, h => by
    simp only [sepChain] at h
    rw [List.chain'_cons] at h
    rw [collapseSep, if_neg h.1]
    exact congrArg _ (collapseSep_eq_self h.2)

theorem sepChain_of_not_mem : ∀ {l : List Char}, sep ∉ l → sepChain l := by
  intro l
  induction l with
  | nil => intro _; exact List.chain'_nil
  | cons c cs ih =>
    intro h
    simp only [sepChain]
    rw [List.chain'_cons']
    refine ⟨fun y _ hcd => h (hcd.1 ▸ List.mem_cons_self _ _), ?_⟩
    exact ih fun m => h (List.mem_cons_of_mem _ m)

theorem joinSep_cons (s s₂ : List Char) (rest : List (List Char)) :
    joinSep (s :: s₂ :: rest) = s ++ sep :: joinSep (s₂ :: rest) := rfl

theorem head?_joinSep {s : List Char} (rest : List (List Char)) (hs : s ≠ []) :
    (joinSep (s :: rest)).head? = s.head? := by
  cases rest with
  | nil => rfl
  | cons s₂ r =>
    rw [joinSep_cons]
    cases s with
    | nil => exact absurd rfl hs
    | cons a as => rfl

theorem mem_joinSep {a : Char} :
    ∀ {segs : List (List Char)}, a ∈ joinSep segs → a = sep ∨ ∃ s ∈ segs, a ∈ s
  | [], h => by simp [joinSep] at h
  | [s], h => Or.inr ⟨s, List.mem_cons_self _ _, by simpa [joinSep] using h⟩
  | s :: s₂ :: rest, h => by
    rw [joinSep_cons] at h
    rcases List.mem_append.1 h with h | h
    · exact Or.inr ⟨s, List.mem_cons_self _ _, h⟩
    · rw [List.mem_cons] at h
      rcases h with h | h
      · exact Or.inl h
      · rcases mem_joinSep h with h | ⟨t, ht, hat⟩
        · exact Or.inl h
        · exact Or.inr ⟨t, List.mem_cons_of_mem _ ht, hat⟩

theorem sepChain_joinSep :
    ∀ {segs : List (List Char)}, (∀ s ∈ segs, s ≠ [] ∧ sep ∉ s) →
      sepChain (joinSep segs)
  | [], _ => List.chain'_nil
  | [s], h => sepChain_of_not_mem (h s (List.mem_cons_self _ _)).2
  | s :: s₂ :: rest, h => by
    rw [joinSep_cons]
    have hs := h s (List.mem_cons_self _ _)
    have hs₂ := h s₂ (List.mem_cons_of_mem _ (List.mem_cons_self _ _))
    have htail : sepChain (joinSep (s₂ :: rest)) :=
      sepChain_joinSep fun t ht => h t (List.mem_cons_of_mem _ ht)
    have hhd : ∀ y ∈ (joinSep (s₂ :: rest)).head?, y ≠ sep := by
      intro y hy
      rw [head?_joinSep rest hs₂.1] at hy
      intro e
      exact hs₂.2 (e ▸ List.mem_of_mem_head? hy)
    simp only [sepChain]
    refine List.Chain'.append (sepChain_of_not_mem hs.2) ?_ ?_
    · rw [List.chain'_cons']
      exact ⟨fun y hy hcd => hhd y hy hcd.2, htail⟩
    · intro x hx y hy hcd
      exact hs.2 (hcd.1 ▸ List.mem_of_mem_getLast? hx)

theorem splitSep_append_of_not_mem {s : List Char} :
    ∀ {l : List Char} {h : List Char} {t : List (List Char)}, sep ∉ s →
      splitSep l = h :: t → splitSep (s ++ l) = (s ++ h) :: t := by
  induction s with
  | nil => intro l h t _ hl; simpa using hl
  | cons c cs ih =>
    intro l h t hs hl
    have hc : c ≠ sep := fun e => hs (e ▸ List.mem_cons_self _ _)
    have hcs : sep ∉ cs := fun m => hs (List.mem_cons_of_mem _ m)
    rw [List.cons_append, splitSep_cons_eq (ih hcs hl), if_neg hc, List.cons_append]

theorem splitSep_joinSep :
    ∀ {segs : List (List Char)}, segs ≠ [] → (∀ s ∈ segs, sep ∉ s) →
      splitSep (joinSep segs) = segs
  | [], h, _ => absurd rfl h
  | [s], _, h => by
    have h0 : splitSep ([] : List Char) = [] :: [] := rfl
    have := splitSep_append_of_not_mem (h s (List.mem_cons_self _ _)) h0
    simpa [joinSep] using this
  | s :: s₂ :: rest, _, h => by
    have htail : splitSep (joinSep (s₂ :: rest)) = s₂ :: rest :=
      splitSep_joinSep (by simp) fun t ht => h t (List.mem_cons_of_mem _ ht)
    have hstep : splitSep (sep :: joinSep (s₂ :: rest)) = [] :: s₂ :: rest := by
      rw [splitSep_cons_eq htail, if_pos rfl]
    rw [joinSep_cons,
      splitSep_append_of_not_mem (h s (List.mem_cons_self _ _)) hstep,
      List.append_nil]

theorem normLoop_mem :
    ∀ {parts acc : List (List Char)} {s : List Char}, s ∈ normLoop parts acc →
      s ∈ acc ∨ (s ∈ parts ∧ CleanSeg s) := by
  intro parts
  induction parts with
  | nil => intro acc s h; exact Or.inl (by simpa [normLoop] using h)
  | cons part rest ih =>
    intro acc s h
    rw [normLoop] at h
    by_cases h1 : part = [] ∨ part = ['.']
    · rw [if_pos h1] at h
      rcases ih h with h | h
      · exact Or.inl h
      · exact Or.inr ⟨List.mem_cons_of_mem _ h.1, h.2⟩
    · rw [if_neg h1] at h
      by_cases h2 : part = ['.', '.']
      · rw [if_pos h2] at h
        by_cases h3 : acc.length > 1
        · rw [if_pos h3] at h
          rcases ih h with h | h
          · exact Or.inl (List.mem_of_mem_tail h)
          · exact Or.inr ⟨List.mem_cons_of_mem _ h.1, h.2⟩
        · rw [if_neg h3] at h
          rcases ih h with h | h
          · exact Or.inl h
          · exact Or.inr ⟨List.mem_cons_of_mem _ h.1, h.2⟩
      · rw [if_neg h2] at h
        rcases ih h with h | h
        · rw [List.mem_cons] at h
          rcases h with h | h
          · refine Or.inr ⟨h ▸ List.mem_cons_self _ _, ?_, ?_, ?_⟩
            · rw [h]; exact fun e => h1 (Or.inl e)
            · rw [h]; exact fun e => h1 (Or.inr e)
            · rw [h]; exact h2
          · exact Or.inl h
        · exact Or.inr ⟨List.mem_cons_of_mem _ h.1, h.2⟩

theorem normLoop_of_clean :
    ∀ {parts acc : List (List Char)}, (∀ s ∈ parts, CleanSeg s) →
      normLoop parts acc = parts.reverse ++ acc := by
  intro parts
  induction parts with
  | nil => intro acc _; simp [normLoop]
  | cons part rest ih =>
    intro acc h
    have hp := h part (List.mem_cons_self _ _)
    rw [normLoop, if_neg (by rintro (e | e) <;> [exact hp.1 e; exact hp.2.1 e]),
      if_neg hp.2.2, ih fun t ht => h t (List.mem_cons_of_mem _ ht)]
    simp

theorem normSegs_spec (cs : List Char) :
    ∀ s ∈ normSegs cs, CleanSeg s ∧ sep ∉ s ∧ '/' ∉ s := by
  intro s hs
  rw [normSegs, List.mem_reverse] at hs
  rcases normLoop_mem hs with h | ⟨hp, hc⟩
  · simp at h
  · refine ⟨hc, sep_not_mem_splitSep hp, fun hsl => ?_⟩
    exact slash_not_mem_slashToSep cs (mem_collapseSep (mem_of_mem_splitSep hp hsl))

theorem sep_ne_slash : sep ≠ '/' := by decide

theorem normSegs_of_clean {segs : List (List Char)}
    (hne : segs ≠ []) (h : ∀ s ∈ segs, CleanSeg s ∧ sep ∉ s ∧ '/' ∉ s) :
    normSegs (joinSep segs) = segs := by
  have hslash : '/' ∉ joinSep segs := by
    intro hm
    rcases mem_joinSep hm with e | ⟨s, hs, hin⟩
    · exact sep_ne_slash e.symm
    · exact (h s hs).2.2 hin
  have hchain : sepChain (joinSep segs) :=
    sepChain_joinSep fun s hs => ⟨(h s hs).1.1, (h s hs).2.1⟩
  rw [normSegs, slashToSep_eq_self hslash, collapseSep_eq_self hchain,
    splitSep_joinSep hne fun s hs => (h s hs).2.1,
    normLoop_of_clean fun s hs => (h s hs).1]
  simp

theorem normChars_drive {c : Char} (h : c.isAlpha) :
    normChars [c, ':', sep] = [c, ':', sep] := by
  have hc1 : c ≠ '/' := by intro e; rw [e] at h; exact absurd h (by decide)
  have hc2 : c ≠ sep := by intro e; rw [e] at h; exact absurd h (by decide)
  have hsl : slashToSep [c, ':', sep] = [c, ':', sep] := by
    rw [slashToSep]
    simp [hc1]
  have hco : collapseSep [c, ':', sep] = [c, ':', sep] := by
    rw [collapseSep, if_neg (fun hcd => absurd hcd.2 (by decide)),
      collapseSep, if_neg (fun hcd => absurd hcd.1 (by decide)), collapseSep]
  have h0 : splitSep ([] : List Char) = [] :: [] := rfl
  have h1 : splitSep [sep] = [[], []] := by
    rw [splitSep_cons_eq h0, if_pos rfl]
  have h2 : splitSep [':', sep] = [[':'], []] := by
    rw [splitSep_cons_eq h1, if_neg (by decide)]
  have hsp : splitSep [c, ':', sep] = [[c, ':'], []] := by
    rw [splitSep_cons_eq h2, if_neg hc2]
  have hnl : normLoop [[c, ':'], []] [] = [[c, ':']] := by
    rw [normLoop, if_neg (by simp), if_neg (by simp), normLoop,
      if_pos (Or.inl rfl), normLoop]
  have hd : isDrive2 [c, ':'] = true := by
    rw [isDrive2]
    simp [h]
  rw [normChars, normSegs, hsl, hco, hsp, hnl]
  show assembleSegs [[c, ':']] = [c, ':', sep]
  simp only [assembleSegs, joinSep]
  rw [if_pos hd, if_neg (by simp)]
  rfl

theorem normChars_idem (cs : List Char) : normChars (normChars cs) = normChars cs := by
  have hspec := normSegs_spec cs
  have hout : normChars cs = assembleSegs (normSegs cs) := rfl
  rcases hsegs : normSegs cs with _ | ⟨s₀, segs'⟩
  · have hc : normChars cs = ['C', ':', sep] := by
      rw [hout, hsegs]
      decide
    rw [hc]
    decide
  · rw [hsegs] at hspec
    by_cases hdr : isDrive2 (joinSep (s₀ :: segs')) = true
    · rcases hj : joinSep (s₀ :: segs') with _ | ⟨a, l⟩
      · rw [hj] at hdr
        exact absurd hdr (by rw [show isDrive2 [] = false from rfl]; simp)
      · rcases l with _ | ⟨b, l'⟩
        · rw [hj] at hdr
          exact absurd hdr (by rw [show isDrive2 [a] = false from rfl]; simp)
        · rcases l' with _ | ⟨e, l''⟩
          · rw [hj] at hdr
            rw [isDrive2] at hdr
            simp only [Bool.and_eq_true, decide_eq_true_eq] at hdr
            have hb : b = ':' := hdr.2
            subst hb
            have hd2 : isDrive2 [a, ':'] = true := by
              rw [isDrive2]
              simp [hdr.1]
            have hcs : normChars cs = [a, ':', sep] := by
              rw [hout, hsegs]
              simp only [assembleSegs]
              rw [hj, if_pos hd2, if_neg (by simp)]
              rfl
            rw [hcs]
            exact normChars_drive hdr.1
          · rw [hj] at hdr
            exact absurd hdr
              (by rw [show isDrive2 (a :: b :: e :: l'') = false from rfl]; simp)
    · have hne : joinSep (s₀ :: segs') ≠ [] := by
        rcases segs' with _ | ⟨s₁, r⟩
        · show joinSep [s₀] ≠ []
          simpa [joinSep] using (hspec s₀ (List.mem_cons_self _ _)).1.1
        · rw [joinSep_cons]
          simp
      have hcs : normChars cs = joinSep (s₀ :: segs') := by
        rw [hout, hsegs]
        simp only [assembleSegs]
        rw [if_neg hdr, if_neg hne]
      rw [hcs, normChars, normSegs_of_clean (by simp) hspec]
      simp only [assembleSegs]
      rw [if_neg hdr, if_neg hne]

theorem normChars_ne_nil (cs : List Char) : normChars cs ≠ [] := by
  rw [normChars]
  simp only [assembleSegs]
  by_cases h : (if isDrive2 (joinSep (normSegs cs)) then
      joinSep (normSegs cs) ++ [sep] else joinSep (normSegs cs)) = []
  · rw [if_pos h]; simp
  · rw [if_neg h]; exact h

theorem data_mk (l : List Char) : (String.mk l).data = l := rfl

theorem mk_ne_empty {l : List Char} (h : l ≠ []) : String.mk l ≠ "" := by
  intro e
  exact h (congrArg String.data e)

/-- `normalize` is idempotent on every input string. -/
theorem normalize_idem (s : String) : normalize (normalize s) = normalize s := by
  by_cases h : s = ""
  · rw [h]; rfl
  · have h1 : normalize s = String.mk (normChars s.data) := by
      rw [normalize, if_neg h]
    rw [h1, normalize, if_neg (mk_ne_empty (normChars_ne_nil s.data)), data_mk,
      normChars_idem]

/-- `normalize` maps every nonempty string to a nonempty string. -/
theorem normalize_ne_empty {s : String} (h : s ≠ "") : normalize s ≠ "" := by
  rw [normalize, if_neg h]
  exact mk_ne_empty (normChars_ne_nil s.data)


theorem listFindPath_mem :
    ∀ {l : List Entry} {p : String} {e : Entry},
      listFindPath l p = some e → e ∈ l ∧ e.path = p := by
  intro l
  induction l with
  | nil => intro p e h; simp [listFindPath] at h
  | cons x rest ih =>
    intro p e h
    rw [listFindPath] at h
    by_cases hx : x.path = p
    · rw [if_pos hx] at h
      cases h
      exact ⟨List.mem_cons_self _ _, hx⟩
    · rw [if_neg hx] at h
      rcases ih h with ⟨hm, hp⟩
      exact ⟨List.mem_cons_of_mem _ hm, hp⟩

theorem findByPath_mem {st : Store} {p : String} {e : Entry}
    (h : findByPath st p = some e) : e ∈ st.entries ∧ e.path = p :=
  listFindPath_mem h

theorem cacheGet_mem :
    ∀ {c : List (String × Entry)} {p : String} {e : Entry},
      cacheGet c p = some e → (p, e) ∈ c := by
  intro c
  induction c with
  | nil => intro p e h; simp [cacheGet] at h
  | cons kv rest ih =>
    intro p e h
    rw [cacheGet] at h
    by_cases hk : kv.1 = p
    · rw [if_pos hk] at h
      subst hk
      cases h
      exact List.mem_cons_self _ _
    · rw [if_neg hk] at h
      exact List.mem_cons_of_mem _ (ih h)

theorem mem_cacheSet :
    ∀ {c : List (String × Entry)} {p : String} {e : Entry} {kv : String × Entry},
      kv ∈ cacheSet c p e → kv = (p, e) ∨ (kv ∈ c ∧ kv.1 ≠ p) := by
  intro c p e kv h
  rw [cacheSet] at h
  by_cases hex : ∃ kv2 ∈ c, kv2.1 = p
  · rw [if_pos hex] at h
    rcases List.mem_map.1 h with ⟨kv0, hkv0, heq⟩
    by_cases hk : kv0.1 = p
    · rw [if_pos hk] at heq
      exact Or.inl heq.symm
    · rw [if_neg hk] at heq
      exact Or.inr ⟨heq ▸ hkv0, heq ▸ hk⟩
  · rw [if_neg hex] at h
    rcases List.mem_append.1 h with h | h
    · refine Or.inr ⟨h, fun hk => hex ⟨kv, h, hk⟩⟩
    · rw [List.mem_singleton] at h
      exact Or.inl h

theorem cacheOk_set {st : Store} {c : List (String × Entry)} {p : String}
    {e : Entry} (h : cacheOk st c) (he : findByPath st p = some e) :
    cacheOk st (cacheSet c p e) := by
  intro kv hm
  rcases mem_cacheSet hm with h1 | ⟨h1, _⟩
  · subst h1
    exact he
  · exact h kv h1

theorem cacheOk_del {st : Store} {c : List (String × Entry)} {p : String}
    (h : cacheOk st c) : cacheOk st (cacheDel c p) := by
  intro kv hm
  exact h kv (List.mem_of_mem_filter hm)

theorem inv_elim {s : VFSState} (h : Inv s) :
    ∃ st, s.db = some st ∧ storeWF st ∧ cacheOk st s.cache := by
  unfold Inv at h
  cases hdb : s.db with
  | none => rw [hdb] at h; exact h.elim
  | some st =>
    rw [hdb] at h
    exact ⟨st, rfl, h.1, h.2⟩

theorem inv_intro {s : VFSState} {st : Store} (hdb : s.db = some st)
    (hwf : storeWF st) (hco : cacheOk st s.cache) : Inv s := by
  unfold Inv
  rw [hdb]
  exact ⟨hwf, hco⟩

theorem getEntry_cache_hit {s : VFSState} {p : String} {e : Entry}
    (hcg : cacheGet s.cache (normalize p) = some e) :
    getEntry s p = (s, Except.ok (some e)) := by
  simp only [getEntry, hcg]

theorem getEntry_store_hit {s : VFSState} {st : Store} {p : String} {e : Entry}
    (hcg : cacheGet s.cache (normalize p) = none) (hdb : s.db = some st)
    (hfp : findByPath st (normalize p) = some e) :
    getEntry s p =
      ({ s with cache := cacheSet s.cache (normalize p) e }, Except.ok (some e)) := by
  simp only [getEntry, hcg, hdb, hfp]

theorem getEntry_store_miss {s : VFSState} {st : Store} {p : String}
    (hcg : cacheGet s.cache (normalize p) = none) (hdb : s.db = some st)
    (hfp : findByPath st (normalize p) = none) :
    getEntry s p = (s, Except.ok none) := by
  simp only [getEntry, hcg, hdb, hfp]

theorem getEntry_ok {s : VFSState} {st : Store} (hdb : s.db = some st)
    (hco : cacheOk st s.cache) (p : String) :
    ∃ c2, getEntry s p =
        ({ s with cache := c2 }, Except.ok (findByPath st (normalize p))) ∧
      cacheOk st c2 := by
  cases hcg : cacheGet s.cache (normalize p) with
  | some e =>
    have hf : findByPath st (normalize p) = some e := hco _ (cacheGet_mem hcg)
    rw [hf]
    exact ⟨s.cache, getEntry_cache_hit hcg, hco⟩
  | none =>
    cases hfp : findByPath st (normalize p) with
    | some e =>
      exact ⟨cacheSet s.cache (normalize p) e, getEntry_store_hit hcg hdb hfp,
        cacheOk_set hco hfp⟩
    | none => exact ⟨s.cache, getEntry_store_miss hcg hdb hfp, hco⟩



theorem stPutEntry_replace {s : VFSState} {st : Store} {e : Entry}
    (hdb : s.db = some st) (hnf : e.id ∉ st.updateFaults)
    (hnc : ¬ ∃ x ∈ st.entries, x.id ≠ e.id ∧ x.path = e.path)
    (hpres : ∃ x ∈ st.entries, x.id = e.id) :
    stPutEntry s e =
      ({ s with db := some { st with
          entries := st.entries.map (fun x => if x.id = e.id then e else x) } },
        Except.ok ()) := by
  simp only [stPutEntry, hdb]
  rw [if_neg hnf, if_neg hnc, if_pos hpres]

theorem stPutEntry_insert {s : VFSState} {st : Store} {e : Entry}
    (hdb : s.db = some st) (hnf : e.id ∉ st.updateFaults)
    (hnc : ¬ ∃ x ∈ st.entries, x.id ≠ e.id ∧ x.path = e.path)
    (habs : ¬ ∃ x ∈ st.entries, x.id = e.id) :
    stPutEntry s e =
      ({ s with db := some { st with entries := st.entries ++ [e] } },
        Except.ok ()) := by
  simp only [stPutEntry, hdb]
  rw [if_neg hnf, if_neg hnc, if_neg habs]

theorem stCreateEntry_ok {s : VFSState} {st : Store} {e : Entry}
    (hdb : s.db = some st)
    (hno : ¬ ∃ x ∈ st.entries, x.id = e.id ∨ x.path = e.path) :
    stCreateEntry s e =
      ({ s with db := some { st with entries := st.entries ++ [e] } },
        Except.ok ()) := by
  simp only [stCreateEntry, hdb]
  rw [if_neg hno]

theorem stDeleteEntry_eq {s : VFSState} {st : Store} (hdb : s.db = some st)
    (i : String) :
    stDeleteEntry s i =
      ({ s with db := some { st with entries := removeById st.entries i } },
        Except.ok ()) := by
  simp only [stDeleteEntry, hdb]

theorem stGetChildren_eq {s : VFSState} {st : Store} (hdb : s.db = some st)
    (pid : String) :
    stGetChildren s pid = (s, Except.ok (childrenOf st.entries pid)) := by
  simp only [stGetChildren, hdb]


theorem existsPath_true {s : VFSState} {st : Store} {q : String} {e : Entry}
    (hdb : s.db = some st) (hco : cacheOk st s.cache)
    (hfind : findByPath st (normalize q) = some e) :
    ∃ c2, existsPath s q = ({ s with cache := c2 }, Except.ok true) ∧
      cacheOk st c2 := by
  obtain ⟨c2, hge, hco2⟩ := getEntry_ok hdb hco (normalize q)
  rw [normalize_idem, hfind] at hge
  refine ⟨c2, ?_, hco2⟩
  simp [existsPath, hge]

theorem existsPath_false {s : VFSState} {st : Store} {q : String}
    (hdb : s.db = some st) (hco : cacheOk st s.cache)
    (hfind : findByPath st (normalize q) = none) :
    ∃ c2, existsPath s q = ({ s with cache := c2 }, Except.ok false) ∧
      cacheOk st c2 := by
  obtain ⟨c2, hge, hco2⟩ := getEntry_ok hdb hco (normalize q)
  rw [normalize_idem, hfind] at hge
  refine ⟨c2, ?_, hco2⟩
  simp [existsPath, hge]

theorem countP_path_one {l : List Entry} {p : String} {e : Entry}
    (hwf : l.Pairwise (fun a b => a.id ≠ b.id ∧ a.path ≠ b.path))
    (hfind : listFindPath l p = some e) :
    l.countP (fun x => decide (x.path = p)) = 1 := by
  induction l with
  | nil => simp [listFindPath] at hfind
  | cons x rest ih =>
    rw [listFindPath] at hfind
    rw [List.countP_cons]
    by_cases hx : x.path = p
    · rw [if_pos hx] at hfind
      have hz : rest.countP (fun x => decide (x.path = p)) = 0 := by
        rw [List.countP_eq_zero]
        intro y hy
        simp only [decide_eq_true_eq]
        have h2 := ((List.pairwise_cons.1 hwf).1 y hy).2
        rw [hx] at h2
        exact fun h => h2 (Eq.symm h)
      simp [hz, hx]
    · rw [if_neg hx] at hfind
      have := ih (List.pairwise_cons.1 hwf).2 hfind
      simp [this, hx]


theorem cacheGet_none {st : Store} {c : List (String × Entry)} {p : String}
    (hco : cacheOk st c) (hf : findByPath st p = none) :
    cacheGet c p = none := by
  cases h : cacheGet c p with
  | none => rfl
  | some e =>
    have h2 := hco _ (cacheGet_mem h)
    rw [hf] at h2
    exact Option.noConfusion h2

theorem wfRel_symm :
    Symmetric (fun a b : Entry => a.id ≠ b.id ∧ a.path ≠ b.path) :=
  fun _ _ h => ⟨Ne.symm h.1, Ne.symm h.2⟩

theorem no_other_path {l : List Entry}
    (hwf : l.Pairwise (fun a b => a.id ≠ b.id ∧ a.path ≠ b.path))
    {e : Entry} (hmem : e ∈ l) :
    ¬ ∃ x ∈ l, x.id ≠ e.id ∧ x.path = e.path := by
  rintro ⟨x, hx, hne, hpath⟩
  have hxe : x ≠ e := fun h => hne (by rw [h])
  exact (hwf.forall wfRel_symm hx hmem hxe).2 hpath

theorem no_other_path2 {l : List Entry}
    (hwf : l.Pairwise (fun a b => a.id ≠ b.id ∧ a.path ≠ b.path))
    {e : Entry} (hmem : e ∈ l) {i p : String} (hi : e.id = i)
    (hp : e.path = p) :
    ¬ ∃ x ∈ l, x.id ≠ i ∧ x.path = p := by
  rw [← hi, ← hp]
  exact no_other_path hwf hmem

theorem listFindPath_replace_self {l : List Entry} {i p : String}
    {e f : Entry}
    (hwf : l.Pairwise (fun a b => a.id ≠ b.id ∧ a.path ≠ b.path))
    (hmem : e ∈ l) (hie : e.id = i) (hep : e.path = p) (hfp : f.path = p) :
    listFindPath (l.map (fun x => if x.id = i then f else x)) p = some f := by
  induction l with
  | nil => simp at hmem
  | cons x rest ih =>
    rw [List.map_cons, listFindPath]
    by_cases hx : x.id = i
    · rw [if_pos hx, if_pos hfp]
    · rw [if_neg hx]
      have hxr : e ∈ rest := by
        rcases List.mem_cons.1 hmem with h | h
        · exact absurd (h ▸ hie) hx
        · exact h
      have hxp : x.path ≠ p := by
        intro hp
        have := ((List.pairwise_cons.1 hwf).1 e hxr).2
        rw [hp, hep] at this
        exact this rfl
      rw [if_neg hxp]
      exact ih (List.pairwise_cons.1 hwf).2 hxr

theorem listFindPath_replace_other {l : List Entry} {i p : String} {f : Entry}
    (hother : ∀ x ∈ l, x.id = i → x.path ≠ p) (hfp : f.path ≠ p) :
    listFindPath (l.map (fun x => if x.id = i then f else x)) p =
      listFindPath l p := by
  induction l with
  | nil => rfl
  | cons x rest ih =>
    rw [List.map_cons, listFindPath, listFindPath]
    by_cases hx : x.id = i
    · rw [if_pos hx, if_neg hfp, if_neg (hother x (List.mem_cons_self _ _) hx)]
      exact ih fun y hy => hother y (List.mem_cons_of_mem _ hy)
    · rw [if_neg hx]
      by_cases hxp : x.path = p
      · rw [if_pos hxp, if_pos hxp]
      · rw [if_neg hxp, if_neg hxp]
        exact ih fun y hy => hother y (List.mem_cons_of_mem _ hy)

theorem stPutEntry_fault {s : VFSState} {st : Store} {e : Entry}
    (hdb : s.db = some st) (hf : e.id ∈ st.updateFaults) :
    stPutEntry s e = (s, Except.error (Err.updateFailed e.path)) := by
  simp only [stPutEntry, hdb]
  rw [if_pos hf]


theorem listFindPath_eq_none_iff {l : List Entry} {p : String} :
    listFindPath l p = none ↔ ∀ x ∈ l, x.path ≠ p := by
  induction l with
  | nil => simp [listFindPath]
  | cons x rest ih =>
    rw [listFindPath]
    by_cases hx : x.path = p
    · rw [if_pos hx]
      simp only [List.forall_mem_cons]
      constructor
      · intro h; exact Option.noConfusion h
      · intro h; exact absurd hx h.1
    · rw [if_neg hx]
      simp only [List.forall_mem_cons]
      rw [ih]
      constructor
      · intro h; exact ⟨hx, h⟩
      · intro h; exact h.2

theorem listFindPath_append_left {l : List Entry} {p : String} {x : Entry}
    (h : listFindPath l p = some x) (e : Entry) :
    listFindPath (l ++ [e]) p = some x := by
  induction l with
  | nil => simp [listFindPath] at h
  | cons y rest ih =>
    rw [listFindPath] at h
    rw [List.cons_append, listFindPath]
    by_cases hy : y.path = p
    · rw [if_pos hy] at h ⊢; exact h
    · rw [if_neg hy] at h ⊢; exact ih h

theorem listFindPath_append_right {l : List Entry} {p : String}
    (h : listFindPath l p = none) (e : Entry) :
    listFindPath (l ++ [e]) p = if e.path = p then some e else none := by
  induction l with
  | nil => simp [listFindPath]
  | cons y rest ih =>
    rw [listFindPath] at h
    rw [List.cons_append, listFindPath]
    by_cases hy : y.path = p
    · rw [if_pos hy] at h; exact Option.noConfusion h
    · rw [if_neg hy] at h ⊢; exact ih h

theorem removeById_sublist (l : List Entry) (i : String) :
    (removeById l i).Sublist l := by
  induction l with
  | nil => exact List.Sublist.refl _
  | cons x rest ih =>
    rw [removeById]
    by_cases hx : x.id = i
    · rw [if_pos hx]; exact ih.cons x
    · rw [if_neg hx]; exact ih.cons₂ x

theorem mem_removeById {l : List Entry} {i : String} {x : Entry}
    (h : x ∈ removeById l i) : x ∈ l ∧ x.id ≠ i := by
  induction l with
  | nil => simp [removeById] at h
  | cons y rest ih =>
    rw [removeById] at h
    by_cases hy : y.id = i
    · rw [if_pos hy] at h
      rcases ih h with ⟨hm, hne⟩
      exact ⟨List.mem_cons_of_mem _ hm, hne⟩
    · rw [if_neg hy] at h
      rcases List.mem_cons.1 h with h | h
      · exact ⟨h ▸ List.mem_cons_self _ _, h ▸ hy⟩
      · rcases ih h with ⟨hm, hne⟩
        exact ⟨List.mem_cons_of_mem _ hm, hne⟩

theorem not_mem_removeById {l : List Entry} {i : String} {x : Entry}
    (hi : x.id = i) : x ∉ removeById l i :=
  fun h => (mem_removeById h).2 hi

theorem mem_removeById_of_mem {l : List Entry} {i : String} {x : Entry}
    (hx : x ∈ l) (hi : x.id ≠ i) : x ∈ removeById l i := by
  induction l with
  | nil => simp at hx
  | cons y rest ih =>
    rw [removeById]
    rcases List.mem_cons.1 hx with h | h
    · subst h
      rw [if_neg hi]
      exact List.mem_cons_self _ _
    · by_cases hy : y.id = i
      · rw [if_pos hy]; exact ih h
      · rw [if_neg hy]; exact List.mem_cons_of_mem _ (ih h)

theorem listFindPath_removeById_other {l : List Entry} {i p : String}
    (h : ∀ x ∈ l, x.id = i → x.path ≠ p) :
    listFindPath (removeById l i) p = listFindPath l p := by
  induction l with
  | nil => rfl
  | cons x rest ih =>
    rw [removeById, listFindPath]
    by_cases hx : x.id = i
    · rw [if_pos hx, if_neg (h x (List.mem_cons_self _ _) hx)]
      exact ih fun y hy => h y (List.mem_cons_of_mem _ hy)
    · rw [if_neg hx, listFindPath]
      by_cases hxp : x.path = p
      · rw [if_pos hxp, if_pos hxp]
      · rw [if_neg hxp, if_neg hxp]
        exact ih fun y hy => h y (List.mem_cons_of_mem _ hy)

theorem listFindPath_removeById_none {l : List Entry} {i p : String}
    (h : ∀ x ∈ l, x.path = p → x.id = i) :
    listFindPath (removeById l i) p = none := by
  rw [listFindPath_eq_none_iff]
  intro x hx
  rcases mem_removeById hx with ⟨hm, hne⟩
  exact fun hp => hne (h x hm hp)

theorem mem_map_replace {l : List Entry} {i : String} {f x : Entry}
    (h : x ∈ l.map (fun y => if y.id = i then f else y)) :
    x = f ∨ x ∈ l := by
  rcases List.mem_map.1 h with ⟨y, hy, heq⟩
  by_cases hyi : y.id = i
  · rw [if_pos hyi] at heq
    exact Or.inl heq.symm
  · rw [if_neg hyi] at heq
    exact Or.inr (heq ▸ hy)

theorem unique_by_id {l : List Entry}
    (hwf : l.Pairwise (fun a b => a.id ≠ b.id ∧ a.path ≠ b.path))
    {e x : Entry} (he : e ∈ l) (hx : x ∈ l) (h : x.id = e.id) : x = e := by
  by_contra hne
  exact (hwf.forall wfRel_symm hx he hne).1 h

theorem unique_by_path {l : List Entry}
    (hwf : l.Pairwise (fun a b => a.id ≠ b.id ∧ a.path ≠ b.path))
    {e x : Entry} (he : e ∈ l) (hx : x ∈ l) (h : x.path = e.path) : x = e := by
  by_contra hne
  exact (hwf.forall wfRel_symm hx he hne).2 h

theorem wf_append {l : List Entry}
    (hwf : l.Pairwise (fun a b => a.id ≠ b.id ∧ a.path ≠ b.path))
    {e : Entry} (h : ∀ x ∈ l, x.id ≠ e.id ∧ x.path ≠ e.path) :
    (l ++ [e]).Pairwise (fun a b => a.id ≠ b.id ∧ a.path ≠ b.path) := by
  rw [List.pairwise_append]
  refine ⟨hwf, List.pairwise_singleton _ _, ?_⟩
  intro a ha b hb
  rw [List.mem_singleton] at hb
  exact hb ▸ h a ha

theorem wf_replace {l : List Entry}
    (hwf : l.Pairwise (fun a b => a.id ≠ b.id ∧ a.path ≠ b.path))
    {e f : Entry} (he : e ∈ l) (hid : f.id = e.id) (hpath : f.path = e.path) :
    (l.map (fun x => if x.id = e.id then f else x)).Pairwise
      (fun a b => a.id ≠ b.id ∧ a.path ≠ b.path) := by
  rw [List.pairwise_map]
  refine hwf.imp_of_mem ?_
  intro a b ha hb hab
  have hga : (if a.id = e.id then f else a).id = a.id ∧
      (if a.id = e.id then f else a).path = a.path := by
    by_cases h : a.id = e.id
    · have : a = e := unique_by_id hwf he ha h
      rw [if_pos h, this, hid, hpath]
      exact ⟨rfl, rfl⟩
    · rw [if_neg h]; exact ⟨rfl, rfl⟩
  have hgb : (if b.id = e.id then f else b).id = b.id ∧
      (if b.id = e.id then f else b).path = b.path := by
    by_cases h : b.id = e.id
    · have : b = e := unique_by_id hwf he hb h
      rw [if_pos h, this, hid, hpath]
      exact ⟨rfl, rfl⟩
    · rw [if_neg h]; exact ⟨rfl, rfl⟩
  rw [hga.1, hga.2, hgb.1, hgb.2]
  exact hab

theorem wf_removeById {l : List Entry}
    (hwf : l.Pairwise (fun a b => a.id ≠ b.id ∧ a.path ≠ b.path))
    (i : String) :
    (removeById l i).Pairwise (fun a b => a.id ≠ b.id ∧ a.path ≠ b.path) :=
  hwf.sublist (removeById_sublist l i)


theorem mem_searchNames {l : List Entry} {pat : String} {e : Entry} :
    e ∈ searchNames l pat ↔ e ∈ l ∧ regexTest pat e.name = true := by
  induction l with
  | nil => simp [searchNames]
  | cons x rest ih =>
    rw [searchNames]
    by_cases hx : regexTest pat x.name = true
    · rw [if_pos hx]
      constructor
      · intro h
        rcases List.mem_cons.1 h with h | h
        · exact ⟨h ▸ List.mem_cons_self _ _, h ▸ hx⟩
        · rcases ih.1 h with ⟨hm, hr⟩
          exact ⟨List.mem_cons_of_mem _ hm, hr⟩
      · rintro ⟨hm, hr⟩
        rcases List.mem_cons.1 hm with h | h
        · exact h ▸ List.mem_cons_self _ _
        · exact List.mem_cons_of_mem _ (ih.2 ⟨h, hr⟩)
    · rw [if_neg hx]
      constructor
      · intro h
        rcases ih.1 h with ⟨hm, hr⟩
        exact ⟨List.mem_cons_of_mem _ hm, hr⟩
      · rintro ⟨hm, hr⟩
        rcases List.mem_cons.1 hm with h | h
        · exact absurd (h ▸ hr) hx
        · exact ih.2 ⟨h, hr⟩


theorem cacheOk_retarget {st st2 : Store} {c : List (String × Entry)}
    {p : String} {f : Entry} (hco : cacheOk st c)
    (hsame : ∀ q, q ≠ p → findByPath st2 q = findByPath st q)
    (hf : findByPath st2 p = some f) : cacheOk st2 (cacheSet c p f) := by
  intro kv hm
  rcases mem_cacheSet hm with h | ⟨h, hne⟩
  · subst h; exact hf
  · rw [hsame kv.1 hne]; exact hco kv h

theorem find_replace_self {st : Store} (hwf : storeWF st) {e f : Entry}
    (hmem : e ∈ st.entries) (hid : f.id = e.id) (hpath : f.path = e.path) :
    findByPath { st with entries := st.entries.map (fun x =>
      if x.id = f.id then f else x) } e.path = some f :=
  listFindPath_replace_self hwf hmem hid.symm rfl hpath

theorem find_replace_other {st : Store} (hwf : storeWF st) {e f : Entry}
    (hmem : e ∈ st.entries) (hid : f.id = e.id) (hpath : f.path = e.path)
    {q : String} (hne : q ≠ e.path) :
    findByPath { st with entries := st.entries.map (fun x =>
      if x.id = f.id then f else x) } q = findByPath st q := by
  refine listFindPath_replace_other ?_ ?_
  · intro x hx hxi
    have hxe : x = e := unique_by_id hwf hmem hx (hid ▸ hxi)
    rw [hxe]
    exact fun hp => hne (hp ▸ rfl)
  · rw [hpath]
    exact fun hp => hne (hp ▸ rfl)

theorem readFile_ok {s : VFSState} {st : Store} {e : Entry} {path : String}
    (hdb : s.db = some st) (hwf : storeWF st) (hco : cacheOk st s.cache)
    (hfind : findByPath st (normalize path) = some e)
    (hft : e.etype = EType.file) (hnf : e.id ∉ st.updateFaults) :
    ∃ c2, readFile s path =
        ({ s with
            db := some { st with entries := st.entries.map (fun x =>
              if x.id = (markAccessed (fileRound e) s.clock).id then
                markAccessed (fileRound e) s.clock else x) }
            cache := c2 },
          Except.ok e.content) ∧
      cacheOk { st with entries := st.entries.map (fun x =>
          if x.id = (markAccessed (fileRound e) s.clock).id then
            markAccessed (fileRound e) s.clock else x) } c2 := by
  have hmem : e ∈ st.entries := (findByPath_mem hfind).1
  have hep : e.path = normalize path := (findByPath_mem hfind).2
  obtain ⟨c1, hge, hco1⟩ := getEntry_ok hdb hco (normalize path)
  rw [normalize_idem, hfind] at hge
  have hdb1 : ({ s with cache := c1 } : VFSState).db = some st := hdb
  have hput := stPutEntry_replace
    (e := markAccessed (fileRound e) s.clock) hdb1 hnf
    (no_other_path2 hwf hmem rfl rfl) ⟨e, hmem, rfl⟩
  refine ⟨cacheSet c1 (normalize path) (markAccessed (fileRound e) s.clock),
    ?_, ?_⟩
  · simp only [readFile]
    rw [hge]
    dsimp only
    rw [if_pos hft, hput]
    rfl
  · refine cacheOk_retarget (p := normalize path)
      (f := markAccessed (fileRound e) s.clock) hco1 ?_ ?_
    · intro q hq
      exact find_replace_other (f := markAccessed (fileRound e) s.clock)
        hwf hmem rfl rfl (fun h => hq (h.trans hep))
    · rw [← hep]
      exact find_replace_self (f := markAccessed (fileRound e) s.clock)
        hwf hmem rfl rfl


theorem addChild_id (d : Entry) (cid : String) (clk : Nat) :
    (addChild d cid clk).id = d.id := by
  rw [addChild]
  split <;> rfl

theorem addChild_path (d : Entry) (cid : String) (clk : Nat) :
    (addChild d cid clk).path = d.path := by
  rw [addChild]
  split <;> rfl

theorem removeChild_id (d : Entry) (cid : String) (clk : Nat) :
    (removeChild d cid clk).id = d.id := by
  rw [removeChild]
  split <;> rfl

theorem removeChild_path (d : Entry) (cid : String) (clk : Nat) :
    (removeChild d cid clk).path = d.path := by
  rw [removeChild]
  split <;> rfl

theorem listFind_append_other {l : List Entry} {e : Entry} {q : String}
    (hne : q ≠ e.path) :
    listFindPath (l ++ [e]) q = listFindPath l q := by
  cases h : listFindPath l q with
  | some x => exact listFindPath_append_left h e
  | none => rw [listFindPath_append_right h e, if_neg (fun hp => hne hp.symm)]

theorem wf_replace2 {l : List Entry}
    (hwf : l.Pairwise (fun a b => a.id ≠ b.id ∧ a.path ≠ b.path))
    {e f : Entry} (hmem : e ∈ l) (hid : f.id = e.id)
    (hpath : f.path = e.path) :
    (l.map (fun x => if x.id = f.id then f else x)).Pairwise
      (fun a b => a.id ≠ b.id ∧ a.path ≠ b.path) := by
  rw [hid]
  exact wf_replace hwf hmem hid hpath

theorem createFile_ok {s : VFSState} {st : Store} {pd : Entry}
    (path content : String) (o : FileOpts)
    (hdb : s.db = some st) (hwf : storeWF st) (hco : cacheOk st s.cache)
    (hdest : findByPath st (normalize path) = none)
    (hpd : findByPath st (normalize (dirname (normalize path))) = some pd)
    (hdn : normalize (dirname (normalize path)) = dirname (normalize path))
    (hpdd : pd.etype = EType.dir)
    (hfresh : ∀ x ∈ st.entries, x.id ≠ fileId s.nextId)
    (hqf : pd.id ∉ st.updateFaults) :
    ∃ c5 st5, createFile s path content o =
        ({ s with db := some st5, cache := c5, nextId := s.nextId + 1 },
          Except.ok (mkFile s.nextId (basename (normalize path))
            (normalize path) pd.id content o s.clock)) ∧
      st5.updateFaults = st.updateFaults ∧ storeWF st5 ∧ cacheOk st5 c5 ∧
      findByPath st5 (normalize path) =
        some (mkFile s.nextId (basename (normalize path)) (normalize path)
          pd.id content o s.clock) ∧
      findByPath st5 (normalize (dirname (normalize path))) =
        some (addChild (dirRound pd) (mkFile s.nextId
          (basename (normalize path)) (normalize path) pd.id content o
          s.clock).id s.clock) ∧
      (∀ r, r ≠ normalize path → r ≠ normalize (dirname (normalize path)) →
        findByPath st5 r = findByPath st r) ∧
      (∀ x ∈ st5.entries,
        x = mkFile s.nextId (basename (normalize path)) (normalize path)
            pd.id content o s.clock ∨
          x = addChild (dirRound pd) (mkFile s.nextId
            (basename (normalize path)) (normalize path) pd.id content o
            s.clock).id s.clock ∨ x ∈ st.entries) := by
  have hppd : pd.path = normalize (dirname (normalize path)) :=
    (findByPath_mem hpd).2
  have hpdm : pd ∈ st.entries := (findByPath_mem hpd).1
  have hppne : normalize (dirname (normalize path)) ≠ normalize path := by
    intro h
    rw [h, hdest] at hpd
    exact Option.noConfusion hpd
  set nf := mkFile s.nextId (basename (normalize path)) (normalize path)
    pd.id content o s.clock with hnf
  set parent := addChild (dirRound pd) nf.id s.clock with hparent
  have hpid : parent.id = pd.id := by
    rw [hparent, addChild_id]
    rfl
  have hppath : parent.path = pd.path := by
    rw [hparent, addChild_path]
    rfl
  have hnfpath : nf.path = normalize path := rfl
  have hnfid : nf.id = fileId s.nextId := rfl
  obtain ⟨c2, hex, hco2⟩ := existsPath_false hdb hco
    (by rw [normalize_idem]; exact hdest)
  have hdb2 : ({ s with cache := c2 } : VFSState).db = some st := hdb
  obtain ⟨c3, hge, hco3⟩ := getEntry_ok hdb2 hco2 (dirname (normalize path))
  rw [hpd] at hge
  have hdb3b : ({ s with cache := c3, nextId := s.nextId + 1 } :
      VFSState).db = some st := hdb
  have hnoc : ¬ ∃ x ∈ st.entries, x.id = nf.id ∨ x.path = nf.path := by
    rintro ⟨x, hx, h | h⟩
    · exact hfresh x hx (hnfid ▸ h)
    · exact (listFindPath_eq_none_iff.1 hdest) x hx (hnfpath ▸ h)
  have hcreate := stCreateEntry_ok (e := nf) hdb3b hnoc
  have hdb4 : ({ s with
      cache := c3
      nextId := s.nextId + 1
      db := some { st with entries := st.entries ++ [nf] } } :
      VFSState).db = some { st with entries := st.entries ++ [nf] } := rfl
  have hpdm4 : pd ∈ st.entries ++ [nf] := List.mem_append_left _ hpdm
  have hwf4 : (st.entries ++ [nf]).Pairwise
      (fun a b => a.id ≠ b.id ∧ a.path ≠ b.path) := by
    refine wf_append hwf ?_
    intro x hx
    refine ⟨fun h => hfresh x hx (h.trans hnfid), ?_⟩
    exact fun h => (listFindPath_eq_none_iff.1 hdest) x hx (h.trans hnfpath)
  have hnoc2 : ¬ ∃ x ∈ ({ st with entries := st.entries ++ [nf] } :
      Store).entries, x.id ≠ parent.id ∧ x.path = parent.path := by
    rintro ⟨x, hx, hne, hp⟩
    rw [hppath] at hp
    rw [hpid] at hne
    rcases List.mem_append.1 hx with hx | hx
    · exact no_other_path2 hwf hpdm rfl rfl ⟨x, hx, hne, hp⟩
    · rw [List.mem_singleton] at hx
      subst hx
      rw [hnfpath, hppd] at hp
      exact hppne hp.symm
  have hput := stPutEntry_replace (e := parent) hdb4
    (fun h => hqf (hpid ▸ h)) hnoc2 ⟨pd, hpdm4, hpid.symm⟩
  have hfind4 : listFindPath (st.entries ++ [nf]) (normalize path) = some nf := by
    rw [listFindPath_append_right hdest nf, if_pos hnfpath]
  have hreplnp : listFindPath ((st.entries ++ [nf]).map (fun x =>
      if x.id = parent.id then parent else x)) (normalize path) =
      listFindPath (st.entries ++ [nf]) (normalize path) := by
    refine listFindPath_replace_other ?_ ?_
    · intro x hx hxi
      have hxpd : x = pd := unique_by_id hwf4 hpdm4 hx (hxi.trans hpid)
      rw [hxpd, hppd]
      exact hppne
    · rw [hppath, hppd]
      exact hppne
  have hfind5np : listFindPath ((st.entries ++ [nf]).map (fun x =>
      if x.id = parent.id then parent else x)) (normalize path) = some nf :=
    hreplnp.trans hfind4
  have hfind5pp : listFindPath ((st.entries ++ [nf]).map (fun x =>
      if x.id = parent.id then parent else x)) pd.path = some parent :=
    listFindPath_replace_self hwf4 hpdm4 hpid.symm rfl hppath
  have htrans : ∀ r, r ≠ normalize path →
      r ≠ normalize (dirname (normalize path)) →
      listFindPath ((st.entries ++ [nf]).map (fun x =>
        if x.id = parent.id then parent else x)) r =
        listFindPath st.entries r := by
    intro r h1 h2
    have ha : listFindPath ((st.entries ++ [nf]).map (fun x =>
        if x.id = parent.id then parent else x)) r =
        listFindPath (st.entries ++ [nf]) r := by
      refine listFindPath_replace_other ?_ ?_
      · intro x hx hxi
        have hxpd : x = pd := unique_by_id hwf4 hpdm4 hx (hxi.trans hpid)
        rw [hxpd, hppd]
        exact fun h => h2 h.symm
      · rw [hppath, hppd]
        exact fun h => h2 h.symm
    have hb : listFindPath (st.entries ++ [nf]) r = listFindPath st.entries r :=
      listFind_append_other (by rw [hnfpath]; exact h1)
    exact ha.trans hb
  refine ⟨cacheSet (cacheSet c3 (normalize path) nf)
      (dirname (normalize path)) parent,
    { st with entries := (st.entries ++ [nf]).map (fun x =>
      if x.id = parent.id then parent else x) }, ?_, rfl, ?_, ?_, ?_, ?_, ?_, ?_⟩
  · simp only [createFile]
    rw [hex]
    dsimp only
    rw [hge]
    dsimp only
    rw [if_pos hpdd]
    rw [hcreate]
    dsimp only
    rw [hput]
  · exact wf_replace2 hwf4 hpdm4 hpid hppath
  · intro kv hm
    rcases mem_cacheSet hm with h | ⟨h, hne⟩
    · subst h
      show listFindPath ((st.entries ++ [nf]).map (fun x =>
        if x.id = parent.id then parent else x))
        (dirname (normalize path)) = some parent
      rw [← hdn, ← hppd]
      exact hfind5pp
    · rcases mem_cacheSet h with h2 | ⟨h2, hne2⟩
      · subst h2
        exact hfind5np
      · have h3 := hco3 kv h2
        show listFindPath ((st.entries ++ [nf]).map (fun x =>
          if x.id = parent.id then parent else x)) kv.1 = some kv.2
        rw [htrans kv.1 hne2 (fun h => hne (h.trans hdn))]
        exact h3
  · exact hfind5np
  · have h := hfind5pp
    rw [hppd] at h
    exact h
  · intro r h1 h2
    exact htrans r h1 h2
  · intro x hx
    rcases mem_map_replace hx with h | h
    · exact Or.inr (Or.inl h)
    · rcases List.mem_append.1 h with h | h
      · exact Or.inr (Or.inr h)
      · rw [List.mem_singleton] at h
        exact Or.inl h

theorem mem_cacheDel {c : List (String × Entry)} {p : String}
    {kv : String × Entry} (h : kv ∈ cacheDel c p) : kv ∈ c ∧ kv.1 ≠ p := by
  have h2 := List.mem_filter.1 h
  exact ⟨h2.1, by simpa using h2.2⟩

theorem deleteFile_ok {s : VFSState} {st : Store} {e q : Entry}
    (path : String)
    (hdb : s.db = some st) (hwf : storeWF st) (hco : cacheOk st s.cache)
    (hfind : findByPath st (normalize path) = some e)
    (hft : e.etype = EType.file)
    (hq : findByPath st (normalize (dirname (normalize path))) = some q)
    (hdn : normalize (dirname (normalize path)) = dirname (normalize path))
    (hne : normalize (dirname (normalize path)) ≠ normalize path)
    (hqf : q.id ∉ st.updateFaults) :
    ∃ c4 st4, deleteFile s path =
        ({ s with db := some st4, cache := c4 }, Except.ok true) ∧
      st4 = { st with entries := removeById (st.entries.map (fun w =>
        if w.id = (removeChild (dirRound q) e.id s.clock).id then
          removeChild (dirRound q) e.id s.clock else w)) e.id } ∧
      st4.updateFaults = st.updateFaults ∧ storeWF st4 ∧ cacheOk st4 c4 ∧
      findByPath st4 (normalize path) = none ∧
      (∀ r, r ≠ normalize path → r ≠ normalize (dirname (normalize path)) →
        findByPath st4 r = findByPath st r) := by
  have hmem : e ∈ st.entries := (findByPath_mem hfind).1
  have hep : e.path = normalize path := (findByPath_mem hfind).2
  have hqmem : q ∈ st.entries := (findByPath_mem hq).1
  have hqp : q.path = normalize (dirname (normalize path)) :=
    (findByPath_mem hq).2
  have hqe : q.id ≠ e.id := by
    intro h
    have hq2 : q = e := unique_by_id hwf hmem hqmem h
    rw [hq2, hep] at hqp
    exact hne hqp.symm
  obtain ⟨c1, hge, hco1⟩ := getEntry_ok hdb hco (normalize path)
  rw [normalize_idem, hfind] at hge
  have hdb1 : ({ s with cache := c1 } : VFSState).db = some st := hdb
  obtain ⟨c2, hge2, hco2⟩ := getEntry_ok hdb1 hco1 (dirname (normalize path))
  rw [hq] at hge2
  set parent := removeChild (dirRound q) e.id s.clock with hparent
  have hpid : parent.id = q.id := by
    rw [hparent, removeChild_id]
    rfl
  have hppath : parent.path = q.path := by
    rw [hparent, removeChild_path]
    rfl
  have hdb2 : ({ s with cache := c2 } : VFSState).db = some st := hdb
  have hput := stPutEntry_replace (e := parent) hdb2
    (fun h => hqf (hpid ▸ h))
    (no_other_path2 hwf hqmem hpid.symm hppath.symm) ⟨q, hqmem, hpid.symm⟩
  have hrep : ∀ r, r ≠ normalize (dirname (normalize path)) →
      listFindPath (st.entries.map (fun x =>
        if x.id = parent.id then parent else x)) r =
        listFindPath st.entries r := by
    intro r h2
    refine listFindPath_replace_other ?_ ?_
    · intro x hx hxi
      have hx2 : x = q := unique_by_id hwf hqmem hx (hxi.trans hpid)
      rw [hx2, hqp]
      exact fun hh => h2 hh.symm
    · rw [hppath, hqp]
      exact fun hh => h2 hh.symm
  have hrem : ∀ r, r ≠ normalize path →
      listFindPath (removeById (st.entries.map (fun x =>
        if x.id = parent.id then parent else x)) e.id) r =
        listFindPath (st.entries.map (fun x =>
          if x.id = parent.id then parent else x)) r := by
    intro r h1
    refine listFindPath_removeById_other ?_
    intro x hx hxi
    rcases mem_map_replace hx with hxp | hxs
    · rw [hxp] at hxi
      exact absurd (hpid.symm.trans hxi) hqe
    · have hx2 : x = e := unique_by_id hwf hmem hxs hxi
      rw [hx2, hep]
      exact fun hh => h1 hh.symm
  have htrans : ∀ r, r ≠ normalize path →
      r ≠ normalize (dirname (normalize path)) →
      listFindPath (removeById (st.entries.map (fun x =>
        if x.id = parent.id then parent else x)) e.id) r =
        listFindPath st.entries r :=
    fun r h1 h2 => (hrem r h1).trans (hrep r h2)
  have hfq : listFindPath (removeById (st.entries.map (fun x =>
      if x.id = parent.id then parent else x)) e.id) q.path = some parent := by
    rw [hrem q.path (by rw [hqp]; exact hne)]
    exact listFindPath_replace_self hwf hqmem hpid.symm rfl hppath
  have hfnone : listFindPath (removeById (st.entries.map (fun x =>
      if x.id = parent.id then parent else x)) e.id) (normalize path) =
      none := by
    refine listFindPath_removeById_none ?_
    intro x hx hxp
    rcases mem_map_replace hx with hxpar | hxs
    · rw [hxpar, hppath, hqp] at hxp
      exact absurd hxp hne
    · have hx2 : x = e := unique_by_path hwf hmem hxs (hxp.trans hep.symm)
      rw [hx2]
  refine ⟨cacheDel (cacheSet c2 (dirname (normalize path)) parent)
      (normalize path),
    { st with entries := removeById (st.entries.map (fun x =>
      if x.id = parent.id then parent else x)) e.id },
    ?_, rfl, rfl, ?_, ?_, ?_, ?_⟩
  · simp only [deleteFile]
    rw [hge]
    dsimp only
    rw [if_pos hft]
    rw [hge2]
    dsimp only
    rw [hput]
    rfl
  · exact wf_removeById (wf_replace2 hwf hqmem hpid hppath) e.id
  · intro kv hm
    obtain ⟨hm2, hkp⟩ := mem_cacheDel hm
    rcases mem_cacheSet hm2 with h1 | ⟨h1, hkpp⟩
    · subst h1
      show listFindPath (removeById (st.entries.map (fun x =>
        if x.id = parent.id then parent else x)) e.id)
        (dirname (normalize path)) = some parent
      rw [← hdn, ← hqp]
      exact hfq
    · have h3 := hco2 kv h1
      show listFindPath (removeById (st.entries.map (fun x =>
        if x.id = parent.id then parent else x)) e.id) kv.1 = some kv.2
      rw [htrans kv.1 hkp (fun h => hkpp (h.trans hdn))]
      exact h3
  · exact hfnone
  · intro r h1 h2
    exact htrans r h1 h2

/-- C8 (amended): normalize is idempotent for all input strings, produces
nonempty output for every nonempty input (the empty string maps to the
empty string, not to a drive root), and satisfies the reference example
normalize "C:/a//b/../c" = "C:\\a\\c". -/
theorem C8_normalize_contract :
    (∀ s, normalize (normalize s) = normalize s) ∧
      (∀ s, s ≠ "" → normalize s ≠ "") ∧
      normalize "C:/a//b/../c" = "C:\\a\\c" :=
  ⟨normalize_idem, fun _ h => normalize_ne_empty h, by decide⟩

/-- C8 counterexample: the claim says normalize never produces empty
output, but the source's empty-input guard (if (!path) return "") returns
the empty string on the empty input. -/
theorem C8_counterexample : normalize "" = "" := rfl

/-- C8 witness. -/
theorem C8_witness :
    normalize (normalize "x") = normalize "x" ∧ normalize "x" ≠ "" :=
  ⟨C8_normalize_contract.1 "x", C8_normalize_contract.2.1 "x" (by decide)⟩

/-- C2 (amended): no coordinator operation checks the initialized flag.
Called on a freshly constructed coordinator (null database handle, empty
cache), every public operation other than initialize fails with the
JavaScript TypeError raised by accessing the null storage handle — not with
a NotInitialized error, which no code path of the source constructs. -/
theorem C2_uninitialized_ops (op : Op) (h : opFueled op) :
    runOp op VFS_new = (VFS_new, Except.error Err.typeError) := by
  cases op with
  | createFile p c => rfl
  | readFile p => rfl
  | writeFile p c => rfl
  | deleteFile p => rfl
  | createDirectory p => rfl
  | listDirectory p => rfl
  | deleteDirectory fuel p r =>
    cases fuel with
    | zero => simp [opFueled] at h
    | succ n =>
      show (match deleteDirectory (n + 1) VFS_new p r with
        | (s1, Except.error e) => (s1, Except.error e)
        | (s1, Except.ok _) => (s1, Except.ok ())) =
          (VFS_new, Except.error Err.typeError)
      rw [deleteDirectory]
      rfl
  | rename o n => rfl
  | copyFile a b => rfl
  | moveFile a b => rfl
  | search pat d => rfl

/-- C2 counterexample: createFile before initialize fails with the storage
TypeError, which is not the NotInitialized error the claim requires. -/
theorem C2_counterexample :
    (runOp (Op.createFile "C:\\x.txt" "hi") VFS_new).2 =
        Except.error Err.typeError ∧
      Err.typeError ≠ Err.notInitialized :=
  ⟨rfl, by decide⟩

/-- C2 witness. -/
theorem C2_witness :
    runOp (Op.readFile "C:\\x.txt") VFS_new =
      (VFS_new, Except.error Err.typeError) :=
  C2_uninitialized_ops (Op.readFile "C:\\x.txt") trivial



/-- C1 (amended): rename updates name, path and modified of the renamed
entry only.  Every other stored record — in particular every descendant of
a renamed directory — is kept exactly as it was, so the oldPath prefix of
descendant paths is NOT rewritten and prefix consistency is lost for
directory renames. -/
theorem C1_rename_updates_only_target
    (s : VFSState) (oldPath newPath : String) (st : Store) (e : Entry)
    (hdb : s.db = some st) (hco : cacheOk st s.cache)
    (hfind : findByPath st (normalize oldPath) = some e)
    (hnf : e.id ∉ st.updateFaults)
    (hnc : ¬ ∃ x ∈ st.entries, x.id ≠ e.id ∧ x.path = normalize newPath) :
    (rename s oldPath newPath).2 =
        Except.ok (renamedEntry e (normalize newPath) s.clock) ∧
      ∃ st2, (rename s oldPath newPath).1.db = some st2 ∧
        st2.entries = st.entries.map (fun x =>
          if x.id = e.id then renamedEntry e (normalize newPath) s.clock
          else x) ∧
        ∀ x ∈ st.entries, x.id ≠ e.id → x ∈ st2.entries := by
  obtain ⟨c2, hge, hco2⟩ := getEntry_ok hdb hco (normalize oldPath)
  rw [normalize_idem, hfind] at hge
  have hs1db : ({ s with cache := c2 } : VFSState).db = some st := hdb
  have hput := stPutEntry_replace
    (e := renamedEntry e (normalize newPath) s.clock) hs1db hnf hnc
    ⟨e, (findByPath_mem hfind).1, rfl⟩
  simp only [rename]
  rw [hge]
  dsimp only
  rw [hput]
  refine ⟨rfl, _, rfl, rfl, ?_⟩
  intro x hx hne
  refine List.mem_map.2 ⟨x, hx, ?_⟩
  dsimp only [renamedEntry]
  rw [if_neg hne]

/-- C1 counterexample: renaming directory C:\A to C:\B succeeds, yet the
descendant file record keeps its old path C:\A\x.txt — it does not
become C:\B\x.txt as the claim requires. -/
theorem C1_counterexample :
    (rename sampleState "C:\\A" "C:\\B").2 =
        Except.ok (renamedEntry sampleDirA "C:\\B" 7) ∧
      ((rename sampleState "C:\\A" "C:\\B").1.db.map
          (fun st => st.entries.map (fun e => e.path)) =
        some ["C:\\", "C:\\B", "C:\\A\\x.txt"]) :=
  ⟨rfl, rfl⟩

/-- C1 witness. -/
theorem C1_witness :
    (rename sampleState "C:\\A" "C:\\B").2 =
      Except.ok (renamedEntry sampleDirA (normalize "C:\\B") sampleState.clock) :=
  (C1_rename_updates_only_target sampleState "C:\\A" "C:\\B" sampleStore
    sampleDirA rfl (by decide) (by decide) (by decide) (by decide)).1



/-- C4 (amended): createFile fails with AlreadyExists when an entry exists
at the path (and the failed call leaves storage untouched, which therefore
still holds exactly one entry for that path); it fails with the same
"Parent directory not found" error both when the parent path resolves to
nothing and when it resolves to a File — the source has no distinct
InvalidType error for the file-parent case. -/
theorem C4_createFile_error_cases :
    (∀ (s : VFSState) (st : Store) (e : Entry) (path content : String)
        (o : FileOpts), s.db = some st → storeWF st → cacheOk st s.cache →
      findByPath st (normalize path) = some e →
      (∃ c2, createFile s path content o =
        ({ s with cache := c2 },
          Except.error (Err.fileAlreadyExists (normalize path)))) ∧
      st.entries.countP (fun x => decide (x.path = normalize path)) = 1) ∧
    (∀ (s : VFSState) (st : Store) (path content : String) (o : FileOpts),
      s.db = some st → cacheOk st s.cache →
      findByPath st (normalize path) = none →
      findByPath st (normalize (dirname (normalize path))) = none →
      ∃ c2, createFile s path content o =
        ({ s with cache := c2 },
          Except.error (Err.parentNotFound (dirname (normalize path))))) ∧
    (∀ (s : VFSState) (st : Store) (pe : Entry) (path content : String)
        (o : FileOpts), s.db = some st → cacheOk st s.cache →
      findByPath st (normalize path) = none →
      findByPath st (normalize (dirname (normalize path))) = some pe →
      pe.etype = EType.file →
      ∃ c2, createFile s path content o =
        ({ s with cache := c2 },
          Except.error (Err.parentNotFound (dirname (normalize path))))) := by
  refine ⟨?_, ?_, ?_⟩
  · intro s st e path content o hdb hwf hco hfind
    obtain ⟨c2, hex, hco2⟩ := existsPath_true hdb hco
      (by rw [normalize_idem]; exact hfind)
    refine ⟨⟨c2, ?_⟩, countP_path_one hwf hfind⟩
    simp only [createFile]
    rw [hex]
  · intro s st path content o hdb hco hfind hparent
    obtain ⟨c2, hex, hco2⟩ := existsPath_false hdb hco
      (by rw [normalize_idem]; exact hfind)
    have hdb2 : ({ s with cache := c2 } : VFSState).db = some st := hdb
    obtain ⟨c3, hge, hco3⟩ := getEntry_ok hdb2 hco2 (dirname (normalize path))
    rw [hparent] at hge
    refine ⟨c3, ?_⟩
    simp only [createFile]
    rw [hex]
    dsimp only
    rw [hge]
  · intro s st pe path content o hdb hco hfind hparent hft
    obtain ⟨c2, hex, hco2⟩ := existsPath_false hdb hco
      (by rw [normalize_idem]; exact hfind)
    have hdb2 : ({ s with cache := c2 } : VFSState).db = some st := hdb
    obtain ⟨c3, hge, hco3⟩ := getEntry_ok hdb2 hco2 (dirname (normalize path))
    rw [hparent] at hge
    refine ⟨c3, ?_⟩
    simp only [createFile]
    rw [hex]
    dsimp only
    rw [hge]
    dsimp only
    rw [if_neg (by rw [hft]; exact fun h => EType.noConfusion h)]

/-- C4 counterexample: creating a file whose parent path resolves to a File
fails with the very same "Parent directory not found" error template as a
missing parent — not with a distinct InvalidType error. -/
theorem C4_counterexample :
    (createFile sampleState "C:\\A\\x.txt\\z" "c" noOpts).2 =
        Except.error (Err.parentNotFound "C:\\A\\x.txt") ∧
      (createFile sampleState "C:\\B\\z" "c" noOpts).2 =
        Except.error (Err.parentNotFound "C:\\B") :=
  ⟨rfl, rfl⟩

/-- C4 witness. -/
theorem C4_witness :
    (∃ c2, createFile sampleState "C:\\A\\x.txt" "dup" noOpts =
      ({ sampleState with cache := c2 },
        Except.error (Err.fileAlreadyExists (normalize "C:\\A\\x.txt")))) ∧
      sampleStore.entries.countP
        (fun x => decide (x.path = normalize "C:\\A\\x.txt")) = 1 :=
  C4_createFile_error_cases.1 sampleState sampleStore sampleFileX
    "C:\\A\\x.txt" "dup" noOpts rfl (by decide) (by decide) (by decide)



/-- C6 (confirmed): writeFile on a missing path behaves exactly as
createFile; on an existing File it stores the record with the content
replaced, the size recomputed from the new content, the modified timestamp
set and attributes.archive forced true, and the updated record is the one
persisted at that path; on a Directory it fails with the "Not a file"
error. -/
theorem C6_writeFile_behavior :
    (∀ (s : VFSState) (st : Store) (path content : String),
      s.db = some st → cacheOk st s.cache →
      findByPath st (normalize path) = none →
      writeFile s path content = createFile s path content noOpts) ∧
    (∀ (s : VFSState) (st : Store) (e : Entry) (path content : String),
      s.db = some st → storeWF st → cacheOk st s.cache →
      findByPath st (normalize path) = some e → e.etype = EType.file →
      e.id ∉ st.updateFaults →
      ∃ c2, writeFile s path content =
        ({ s with
            db := some { st with entries := st.entries.map (fun x =>
              if x.id = e.id then setContent (fileRound e) content s.clock
              else x) }
            cache := c2 },
          Except.ok (setContent (fileRound e) content s.clock)) ∧
        findByPath { st with entries := st.entries.map (fun x =>
            if x.id = e.id then setContent (fileRound e) content s.clock
            else x) } (normalize path) =
          some (setContent (fileRound e) content s.clock) ∧
        (setContent (fileRound e) content s.clock).content = content ∧
        (setContent (fileRound e) content s.clock).size =
          content.utf8ByteSize ∧
        (setContent (fileRound e) content s.clock).modified = s.clock ∧
        (setContent (fileRound e) content s.clock).attributes.archive =
          true) ∧
    (∀ (s : VFSState) (st : Store) (e : Entry) (path content : String),
      s.db = some st → cacheOk st s.cache →
      findByPath st (normalize path) = some e → e.etype = EType.dir →
      ∃ c2, writeFile s path content =
        ({ s with cache := c2 }, Except.error (Err.notAFile (normalize path)))) := by
  refine ⟨?_, ?_, ?_⟩
  · intro s st path content hdb hco hfind
    have hcg2 : cacheGet s.cache (normalize (normalize path)) = none := by
      rw [normalize_idem]
      exact cacheGet_none hco hfind
    have hfind2 : findByPath st (normalize (normalize path)) = none := by
      rw [normalize_idem]
      exact hfind
    have hge := getEntry_store_miss hcg2 hdb hfind2
    simp only [writeFile]
    rw [hge]
    dsimp only
    simp only [createFile, normalize_idem]
  · intro s st e path content hdb hwf hco hfind hft hnf
    have hep : e.path = normalize path := (findByPath_mem hfind).2
    have hmem : e ∈ st.entries := (findByPath_mem hfind).1
    obtain ⟨c2, hge, hco2⟩ := getEntry_ok hdb hco (normalize path)
    rw [normalize_idem, hfind] at hge
    have hdb2 : ({ s with cache := c2 } : VFSState).db = some st := hdb
    have hput := stPutEntry_replace
      (e := setContent (fileRound e) content s.clock) hdb2 hnf
      (no_other_path2 hwf hmem rfl rfl) ⟨e, hmem, rfl⟩
    simp only [writeFile]
    rw [hge]
    dsimp only
    rw [if_pos hft, hput]
    refine ⟨_, rfl, ?_, rfl, rfl, rfl, rfl⟩
    exact listFindPath_replace_self hwf hmem rfl hep hep
  · intro s st e path content hdb hco hfind hfd
    obtain ⟨c2, hge, hco2⟩ := getEntry_ok hdb hco (normalize path)
    rw [normalize_idem, hfind] at hge
    refine ⟨c2, ?_⟩
    simp only [writeFile]
    rw [hge]
    dsimp only
    rw [if_neg (by rw [hfd]; exact fun h => EType.noConfusion h)]

/-- C6 witness. -/
theorem C6_witness :
    writeFile sampleState "C:\\new.txt" "c" =
      createFile sampleState "C:\\new.txt" "c" noOpts :=
  C6_writeFile_behavior.1 sampleState sampleStore "C:\\new.txt" "c" rfl
    (by decide) (by decide)

/-- C7 (amended): readFile on an existing File returns its content when the
accessed-timestamp touch persists, but the touch is NOT best-effort: when
the backend fails to persist the touch, the error propagates and the read
fails instead of returning the content. -/
theorem C7_readFile_touch :
    (∀ (s : VFSState) (st : Store) (e : Entry) (path : String),
      s.db = some st → storeWF st → cacheOk st s.cache →
      findByPath st (normalize path) = some e → e.etype = EType.file →
      e.id ∉ st.updateFaults →
      ∃ c2, readFile s path =
        ({ s with
            db := some { st with entries := st.entries.map (fun x =>
              if x.id = e.id then markAccessed (fileRound e) s.clock
              else x) }
            cache := c2 },
          Except.ok e.content)) ∧
    (∀ (s : VFSState) (st : Store) (e : Entry) (path : String),
      s.db = some st → cacheOk st s.cache →
      findByPath st (normalize path) = some e → e.etype = EType.file →
      e.id ∈ st.updateFaults →
      ∃ c2, readFile s path =
        ({ s with cache := c2 },
          Except.error (Err.updateFailed (normalize path)))) := by
  constructor
  · intro s st e path hdb hwf hco hfind hft hnf
    have hmem : e ∈ st.entries := (findByPath_mem hfind).1
    obtain ⟨c2, hge, hco2⟩ := getEntry_ok hdb hco (normalize path)
    rw [normalize_idem, hfind] at hge
    have hdb2 : ({ s with cache := c2 } : VFSState).db = some st := hdb
    have hput := stPutEntry_replace
      (e := markAccessed (fileRound e) s.clock) hdb2 hnf
      (no_other_path2 hwf hmem rfl rfl) ⟨e, hmem, rfl⟩
    simp only [readFile]
    rw [hge]
    dsimp only
    rw [if_pos hft, hput]
    exact ⟨_, rfl⟩
  · intro s st e path hdb hco hfind hft hf
    have hep : e.path = normalize path := (findByPath_mem hfind).2
    obtain ⟨c2, hge, hco2⟩ := getEntry_ok hdb hco (normalize path)
    rw [normalize_idem, hfind] at hge
    have hdb2 : ({ s with cache := c2 } : VFSState).db = some st := hdb
    have hput := stPutEntry_fault
      (e := markAccessed (fileRound e) s.clock) hdb2 hf
    refine ⟨c2, ?_⟩
    rw [← hep]
    simp only [readFile]
    rw [hge]
    dsimp only
    rw [if_pos hft, hput]
    rfl

/-- C7 counterexample: with the backend faulting on the accessed-timestamp
persist, the read fails with the storage error instead of still returning
the content. -/
theorem C7_counterexample :
    (readFile faultState "C:\\A\\x.txt").2 =
        Except.error (Err.updateFailed "C:\\A\\x.txt") ∧
      (readFile faultState "C:\\A\\x.txt").2 ≠ Except.ok "hi" :=
  ⟨rfl, by
    rw [show (readFile faultState "C:\\A\\x.txt").2 =
      Except.error (Err.updateFailed "C:\\A\\x.txt") from rfl]
    exact fun h => Except.noConfusion h⟩

/-- C7 witness. -/
theorem C7_witness :
    ∃ c2, readFile faultState "C:\\A\\x.txt" =
      ({ faultState with cache := c2 },
        Except.error (Err.updateFailed (normalize "C:\\A\\x.txt"))) :=
  C7_readFile_touch.2 faultState faultStore sampleFileX "C:\\A\\x.txt" rfl
    (by decide) (by decide) (by decide) (by decide)



/-- C9 (amended): search returns exactly the entries whose name the derived
regular expression matches somewhere (the pattern's `*` becomes `.*`, its
`.` matches any character, the match is case-insensitive and UNANCHORED —
substring search, not a whole-name glob), filtered, when the raw directory
argument differs from the literal root string, to entries whose path is
under or equal to the normalized directory. -/
theorem C9_search_characterization :
    (∀ (s : VFSState) (st : Store) (pattern directory : String),
      s.db = some st → directory ≠ "C:\\" →
      search s pattern directory =
        (s, Except.ok (searchFilter (searchNames st.entries pattern)
          (normalize directory))) ∧
      ∀ e, e ∈ searchFilter (searchNames st.entries pattern)
          (normalize directory) ↔
        e ∈ st.entries ∧ regexTest pattern e.name = true ∧
          (isChildOf e.path (normalize directory) = true ∨
            pathEquals e.path (normalize directory) = true)) ∧
    (∀ (s : VFSState) (st : Store) (pattern : String),
      s.db = some st →
      search s pattern "C:\\" =
        (s, Except.ok (searchNames st.entries pattern)) ∧
      ∀ e, e ∈ searchNames st.entries pattern ↔
        e ∈ st.entries ∧ regexTest pattern e.name = true) := by
  constructor
  · intro s st pattern directory hdb hdir
    constructor
    · simp only [search, hdb]
      rw [if_neg hdir]
    · intro e
      rw [searchFilter, List.mem_filter, mem_searchNames, Bool.or_eq_true,
        and_assoc]
  · intro s st pattern hdb
    constructor
    · simp only [search, hdb]
      simp
    · intro e
      exact mem_searchNames

/-- C9 counterexample: search "*.txt" under C:\Docs returns the entry
named notes.txt.bak although the whole-name glob for *.txt rejects that
name — the source does a substring regex search, not a whole-name glob
match. -/
theorem C9_counterexample :
    (search docsState "*.txt" "C:\\Docs").2 = Except.ok [sampleBak] ∧
      specGlobWholeMatch "*.txt" sampleBak.name = false :=
  ⟨rfl, rfl⟩

/-- C9 witness. -/
theorem C9_witness :
    search docsState "*.txt" "C:\\Docs" =
      (docsState, Except.ok (searchFilter
        (searchNames docsStore.entries "*.txt") (normalize "C:\\Docs"))) :=
  (C9_search_characterization.1 docsState docsStore "*.txt" "C:\\Docs" rfl
    (by decide)).1



/-- C10: moveFile is copy-then-delete, so for an existing source File a
successful move removes the entry at the source path and creates at the
destination an entry with the same content but a FRESHLY generated id (the
id is not preserved), whereas rename re-stores the mutated record itself
and keeps the id. -/
theorem C10_moveFile_fresh_id_rename_keeps_id
    (srcPath destPath : String) (s : VFSState) (st : Store) (e q pd : Entry)
    (hdb : s.db = some st) (hwf : storeWF st) (hco : cacheOk st s.cache)
    (hsrc : findByPath st (normalize srcPath) = some e)
    (hft : e.etype = EType.file)
    (hq : findByPath st (normalize (dirname (normalize srcPath))) = some q)
    (hdnS : normalize (dirname (normalize srcPath)) =
      dirname (normalize srcPath))
    (hneS : normalize (dirname (normalize srcPath)) ≠ normalize srcPath)
    (hdest : findByPath st (normalize destPath) = none)
    (hpd : findByPath st (normalize (dirname (normalize destPath))) = some pd)
    (hdnD : normalize (dirname (normalize destPath)) =
      dirname (normalize destPath))
    (hpdd : pd.etype = EType.dir)
    (hpp : normalize (dirname (normalize srcPath)) ≠
      normalize (dirname (normalize destPath)))
    (hfresh : ∀ x ∈ st.entries, x.id ≠ fileId s.nextId)
    (hfaults : st.updateFaults = []) :
    (∃ s2 st2 nf, moveFile s srcPath destPath = (s2, Except.ok true) ∧
      s2.db = some st2 ∧
      findByPath st2 (normalize destPath) = some nf ∧
      nf.content = e.content ∧ nf.id = fileId s.nextId ∧ nf.id ≠ e.id ∧
      findByPath st2 (normalize srcPath) = none) ∧
    (∃ s3 e2, rename s srcPath destPath = (s3, Except.ok e2) ∧
      e2.id = e.id ∧ e2.path = normalize destPath) := by
  have hmem : e ∈ st.entries := (findByPath_mem hsrc).1
  have hep : e.path = normalize srcPath := (findByPath_mem hsrc).2
  have hqmem : q ∈ st.entries := (findByPath_mem hq).1
  have hqpath : q.path = normalize (dirname (normalize srcPath)) :=
    (findByPath_mem hq).2
  have hfa : e.id ∉ st.updateFaults := by
    rw [hfaults]
    exact List.not_mem_nil _
  have hsd : normalize srcPath ≠ normalize destPath := by
    intro h
    rw [h, hdest] at hsrc
    exact Option.noConfusion hsrc
  have hsp : normalize srcPath ≠ normalize (dirname (normalize destPath)) := by
    intro h
    rw [h, hpd] at hsrc
    have h2 : pd = e := Option.some.inj hsrc
    rw [h2, hft] at hpdd
    exact EType.noConfusion hpdd
  have hdp : normalize destPath ≠ normalize (dirname (normalize srcPath)) := by
    intro h
    rw [h, hq] at hdest
    exact Option.noConfusion hdest
  constructor
  · obtain ⟨c1, hrf, hco1⟩ := readFile_ok hdb hwf hco hsrc hft hfa
    set f := markAccessed (fileRound e) s.clock with hfdef
    have hwf1 : storeWF ({ st with entries := st.entries.map (fun x =>
        if x.id = f.id then f else x) } : Store) :=
      wf_replace2 hwf hmem rfl rfl
    have hf1find : findByPath ({ st with entries := st.entries.map (fun x =>
        if x.id = f.id then f else x) } : Store) (normalize srcPath) =
        some f :=
      listFindPath_replace_self hwf hmem rfl hep hep
    have htr1 : ∀ r, r ≠ normalize srcPath →
        findByPath ({ st with entries := st.entries.map (fun x =>
          if x.id = f.id then f else x) } : Store) r =
          findByPath st r := by
      intro r h1
      show listFindPath (st.entries.map (fun x =>
        if x.id = f.id then f else x)) r = listFindPath st.entries r
      refine listFindPath_replace_other ?_ ?_
      · intro x hx hxi
        have hx2 : x = e := unique_by_id hwf hmem hx hxi
        rw [hx2, hep]
        exact fun hh => h1 hh.symm
      · intro hh
        have hh2 : e.path = r := hh
        rw [hep] at hh2
        exact h1 hh2.symm
    have hdbA : ({ s with db := some { st with entries := st.entries.map (fun x =>
        if x.id = f.id then f else x) }, cache := c1 } :
        VFSState).db = some { st with entries := st.entries.map (fun x =>
        if x.id = f.id then f else x) } := rfl
    obtain ⟨c1b, hgi, hco1b⟩ := getEntry_ok hdbA hco1 (normalize srcPath)
    rw [normalize_idem, hf1find] at hgi
    have hdbB : ({ s with db := some { st with entries := st.entries.map (fun x =>
        if x.id = f.id then f else x) }, cache := c1b } :
        VFSState).db = some { st with entries := st.entries.map (fun x =>
        if x.id = f.id then f else x) } := rfl
    have hdest1 : findByPath { st with entries := st.entries.map (fun x =>
        if x.id = f.id then f else x) }
        (normalize destPath) = none := by
      rw [htr1 (normalize destPath) (fun h => hsd h.symm)]
      exact hdest
    have hpd1 : findByPath { st with entries := st.entries.map (fun x =>
        if x.id = f.id then f else x) }
        (normalize (dirname (normalize destPath))) = some pd := by
      rw [htr1 (normalize (dirname (normalize destPath)))
        (fun h => hsp h.symm)]
      exact hpd
    have hfreshB : ∀ x ∈ ({ st with entries := st.entries.map (fun x =>
        if x.id = f.id then f else x) } : Store).entries,
        x.id ≠ fileId s.nextId := by
      intro x hx
      rcases mem_map_replace hx with h | h
      · rw [h]
        exact hfresh e hmem
      · exact hfresh x h
    have hqfB : pd.id ∉ ({ st with entries := st.entries.map (fun x =>
        if x.id = f.id then f else x) } : Store).updateFaults := by
      show pd.id ∉ st.updateFaults
      rw [hfaults]
      exact List.not_mem_nil _
    obtain ⟨c5, st5, hcf, hfl5, hwf5, hco5, hfind5d, hfind5pp, htr5, hmem5⟩ :=
      createFile_ok destPath e.content
        ⟨some f.mimeType, some f.permissions,
          some { f.attributes with archive := true }⟩
        hdbB hwf1 hco1b hdest1 hpd1 hdnD hpdd hfreshB hqfB
    have hfind5src : findByPath st5 (normalize srcPath) = some f := by
      rw [htr5 (normalize srcPath) hsd hsp]
      exact hf1find
    have hfind5q : findByPath st5
        (normalize (dirname (normalize srcPath))) = some q := by
      rw [htr5 (normalize (dirname (normalize srcPath)))
        (fun h => hdp h.symm) hpp]
      rw [htr1 (normalize (dirname (normalize srcPath))) hneS]
      exact hq
    have hqf5 : q.id ∉ st5.updateFaults := by
      rw [hfl5]
      show q.id ∉ st.updateFaults
      rw [hfaults]
      exact List.not_mem_nil _
    have hdbC : ({ s with
        db := some st5
        cache := c5
        nextId := s.nextId + 1 } : VFSState).db = some st5 := rfl
    have hftf : f.etype = EType.file := rfl
    obtain ⟨c4, st4, hdf, hst4, hfl4, hwf4, hco4, hnone4, htr4⟩ :=
      deleteFile_ok srcPath hdbC hwf5 hco5 hfind5src hftf hfind5q hdnS
        hneS hqf5
    have hcopy : copyFile s srcPath destPath =
        ({ s with db := some st5, cache := c5, nextId := s.nextId + 1 },
          Except.ok true) := by
      simp only [copyFile]
      rw [hrf]
      dsimp only
      simp only [getInfo]
      rw [hgi]
      dsimp only
      rw [hcf]
    have hmove : moveFile s srcPath destPath =
        ({ s with db := some st4, cache := c4, nextId := s.nextId + 1 },
          Except.ok true) := by
      simp only [moveFile]
      rw [hcopy]
      dsimp only
      rw [hdf]
    refine ⟨{ s with db := some st4, cache := c4, nextId := s.nextId + 1 },
      st4,
      mkFile s.nextId (basename (normalize destPath)) (normalize destPath)
        pd.id e.content
        ⟨some f.mimeType, some f.permissions,
          some { f.attributes with archive := true }⟩ s.clock,
      hmove, rfl, ?_, rfl, rfl, ?_, hnone4⟩
    · rw [htr4 (normalize destPath) (fun h => hsd h.symm) hdp]
      exact hfind5d
    · intro h
      exact hfresh e hmem h.symm
  · obtain ⟨cr, hger, hcor⟩ := getEntry_ok hdb hco (normalize srcPath)
    rw [normalize_idem, hsrc] at hger
    have hputr := stPutEntry_replace
      (s := { s with cache := cr })
      (e := renamedEntry e (normalize destPath) s.clock)
      hdb hfa
      (by
        rintro ⟨x, hx, _, hp⟩
        exact listFindPath_eq_none_iff.1 hdest x hx hp)
      ⟨e, hmem, rfl⟩
    refine ⟨{ s with
        db := some { st with entries := st.entries.map (fun x =>
          if x.id = (renamedEntry e (normalize destPath) s.clock).id then
            renamedEntry e (normalize destPath) s.clock else x) }
        cache := cacheSet (cacheDel cr (normalize srcPath))
          (normalize destPath)
          (renamedEntry e (normalize destPath) s.clock) },
      renamedEntry e (normalize destPath) s.clock, ?_, rfl, rfl⟩
    simp only [rename]
    rw [hger]
    dsimp only
    rw [hputr]

/-- C10 witness: moving C:\A\x.txt to C:\mv.txt in the sample tree
succeeds, deletes the source entry, and stores the content under a fresh
file id, while rename of the same paths keeps the id. -/
theorem C10_witness :
    (∃ s2 st2 nf,
      moveFile sampleState "C:\\A\\x.txt" "C:\\mv.txt" =
        (s2, Except.ok true) ∧
      s2.db = some st2 ∧
      findByPath st2 (normalize "C:\\mv.txt") = some nf ∧
      nf.content = sampleFileX.content ∧ nf.id = fileId sampleState.nextId ∧
      nf.id ≠ sampleFileX.id ∧
      findByPath st2 (normalize "C:\\A\\x.txt") = none) ∧
    (∃ s3 e2,
      rename sampleState "C:\\A\\x.txt" "C:\\mv.txt" =
        (s3, Except.ok e2) ∧
      e2.id = sampleFileX.id ∧ e2.path = normalize "C:\\mv.txt") :=
  C10_moveFile_fresh_id_rename_keeps_id "C:\\A\\x.txt" "C:\\mv.txt"
    sampleState sampleStore sampleFileX sampleDirA sampleRoot
    rfl (by decide) (by decide) (by decide) (by decide) (by decide)
    (by decide) (by decide) (by decide) (by decide) (by decide) (by decide)
    (by decide) (by decide) rfl



theorem str_ext {a b : String} (h : a.data = b.data) : a = b := by
  cases a
  cases b
  cases h
  rfl

theorem str_data_ne {a : String} (h : a ≠ "") : a.data ≠ [] := by
  intro h2
  exact h (str_ext h2)

theorem find_self {l : List Entry}
    (hwf : l.Pairwise (fun a b => a.id ≠ b.id ∧ a.path ≠ b.path))
    {x : Entry} (hx : x ∈ l) : listFindPath l x.path = some x := by
  cases h : listFindPath l x.path with
  | some y =>
    obtain ⟨hm, hp⟩ := listFindPath_mem h
    rw [unique_by_path hwf hx hm hp]
  | none => exact absurd rfl (listFindPath_eq_none_iff.1 h x hx)

theorem underPath_length {a p : String} (h : underPath a p) :
    a.data.length < p.data.length := by
  obtain ⟨hpre, hne⟩ := h
  have hle := hpre.length_le
  by_cases hl : a.data.getLast? = some sep
  · rw [if_pos hl] at hpre hle
    rcases Nat.lt_or_ge a.data.length p.data.length with h2 | h2
    · exact h2
    · exact absurd (str_ext (hpre.eq_of_length
        (Nat.le_antisymm hle h2)).symm) hne
  · rw [if_neg hl] at hle
    rw [List.length_append, List.length_singleton] at hle
    omega

theorem underPath_irrefl (a : String) : ¬ underPath a a :=
  fun h => h.2 rfl

theorem baseOf_extends {b : String} :
    b.data <+: (if b.data.getLast? = some sep then b.data
      else b.data ++ [sep]) := by
  split
  · exact ⟨[], List.append_nil _⟩
  · exact ⟨[sep], rfl⟩

theorem underPath_trans {a b c : String} (h1 : underPath a b)
    (h2 : underPath b c) : underPath a c := by
  refine ⟨h1.1.trans (baseOf_extends.trans h2.1), ?_⟩
  intro hceq
  have l1 := underPath_length h1
  have l2 := underPath_length h2
  rw [hceq] at l2
  omega

theorem underPath_of_underEq {a b c : String} (h1 : underPath a b)
    (h2 : underEq b c) : underPath a c := by
  rcases h2 with h2 | h2
  · rw [h2]
    exact h1
  · exact underPath_trans h1 h2

theorem lastSepSplit_none : ∀ {l : List Char},
    lastSepSplit l = none → sep ∉ l := by
  intro l
  induction l with
  | nil =>
    intro _ h
    simp at h
  | cons c cs ih =>
    intro h hm
    rw [lastSepSplit] at h
    cases hcs : lastSepSplit cs with
    | some pr =>
      rw [hcs] at h
      exact Option.noConfusion h
    | none =>
      rw [hcs] at h
      dsimp only at h
      by_cases hc : c = sep
      · rw [if_pos hc] at h
        exact Option.noConfusion h
      · rcases List.mem_cons.1 hm with h2 | h2
        · exact hc h2.symm
        · exact ih hcs h2

theorem lastSepSplit_eq : ∀ {l d r : List Char},
    lastSepSplit l = some (d, r) → l = d ++ sep :: r ∧ sep ∉ r := by
  intro l
  induction l with
  | nil =>
    intro d r h
    simp [lastSepSplit] at h
  | cons c cs ih =>
    intro d r h
    rw [lastSepSplit] at h
    cases hcs : lastSepSplit cs with
    | some pr =>
      obtain ⟨p2, s2⟩ := pr
      rw [hcs] at h
      dsimp only at h
      injection h with h2
      injection h2 with h3 h4
      subst h3
      subst h4
      obtain ⟨he, hs⟩ := ih hcs
      constructor
      · rw [he]
        rfl
      · exact hs
    | none =>
      rw [hcs] at h
      dsimp only at h
      by_cases hc : c = sep
      · rw [if_pos hc] at h
        injection h with h2
        injection h2 with h3 h4
        subst h3
        subst h4
        refine ⟨?_, lastSepSplit_none hcs⟩
        rw [hc]
        rfl
      · rw [if_neg hc] at h
        exact Option.noConfusion h

theorem lastSepSplit_last {l u v d r : List Char}
    (hl : l = u ++ sep :: v) (hs : lastSepSplit l = some (d, r)) :
    u.length ≤ d.length := by
  obtain ⟨he, hr⟩ := lastSepSplit_eq hs
  by_contra hlt
  push_neg at hlt
  have h1 : l.drop (d.length + 1) = r := by
    rw [he, show d ++ sep :: r = (d ++ [sep]) ++ r by simp,
      show d.length + 1 = (d ++ [sep]).length by simp]
    exact List.drop_left _ _
  have h2 : sep ∈ l.drop (d.length + 1) := by
    rw [hl, List.drop_append_eq_append_drop,
      Nat.sub_eq_zero_of_le (by omega), List.drop_zero]
    exact List.mem_append_right _ (List.mem_cons_self _ _)
  rw [h1] at h2
  exact hr h2

theorem isDrive2_inv : ∀ {cs : List Char}, isDrive2 cs = true →
    ∃ c, cs = [c, ':'] ∧ c.isAlpha = true := by
  intro cs h
  cases cs with
  | nil => simp [isDrive2] at h
  | cons c cs2 =>
    cases cs2 with
    | nil => simp [isDrive2] at h
    | cons d cs3 =>
      cases cs3 with
      | nil =>
        simp only [isDrive2, Bool.and_eq_true, decide_eq_true_eq] at h
        exact ⟨c, by rw [h.2], h.1⟩
      | cons x xs => simp [isDrive2] at h

theorem alpha_ne {c : Char} (h : c.isAlpha = true) :
    c ≠ sep ∧ c ≠ '/' ∧ c ≠ '.' ∧ c ≠ ':' := by
  refine ⟨?_, ?_, ?_, ?_⟩ <;>
    intro h2 <;> rw [h2] at h <;> exact absurd h (by decide)

theorem normChars_drive2 {c : Char} (h : c.isAlpha = true) :
    normChars [c, ':'] = [c, ':', sep] := by
  obtain ⟨hsep, hslash, hdot, hcolon⟩ := alpha_ne h
  have h1 : slashToSep [c, ':'] = [c, ':'] := by
    simp only [slashToSep, List.map]
    rw [if_neg hslash, if_neg (by decide : ¬((':' : Char) = '/'))]
  have h2 : collapseSep [c, ':'] = [c, ':'] := by
    rw [collapseSep, if_neg (fun hh => absurd hh.2 (by decide)), collapseSep]
  have h3 : splitSep [c, ':'] = [[c, ':']] := by
    rw [splitSep, show splitSep [':'] = [[':']] from by decide]
    dsimp only
    rw [if_neg hsep]
  have hc1 : ¬([c, ':'] = ([] : List Char) ∨ [c, ':'] = ['.']) := by
    rintro (hh | hh)
    · exact List.noConfusion hh
    · injection hh with _ hh2
      exact List.noConfusion hh2
  have hc2 : ¬([c, ':'] = ['.', '.']) := by
    intro hh
    injection hh with _ hh2
    injection hh2 with hh3 _
    exact absurd hh3 (by decide)
  have h4 : normLoop [[c, ':']] [] = [[c, ':']] := by
    rw [normLoop, if_neg hc1, if_neg hc2, normLoop]
  have hd2 : isDrive2 [c, ':'] = true := by
    simp [isDrive2, h]
  rw [normChars, normSegs, h1, h2, h3, h4, List.reverse_singleton]
  rw [assembleSegs]
  rw [joinSep, if_pos hd2, if_neg (by simp)]
  rfl

theorem not_under_root {t : String} (hnorm : normalize t = t)
    (hnt : t.data.getLast? ≠ some sep) (hne : t ≠ "") :
    ¬ underPath t "C:\\" := by
  rintro ⟨hpre, hne2⟩
  rw [if_neg hnt] at hpre
  obtain ⟨w, hw⟩ := hpre
  rw [List.append_assoc] at hw
  have hd : ("C:\\" : String).data = ['C', ':', sep] := rfl
  rw [hd] at hw
  cases htd : t.data with
  | nil =>
    rw [htd, List.nil_append] at hw
    injection hw with h1 _
    exact absurd h1 (by decide)
  | cons a as =>
    cases has : as with
    | nil =>
      rw [htd, has] at hw
      injection hw with h1 hw2
      injection hw2 with h2 _
      exact absurd h2 (by decide)
    | cons b rest =>
      cases hrest : rest with
      | nil =>
        rw [htd, has, hrest] at hw
        injection hw with h1 hw2
        injection hw2 with h2 hw3
        injection hw3 with h3 hw4
        have ht2 : t = "C:" := str_ext (by rw [htd, has, hrest, h1, h2])
        rw [ht2] at hnorm
        exact absurd hnorm (by decide)
      | cons x xs =>
        rw [htd, has, hrest] at hw
        have hlen := congrArg List.length hw
        simp at hlen

theorem under_dirname {t y : String} (ht : underPath t y)
    (hnt : t.data.getLast? ≠ some sep) (hne : t ≠ "")
    (hnorm : normalize t = t) (hynorm : normalize y = y) :
    dirname y = t ∨ underPath t (dirname y) := by
  obtain ⟨hpre, hney⟩ := ht
  rw [if_neg hnt] at hpre
  obtain ⟨w, hw⟩ := hpre
  have hl : y.data = t.data ++ sep :: w := by
    rw [← hw, List.append_assoc]
    rfl
  obtain ⟨d, r, hdr⟩ : ∃ d r, lastSepSplit y.data = some (d, r) := by
    cases hh : lastSepSplit y.data with
    | some dr => exact ⟨dr.1, dr.2, rfl⟩
    | none =>
      refine absurd ?_ (lastSepSplit_none hh)
      rw [hl]
      exact List.mem_append_right _ (List.mem_cons_self _ _)
  have hlen : t.data.length ≤ d.length := lastSepSplit_last hl hdr
  obtain ⟨hye, hsr⟩ := lastSepSplit_eq hdr
  have hdn : dirname y = (if isDrive2 d then String.mk (d ++ [sep])
      else if d = [] then String.mk [sep] else String.mk d) := by
    rw [dirname, hynorm, hdr]
  rcases Nat.eq_or_lt_of_le hlen with heq | hlt
  · left
    have hdpre : d <+: y.data := ⟨sep :: r, hye.symm⟩
    have htpre : t.data <+: y.data := ⟨sep :: w, hl.symm⟩
    have hdt : d = t.data :=
      ((List.prefix_of_prefix_length_le htpre hdpre
        (Nat.le_of_eq heq)).eq_of_length heq).symm
    have hndrive : ¬ (isDrive2 t.data = true) := by
      intro h2
      obtain ⟨c, hc, hca⟩ := isDrive2_inv h2
      have ht2 : normalize t = String.mk (normChars t.data) := by
        rw [normalize, if_neg hne]
      rw [hc, normChars_drive2 hca, hnorm] at ht2
      have h3 := congrArg String.data ht2
      rw [hc] at h3
      have hlen2 := congrArg List.length h3
      simp at hlen2
    have hdnil : ¬ (t.data = []) := str_data_ne hne
    rw [hdn, hdt, if_neg hndrive, if_neg hdnil]
  · right
    have hdpre : d <+: y.data := ⟨sep :: r, hye.symm⟩
    have hbpre : t.data ++ [sep] <+: y.data := ⟨w, hw⟩
    have hbase : t.data ++ [sep] <+: d := by
      refine List.prefix_of_prefix_length_le hbpre hdpre ?_
      rw [List.length_append, List.length_singleton]
      omega
    have hndrive : ¬ (isDrive2 d = true) := by
      intro h2
      obtain ⟨c, hc, hca⟩ := isDrive2_inv h2
      have hsepd : sep ∈ d := hbase.subset
        (List.mem_append_right _ (List.mem_cons_self _ _))
      rw [hc] at hsepd
      rcases List.mem_cons.1 hsepd with h3 | h3
      · exact absurd h3.symm (alpha_ne hca).1
      · rcases List.mem_cons.1 h3 with h4 | h4
        · exact absurd h4 (by decide)
        · simp at h4
    have hdnil : ¬ (d = []) := by
      intro h2
      rw [h2] at hlt
      simp at hlt
    rw [hdn, if_neg hndrive, if_neg hdnil]
    refine ⟨?_, ?_⟩
    · rw [if_neg hnt]
      exact hbase
    · intro h2
      have h3 : d = t.data := congrArg String.data h2
      rw [h3] at hlt
      exact absurd hlt (lt_irrefl _)


theorem removeChild_parentId (d : Entry) (cid : String) (clk : Nat) :
    (removeChild d cid clk).parentId = d.parentId := by
  rw [removeChild]
  split <;> rfl

theorem removeChild_etype (d : Entry) (cid : String) (clk : Nat) :
    (removeChild d cid clk).etype = d.etype := by
  rw [removeChild]
  split <;> rfl

theorem removeChild_children (d : Entry) (cid : String) (clk : Nat) :
    (removeChild d cid clk).children = d.children.erase cid := by
  rw [removeChild]
  split
  · rfl
  · exact (List.erase_of_not_mem (by assumption)).symm

theorem mem_childrenOf : ∀ {l : List Entry} {pid : String} {x : Entry},
    x ∈ childrenOf l pid ↔ x ∈ l ∧ x.parentId = some pid := by
  intro l pid x
  induction l with
  | nil => simp [childrenOf]
  | cons y rest ih =>
    rw [childrenOf]
    by_cases hy : y.parentId = some pid
    · rw [if_pos hy]
      constructor
      · intro hm
        rcases List.mem_cons.1 hm with h | h
        · exact ⟨List.mem_cons.2 (Or.inl h), by rw [h]; exact hy⟩
        · exact ⟨List.mem_cons.2 (Or.inr (ih.1 h).1), (ih.1 h).2⟩
      · rintro ⟨hm, hp⟩
        rcases List.mem_cons.1 hm with h | h
        · exact List.mem_cons.2 (Or.inl h)
        · exact List.mem_cons.2 (Or.inr (ih.2 ⟨h, hp⟩))
    · rw [if_neg hy]
      constructor
      · intro hm
        exact ⟨List.mem_cons.2 (Or.inr (ih.1 hm).1), (ih.1 hm).2⟩
      · rintro ⟨hm, hp⟩
        rcases List.mem_cons.1 hm with h | h
        · exact absurd (by rw [← h]; exact hp) hy
        · exact ih.2 ⟨h, hp⟩

theorem childrenOf_sublist : ∀ (l : List Entry) (pid : String),
    (childrenOf l pid).Sublist l := by
  intro l pid
  induction l with
  | nil => exact List.Sublist.refl _
  | cons y rest ih =>
    rw [childrenOf]
    by_cases hy : y.parentId = some pid
    · rw [if_pos hy]
      exact ih.cons₂ y
    · rw [if_neg hy]
      exact ih.cons y

theorem child_under {st : Store} (ht : TreeOk st) {t c : Entry}
    (htm : t ∈ st.entries) (hcm : c ∈ st.entries)
    (hp : c.parentId = some t.id) : underPath t.path c.path := by
  obtain ⟨twf, _, _, _, _, _, tlink, _, _⟩ := id ht
  obtain ⟨par, hparm, hpid2, _, _, hunder⟩ := tlink c hcm t.id hp
  rw [← unique_by_id twf htm hparm hpid2]
  exact hunder

theorem self_parent_absurd {st : Store} (ht : TreeOk st) {w : Entry}
    (hw : w ∈ st.entries) : w.parentId ≠ some w.id := by
  intro hsp
  exact underPath_irrefl _ (child_under ht hw hw hsp)

theorem sibling_not_under {st : Store} (ht : TreeOk st) {a b : Entry}
    {eid : String} (ha : a ∈ st.entries) (hb : b ∈ st.entries)
    (hpa : a.parentId = some eid) (hpb : b.parentId = some eid)
    (hne : a ≠ b) : ¬ underEq a.path b.path := by
  obtain ⟨twf, tnorm, tne, _, tlast, _, tlink, _, _⟩ := id ht
  rintro (h | h)
  · exact hne (unique_by_path twf ha hb h).symm
  · obtain ⟨parA, hpam, hpaid, _, hpapath, hpau⟩ := tlink a ha eid hpa
    obtain ⟨parB, hpbm, hpbid, _, hpbpath, hpbu⟩ := tlink b hb eid hpb
    have hpp : parA = parB :=
      unique_by_id twf hpbm hpam (hpaid.trans hpbid.symm)
    have hstep := under_dirname h
      (tlast a ha (fun hx => Option.noConfusion (hpa.symm.trans hx)))
      (tne a ha) (tnorm a ha) (tnorm b hb)
    rcases hstep with hstep | hstep
    · rw [← hpbpath, ← hpp] at hstep
      rw [hstep] at hpau
      exact underPath_irrefl _ hpau
    · rw [← hpbpath, ← hpp] at hstep
      have l1 := underPath_length hstep
      have l2 := underPath_length hpau
      omega

theorem under_reach {st : Store} (ht : TreeOk st) {t : Entry}
    (htm : t ∈ st.entries) (htp : t.parentId ≠ none) :
    ∀ n, ∀ y ∈ st.entries, y.path.data.length ≤ n →
      underPath t.path y.path →
      ∃ z ∈ st.entries, z.parentId = some t.id ∧ underEq z.path y.path := by
  intro n
  induction n with
  | zero =>
    intro y hy hlen hu
    have := underPath_length hu
    omega
  | succ n ih =>
    intro y hy hlen hu
    obtain ⟨twf, tnorm, tne, tnd, tlast, troot, tlink, tfib1, tfib2⟩ := id ht
    cases hpy : y.parentId with
    | none =>
      have hyr : y.path = "C:\\" := troot y hy hpy
      rw [hyr] at hu
      exact absurd hu
        (not_under_root (tnorm t htm) (tlast t htm htp) (tne t htm))
    | some pid =>
      obtain ⟨par, hparm, hpid2, _, hppath, hpunder⟩ := tlink y hy pid hpy
      by_cases hpt : par.path = t.path
      · refine ⟨y, hy, ?_, Or.inl rfl⟩
        rw [hpy]
        have hpe : par = t := unique_by_path twf htm hparm hpt
        rw [← hpid2, hpe]
      · have hstep := under_dirname hu (tlast t htm htp) (tne t htm)
          (tnorm t htm) (tnorm y hy)
        rcases hstep with hstep | hstep
        · exact absurd (hppath.trans hstep) hpt
        · have hplen := underPath_length hpunder
          obtain ⟨z, hz, hzp, hze⟩ := ih par hparm (by omega)
            (by rw [hppath]; exact hstep)
          refine ⟨z, hz, hzp, ?_⟩
          rcases hze with hze | hze
          · exact Or.inr (by rw [hze] at hpunder; exact hpunder)
          · exact Or.inr (underPath_trans hze hpunder)

theorem under_reach_all {st : Store} (ht : TreeOk st) {t y : Entry}
    (htm : t ∈ st.entries) (htp : t.parentId ≠ none) (hy : y ∈ st.entries)
    (hu : underPath t.path y.path) :
    ∃ z ∈ st.entries, z.parentId = some t.id ∧ underEq z.path y.path :=
  under_reach ht htm htp y.path.data.length y hy le_rfl hu

theorem file_fiber_empty {st : Store} (ht : TreeOk st) {x : Entry}
    (hx : x ∈ st.entries) (hft : x.etype = EType.file) :
    ∀ z ∈ st.entries, z.parentId ≠ some x.id := by
  obtain ⟨twf, _, _, _, _, _, tlink, _, _⟩ := id ht
  intro z hz hp
  obtain ⟨par, hparm, hpid2, hpdir, _, _⟩ := tlink z hz x.id hp
  have hpe : par = x := unique_by_id twf hx hparm hpid2
  rw [hpe, hft] at hpdir
  exact EType.noConfusion hpdir


theorem delete_unlink_store {st : Store} (ht : TreeOk st) {x par : Entry}
    (clk : Nat) (hx : x ∈ st.entries)
    (hfe : ∀ z ∈ st.entries, z.parentId ≠ some x.id)
    (hpar : par ∈ st.entries) (hpid : x.parentId = some par.id) :
    TreeOk { st with entries := removeById (st.entries.map (fun w =>
        if w.id = (removeChild (dirRound par) x.id clk).id then
          removeChild (dirRound par) x.id clk else w)) x.id } ∧
    (∀ z ∈ removeById (st.entries.map (fun w =>
        if w.id = (removeChild (dirRound par) x.id clk).id then
          removeChild (dirRound par) x.id clk else w)) x.id,
      ∃ y ∈ st.entries, z.id = y.id ∧ z.path = y.path ∧
        z.parentId = y.parentId ∧ z.etype = y.etype ∧
        ¬ underEq x.path y.path) ∧
    (∀ y ∈ st.entries, ¬ underEq x.path y.path →
      ∃ z ∈ removeById (st.entries.map (fun w =>
        if w.id = (removeChild (dirRound par) x.id clk).id then
          removeChild (dirRound par) x.id clk else w)) x.id,
        z.id = y.id ∧ z.path = y.path ∧ z.parentId = y.parentId ∧
        z.etype = y.etype) := by
  obtain ⟨twf, tnorm, tne, tnd, tlast, troot, tlink, tfib1, tfib2⟩ := id ht
  set p2 := removeChild (dirRound par) x.id clk with hp2
  set M := st.entries.map (fun w => if w.id = p2.id then p2 else w) with hM
  set R := removeById M x.id with hR
  have hp2id : p2.id = par.id := by
    rw [hp2, removeChild_id]
    rfl
  have hp2path : p2.path = par.path := by
    rw [hp2, removeChild_path]
    rfl
  have hp2parent : p2.parentId = par.parentId := by
    rw [hp2, removeChild_parentId]
    rfl
  have hp2etype : p2.etype = EType.dir := by
    rw [hp2, removeChild_etype]
    rfl
  have hp2children : p2.children = par.children.erase x.id := by
    rw [hp2, removeChild_children]
    rfl
  have hpardir : par.etype = EType.dir := by
    obtain ⟨parx, hparxm, hparxid2, hdir, _, _⟩ := tlink x hx par.id hpid
    rw [← unique_by_id twf hpar hparxm hparxid2]
    exact hdir
  have hparx : par ≠ x := by
    intro h
    rw [h] at hpid
    exact hfe x hx hpid
  have hparxid : par.id ≠ x.id := by
    intro h
    exact hparx (unique_by_id twf hx hpar h)
  have hxp : x.parentId ≠ none := by
    rw [hpid]
    exact fun h => Option.noConfusion h
  have hnox : ∀ y ∈ st.entries, y ≠ x → ¬ underEq x.path y.path := by
    intro y hy hyx hun
    rcases hun with h | h
    · exact hyx (unique_by_path twf hx hy h)
    · obtain ⟨z, hz, hzp, _⟩ := under_reach_all ht hx hxp hy h
      exact hfe z hz hzp
  have hnoxpar : ¬ underEq x.path par.path := hnox par hpar hparx
  have hmemM : ∀ z, z ∈ M → z = p2 ∨ (z ∈ st.entries ∧ z.id ≠ par.id) := by
    intro z hz
    rw [hM] at hz
    rcases List.mem_map.1 hz with ⟨w, hw, hwz⟩
    by_cases hwp : w.id = p2.id
    · rw [if_pos hwp] at hwz
      exact Or.inl hwz.symm
    · rw [if_neg hwp] at hwz
      refine Or.inr ⟨hwz ▸ hw, ?_⟩
      rw [← hwz]
      intro h2
      exact hwp (by rw [h2, hp2id])
  have hp2M : p2 ∈ M := by
    rw [hM]
    refine List.mem_map.2 ⟨par, hpar, ?_⟩
    rw [if_pos (by rw [hp2id])]
  have hp2R : p2 ∈ R := by
    rw [hR]
    exact mem_removeById_of_mem hp2M (by rw [hp2id]; exact hparxid)
  have hkeep : ∀ y ∈ st.entries, y.id ≠ par.id → y ∈ M := by
    intro y hy hne2
    rw [hM]
    refine List.mem_map.2 ⟨y, hy, ?_⟩
    rw [if_neg (fun h => hne2 (by rw [← hp2id]; exact h))]
  have hkeepR : ∀ y ∈ st.entries, y.id ≠ par.id → y.id ≠ x.id → y ∈ R := by
    intro y hy h1 h2
    rw [hR]
    exact mem_removeById_of_mem (hkeep y hy h1) h2
  have horigin : ∀ z ∈ R, ∃ y ∈ st.entries, z.id = y.id ∧ z.path = y.path ∧
      z.parentId = y.parentId ∧ z.etype = y.etype ∧
      ¬ underEq x.path y.path := by
    intro z hz
    rw [hR] at hz
    obtain ⟨hzM, hzx⟩ := mem_removeById hz
    rcases hmemM z hzM with h | ⟨hzm, hzp⟩
    · exact ⟨par, hpar, by rw [h, hp2id], by rw [h, hp2path],
        by rw [h, hp2parent], by rw [h, hp2etype]; exact hpardir.symm,
        hnoxpar⟩
    · have hzx2 : z ≠ x := fun h => hzx (by rw [h])
      exact ⟨z, hzm, rfl, rfl, rfl, rfl, hnox z hzm hzx2⟩
  have hsurv : ∀ y ∈ st.entries, ¬ underEq x.path y.path →
      ∃ z ∈ R, z.id = y.id ∧ z.path = y.path ∧ z.parentId = y.parentId ∧
        z.etype = y.etype := by
    intro y hy hun
    have hyx : y ≠ x := fun h => hun (by rw [h]; exact Or.inl rfl)
    have hyxid : y.id ≠ x.id := fun h => hyx (unique_by_id twf hx hy h)
    by_cases hyp : y.id = par.id
    · have hype : y = par := unique_by_id twf hpar hy hyp
      refine ⟨p2, hp2R, ?_, ?_, ?_, ?_⟩
      · rw [hp2id, hype]
      · rw [hp2path, hype]
      · rw [hp2parent, hype]
      · rw [hp2etype, hype, hpardir]
    · exact ⟨y, hkeepR y hy hyp hyxid, rfl, rfl, rfl, rfl⟩
  refine ⟨?_, horigin, hsurv⟩
  unfold TreeOk
  refine ⟨?_, ?_, ?_, ?_, ?_, ?_, ?_, ?_, ?_⟩
  · show R.Pairwise _
    rw [hR, hM]
    exact wf_removeById (wf_replace2 twf hpar hp2id hp2path) x.id
  · intro z hz
    obtain ⟨y, hy, _, hp, _, _, _⟩ := horigin z hz
    rw [hp]
    exact tnorm y hy
  · intro z hz
    obtain ⟨y, hy, _, hp, _, _, _⟩ := horigin z hz
    rw [hp]
    exact tne y hy
  · intro z hz
    replace hz : z ∈ R := hz
    rw [hR] at hz
    obtain ⟨hzM, _⟩ := mem_removeById hz
    rcases hmemM z hzM with h | ⟨hzm, _⟩
    · rw [h, hp2children]
      exact (tnd par hpar).erase _
    · exact tnd z hzm
  · intro z hz hpz
    obtain ⟨y, hy, _, hp, hpar2, _, _⟩ := horigin z hz
    rw [hp]
    exact tlast y hy (by rw [← hpar2]; exact hpz)
  · intro z hz hpz
    obtain ⟨y, hy, _, hp, hpar2, _, _⟩ := horigin z hz
    rw [hp]
    exact troot y hy (by rw [← hpar2]; exact hpz)
  · intro z hz pid hpidz
    obtain ⟨y, hy, hid, hp, hpar2, _, _⟩ := horigin z hz
    have hpidy : y.parentId = some pid := by
      rw [← hpar2]
      exact hpidz
    obtain ⟨pary, hparym, hparyid, hparydir, hparypath, hparyu⟩ :=
      tlink y hy pid hpidy
    have hparyx : pary ≠ x := by
      intro h
      rw [h] at hparyid
      exact hfe y hy (by rw [hpidy, ← hparyid])
    by_cases hyp2 : pary.id = par.id
    · have hpye : pary = par := unique_by_id twf hpar hparym hyp2
      refine ⟨p2, hp2R, ?_, hp2etype, ?_, ?_⟩
      · rw [hp2id, ← hpye]
        exact hparyid
      · rw [hp2path, ← hpye, hparypath, hp]
      · rw [hp2path, ← hpye, hp]
        exact hparyu
    · have hparyxid : pary.id ≠ x.id :=
        fun h => hparyx (unique_by_id twf hx hparym h)
      refine ⟨pary, hkeepR pary hparym hyp2 hparyxid, hparyid, hparydir,
        ?_, ?_⟩
      · rw [hparypath, hp]
      · rw [hp]
        exact hparyu
  · intro z hz cid hcid
    replace hz : z ∈ R := hz
    rw [hR] at hz
    obtain ⟨hzM, hzxid⟩ := mem_removeById hz
    rcases hmemM z hzM with h | ⟨hzm, hzpar⟩
    · rw [h, hp2children] at hcid
      obtain ⟨hcx, hcmem⟩ := (tnd par hpar).mem_erase_iff.1 hcid
      obtain ⟨c, hcm, hcidc, hcp⟩ := tfib1 par hpar cid hcmem
      have hcxne : c ≠ x := fun hh => hcx (by rw [← hcidc, hh])
      have hcpar : c ≠ par := by
        intro hh
        rw [hh] at hcp
        exact self_parent_absurd ht hpar hcp
      have hcparid : c.id ≠ par.id :=
        fun hh => hcpar (unique_by_id twf hpar hcm hh)
      have hcxid : c.id ≠ x.id :=
        fun hh => hcxne (unique_by_id twf hx hcm hh)
      refine ⟨c, hkeepR c hcm hcparid hcxid, hcidc, ?_⟩
      rw [h, hp2id]
      exact hcp
    · obtain ⟨c, hcm, hcidc, hcp⟩ := tfib1 z hzm cid hcid
      have hcx : c ≠ x := by
        intro hh
        rw [hh] at hcp
        rw [hpid] at hcp
        exact hzpar (Option.some.inj hcp).symm
      have hcxid : c.id ≠ x.id :=
        fun hh => hcx (unique_by_id twf hx hcm hh)
      by_cases hcpid : c.id = par.id
      · refine ⟨p2, hp2R, by rw [hp2id, ← hcpid]; exact hcidc, ?_⟩
        rw [hp2parent]
        have hcpare : c = par := unique_by_id twf hpar hcm hcpid
        rw [← hcpare]
        exact hcp
      · exact ⟨c, hkeepR c hcm hcpid hcxid, hcidc, hcp⟩
  · intro z hz c hc hcp
    replace hz : z ∈ R := hz
    replace hc : c ∈ R := hc
    rw [hR] at hz hc
    obtain ⟨hzM, hzxid⟩ := mem_removeById hz
    obtain ⟨hcM, hcxid⟩ := mem_removeById hc
    rcases hmemM z hzM with hze | ⟨hzm, hzpar⟩
    · rcases hmemM c hcM with hce | ⟨hcm, hcpar⟩
      · rw [hce, hze, hp2parent, hp2id] at hcp
        exact absurd hcp (self_parent_absurd ht hpar)
      · rw [hze, hp2id] at hcp
        rw [hze, hp2children]
        exact (tnd par hpar).mem_erase_iff.2 ⟨hcxid, tfib2 par hpar c hcm hcp⟩
    · rcases hmemM c hcM with hce | ⟨hcm, hcpar⟩
      · rw [hce, hp2parent] at hcp
        rw [hce, hp2id]
        exact tfib2 z hzm par hpar hcp
      · exact tfib2 z hzm c hcm hcp


theorem unlink_delete_facts {st : Store} {c2 : List (String × Entry)}
    {e2 par : Entry} (clk : Nat)
    (hwf : storeWF st) (hco : cacheOk st c2)
    (he2m : e2 ∈ st.entries) (hparm : par ∈ st.entries)
    (hne : par.path ≠ e2.path) (hqf : par.id ∉ st.updateFaults) :
    storeWF { st with entries := removeById (st.entries.map (fun w =>
        if w.id = (removeChild (dirRound par) e2.id clk).id then
          removeChild (dirRound par) e2.id clk else w)) e2.id } ∧
    cacheOk { st with entries := removeById (st.entries.map (fun w =>
        if w.id = (removeChild (dirRound par) e2.id clk).id then
          removeChild (dirRound par) e2.id clk else w)) e2.id }
      (cacheDel (cacheSet c2 par.path
        (removeChild (dirRound par) e2.id clk)) e2.path) ∧
    findByPath { st with entries := removeById (st.entries.map (fun w =>
        if w.id = (removeChild (dirRound par) e2.id clk).id then
          removeChild (dirRound par) e2.id clk else w)) e2.id }
      e2.path = none ∧
    (∀ r, r ≠ e2.path → r ≠ par.path →
      findByPath { st with entries := removeById (st.entries.map (fun w =>
        if w.id = (removeChild (dirRound par) e2.id clk).id then
          removeChild (dirRound par) e2.id clk else w)) e2.id } r =
        findByPath st r) := by
  set p2 := removeChild (dirRound par) e2.id clk with hp2
  set M := st.entries.map (fun w => if w.id = p2.id then p2 else w) with hM
  set R := removeById M e2.id with hR
  have hp2id : p2.id = par.id := by
    rw [hp2, removeChild_id]
    rfl
  have hp2path : p2.path = par.path := by
    rw [hp2, removeChild_path]
    rfl
  have hqe : par.id ≠ e2.id :=
    fun h => hne (congrArg Entry.path (unique_by_id hwf he2m hparm h))
  have hrep : ∀ r, r ≠ par.path →
      listFindPath M r = listFindPath st.entries r := by
    intro r h2
    rw [hM]
    refine listFindPath_replace_other ?_ ?_
    · intro w hw hwi
      have hw2 : w = par := unique_by_id hwf hparm hw (hwi.trans hp2id)
      rw [hw2]
      exact fun hh => h2 hh.symm
    · rw [hp2path]
      exact fun hh => h2 hh.symm
  have hrem : ∀ r, r ≠ e2.path →
      listFindPath R r = listFindPath M r := by
    intro r h1
    rw [hR]
    refine listFindPath_removeById_other ?_
    intro w hw hwi
    rcases mem_map_replace (hM ▸ hw) with hwp | hws
    · rw [hwp] at hwi
      exact absurd (hp2id.symm.trans hwi) hqe
    · have hw2 : w = e2 := unique_by_id hwf he2m hws hwi
      rw [hw2]
      exact fun hh => h1 hh.symm
  have htrans : ∀ r, r ≠ e2.path → r ≠ par.path →
      listFindPath R r = listFindPath st.entries r :=
    fun r h1 h2 => (hrem r h1).trans (hrep r h2)
  have hfq : listFindPath R par.path = some p2 := by
    rw [hrem par.path hne, hM]
    exact listFindPath_replace_self hwf hparm hp2id.symm rfl hp2path
  have hfnone : listFindPath R e2.path = none := by
    rw [hR]
    refine listFindPath_removeById_none ?_
    intro w hw hwp
    rcases mem_map_replace (hM ▸ hw) with hwp2 | hws
    · rw [hwp2, hp2path] at hwp
      exact absurd hwp hne
    · have hw2 : w = e2 := unique_by_path hwf he2m hws hwp
      rw [hw2]
  refine ⟨?_, ?_, hfnone, htrans⟩
  · show R.Pairwise _
    rw [hR, hM]
    exact wf_removeById (wf_replace2 hwf hparm hp2id hp2path) e2.id
  · intro kv hm
    obtain ⟨hm2, hkp⟩ := mem_cacheDel hm
    rcases mem_cacheSet hm2 with h1 | ⟨h1, hkpp⟩
    · subst h1
      exact hfq
    · have h3 := hco kv h1
      show listFindPath R kv.1 = some kv.2
      rw [htrans kv.1 hkp hkpp]
      exact h3

theorem deleteDirectory_notEmpty {s : VFSState} {st : Store} {e : Entry}
    (fuel : Nat) (path : String)
    (hdb : s.db = some st) (hco : cacheOk st s.cache)
    (hfind : findByPath st (normalize path) = some e)
    (hdir : e.etype = EType.dir) (hch : e.children ≠ []) :
    ∃ c1, deleteDirectory (fuel + 1) s path false =
      ({ s with cache := c1 },
        Except.error (Err.dirNotEmpty (normalize path))) := by
  obtain ⟨c1, hge, hco1⟩ := getEntry_ok hdb hco (normalize path)
  rw [normalize_idem, hfind] at hge
  refine ⟨c1, ?_⟩
  simp only [deleteDirectory]
  rw [hge]
  dsimp only
  rw [if_pos hdir]
  rw [if_pos (show (dirRound e).children ≠ [] ∧ ¬(false = true) from
    ⟨hch, fun h => Bool.noConfusion h⟩)]


theorem deleteDirectory_rec_ok : ∀ fuel : Nat,
    (∀ (s : VFSState) (st : Store) (e : Entry) (path : String) (B : Nat),
      s.db = some st → TreeOk st → cacheOk st s.cache →
      st.updateFaults = [] →
      (∀ x ∈ st.entries, x.path.data.length < B) →
      findByPath st (normalize path) = some e →
      e.etype = EType.dir → e.parentId ≠ none →
      B ≤ fuel + (normalize path).data.length →
      ∃ c2 st2, deleteDirectory fuel s path true =
          ({ s with db := some st2, cache := c2 }, Except.ok true) ∧
        st2.updateFaults = [] ∧ TreeOk st2 ∧ cacheOk st2 c2 ∧
        (∀ z ∈ st2.entries, ∃ y ∈ st.entries, z.id = y.id ∧
          z.path = y.path ∧ z.parentId = y.parentId ∧ z.etype = y.etype ∧
          ¬ underEq (normalize path) y.path) ∧
        (∀ y ∈ st.entries, ¬ underEq (normalize path) y.path →
          ∃ z ∈ st2.entries, z.id = y.id ∧ z.path = y.path ∧
            z.parentId = y.parentId ∧ z.etype = y.etype)) ∧
    (∀ (s : VFSState) (st : Store) (eid : String) (kids : List Entry)
        (B : Nat),
      s.db = some st → TreeOk st → cacheOk st s.cache →
      st.updateFaults = [] →
      (∀ x ∈ st.entries, x.path.data.length < B) →
      (∀ c ∈ kids, (∃ w ∈ st.entries, w.id = c.id ∧ w.path = c.path ∧
        w.parentId = some eid ∧ w.etype = c.etype) ∧
        B ≤ fuel + c.path.data.length) →
      kids.Pairwise (fun a b => a.id ≠ b.id) →
      ∃ c2 st2, deleteChildren fuel s kids =
          ({ s with db := some st2, cache := c2 }, Except.ok ()) ∧
        st2.updateFaults = [] ∧ TreeOk st2 ∧ cacheOk st2 c2 ∧
        (∀ z ∈ st2.entries, ∃ y ∈ st.entries, z.id = y.id ∧
          z.path = y.path ∧ z.parentId = y.parentId ∧ z.etype = y.etype ∧
          ∀ c ∈ kids, ¬ underEq c.path y.path) ∧
        (∀ y ∈ st.entries, (∀ c ∈ kids, ¬ underEq c.path y.path) →
          ∃ z ∈ st2.entries, z.id = y.id ∧ z.path = y.path ∧
            z.parentId = y.parentId ∧ z.etype = y.etype)) := by
  intro fuel
  induction fuel with
  | zero =>
    constructor
    · intro s st e path B hdb ht hco hfl hB hfind hdir hparent hfuel
      have h1 := hB e (findByPath_mem hfind).1
      have h2 : e.path = normalize path := (findByPath_mem hfind).2
      rw [h2] at h1
      omega
    · intro s st eid kids B hdb ht hco hfl hB hkids hpw
      cases kids with
      | nil =>
        refine ⟨s.cache, st, ?_, hfl, ht, hco, ?_, ?_⟩
        · simp only [deleteChildren]
          rw [← hdb]
        · intro z hz
          exact ⟨z, hz, rfl, rfl, rfl, rfl,
            fun c hc => absurd hc (List.not_mem_nil _)⟩
        · intro y hy _
          exact ⟨y, hy, rfl, rfl, rfl, rfl⟩
      | cons c rest =>
        obtain ⟨⟨w, hwm, hwid, hwpath, hwpid, hwet⟩, hfc⟩ :=
          hkids c (List.mem_cons_self _ _)
        have h1 := hB w hwm
        rw [hwpath] at h1
        omega
  | succ fuel ih =>
    have hP : ∀ (s : VFSState) (st : Store) (e : Entry) (path : String)
        (B : Nat),
        s.db = some st → TreeOk st → cacheOk st s.cache →
        st.updateFaults = [] →
        (∀ x ∈ st.entries, x.path.data.length < B) →
        findByPath st (normalize path) = some e →
        e.etype = EType.dir → e.parentId ≠ none →
        B ≤ (fuel + 1) + (normalize path).data.length →
        ∃ c2 st2, deleteDirectory (fuel + 1) s path true =
            ({ s with db := some st2, cache := c2 }, Except.ok true) ∧
          st2.updateFaults = [] ∧ TreeOk st2 ∧ cacheOk st2 c2 ∧
          (∀ z ∈ st2.entries, ∃ y ∈ st.entries, z.id = y.id ∧
            z.path = y.path ∧ z.parentId = y.parentId ∧ z.etype = y.etype ∧
            ¬ underEq (normalize path) y.path) ∧
          (∀ y ∈ st.entries, ¬ underEq (normalize path) y.path →
            ∃ z ∈ st2.entries, z.id = y.id ∧ z.path = y.path ∧
              z.parentId = y.parentId ∧ z.etype = y.etype) := by
      intro s st e path B hdb ht hco hfl hB hfind hdir hparent hfuel
      obtain ⟨twf, tnorm, tne, tnd, tlast, troot, tlink, tfib1, tfib2⟩ :=
        id ht
      have hem : e ∈ st.entries := (findByPath_mem hfind).1
      have hep : e.path = normalize path := (findByPath_mem hfind).2
      obtain ⟨c1, hge, hco1⟩ := getEntry_ok hdb hco (normalize path)
      rw [normalize_idem, hfind] at hge
      cases hpid0 : e.parentId with
      | none => exact absurd hpid0 hparent
      | some pid0 =>
      obtain ⟨par0, hpar0m, hpar0id, hpar0dir, hpar0path, hpar0u⟩ :=
        tlink e hem pid0 hpid0
      by_cases hch : (dirRound e).children = []
      · -- no children: the recursive loop is skipped
        have hch2 : e.children = [] := hch
        have hfe : ∀ z ∈ st.entries, z.parentId ≠ some e.id := by
          intro z hz hzp
          have := tfib2 e hem z hz hzp
          rw [hch2] at this
          exact absurd this (List.not_mem_nil _)
        have hdb1 : ({ s with cache := c1 } : VFSState).db = some st := hdb
        obtain ⟨c3, hge2, hco3⟩ :=
          getEntry_ok hdb1 hco1 (dirname (normalize path))
        have hdnp : normalize (dirname (normalize path)) = par0.path := by
          rw [← hep, ← hpar0path]
          exact tnorm par0 hpar0m
        have hfindpar : findByPath st
            (normalize (dirname (normalize path))) = some par0 := by
          rw [hdnp]
          exact find_self twf hpar0m
        rw [hfindpar] at hge2
        have hpar0f : par0.id ∉ st.updateFaults := by
          rw [hfl]
          exact List.not_mem_nil _
        have hpide : e.parentId = some par0.id := by
          rw [hpid0, hpar0id]
        have hdb2 : ({ s with cache := c3 } : VFSState).db = some st := hdb
        have hrc0 : (removeChild (dirRound par0) e.id s.clock).id =
            par0.id := by
          rw [removeChild_id]
          rfl
        have hrcp0 : (removeChild (dirRound par0) e.id s.clock).path =
            par0.path := by
          rw [removeChild_path]
          rfl
        have hput := stPutEntry_replace
          (e := removeChild (dirRound par0) e.id s.clock) hdb2
          (fun h => hpar0f (hrc0 ▸ h))
          (no_other_path2 twf hpar0m hrc0.symm hrcp0.symm)
          ⟨par0, hpar0m, hrc0.symm⟩
        obtain ⟨ht4, horig4, hsurv4⟩ :=
          delete_unlink_store ht s.clock hem hfe hpar0m hpide
        obtain ⟨hwf4, hco4, hnone4, htr4⟩ :=
          unlink_delete_facts s.clock twf hco3 hem hpar0m
            (by
              intro h
              have := underPath_length hpar0u
              rw [h] at this
              omega)
            hpar0f
        have hkeyPar : par0.path = dirname (normalize path) := by
          rw [hpar0path, hep]
        refine ⟨cacheDel (cacheSet c3 (dirname (normalize path))
            (removeChild (dirRound par0) e.id s.clock)) (normalize path),
          { st with entries := removeById (st.entries.map (fun w =>
            if w.id = (removeChild (dirRound par0) e.id s.clock).id then
              removeChild (dirRound par0) e.id s.clock else w)) e.id },
          ?_, hfl, ht4, ?_, ?_, ?_⟩
        · simp only [deleteDirectory]
          rw [hge]
          dsimp only
          rw [if_pos hdir]
          rw [if_neg (fun h => h.1 hch)]
          rw [if_neg (fun h => h.2 hch)]
          dsimp only
          rw [hge2]
          dsimp only
          rw [hput]
          rfl
        · rw [← hkeyPar, ← hep]
          exact hco4
        · intro z hz
          obtain ⟨y, hy, hid, hp, hpid2, het, hnu⟩ := horig4 z hz
          refine ⟨y, hy, hid, hp, hpid2, het, ?_⟩
          rw [← hep]
          exact hnu
        · intro y hy hnu
          refine hsurv4 y hy ?_
          rw [hep]
          exact hnu
      · -- children present: the recursive loop runs
        have hkids : ∀ c ∈ childrenOf st.entries (dirRound e).id,
            (∃ w ∈ st.entries, w.id = c.id ∧ w.path = c.path ∧
              w.parentId = some (dirRound e).id ∧ w.etype = c.etype) ∧
            B ≤ fuel + c.path.data.length := by
          intro c hc
          obtain ⟨hcm, hcp⟩ := mem_childrenOf.1 hc
          refine ⟨⟨c, hcm, rfl, rfl, hcp, rfl⟩, ?_⟩
          have hu : underPath e.path c.path := child_under ht hem hcm hcp
          have := underPath_length hu
          rw [hep] at this
          omega
        have hpw : (childrenOf st.entries (dirRound e).id).Pairwise
            (fun a b => a.id ≠ b.id) :=
          (twf.sublist (childrenOf_sublist _ _)).imp (fun h => h.1)
        have hdb1 : ({ s with cache := c1 } : VFSState).db = some st := hdb
        obtain ⟨c2, st2, hdc, hfl2, ht2, hco2, horig2, hsurv2⟩ :=
          ih.2 { s with cache := c1 } st (dirRound e).id
            (childrenOf st.entries (dirRound e).id) B hdb1 ht hco1 hfl hB
            hkids hpw
        obtain ⟨twf2, tnorm2, tne2, tnd2, tlast2, troot2, tlink2, tfib1b,
          tfib2b⟩ := id ht2
        -- the target survives its children's deletion
        have hesurv : ∃ z ∈ st2.entries, z.id = e.id ∧ z.path = e.path ∧
            z.parentId = e.parentId ∧ z.etype = e.etype := by
          refine hsurv2 e hem ?_
          intro c hc
          obtain ⟨hcm, hcp⟩ := mem_childrenOf.1 hc
          have hu : underPath e.path c.path := child_under ht hem hcm hcp
          rintro (h | h)
          · rw [h] at hu
            exact underPath_irrefl _ hu
          · have l1 := underPath_length hu
            have l2 := underPath_length h
            omega
        obtain ⟨e2, he2m, he2id, he2path, he2pid, he2et⟩ := hesurv
        -- nothing in st2 has the target as parent
        have hfe2 : ∀ z ∈ st2.entries, z.parentId ≠ some e.id := by
          intro z hz hzp
          obtain ⟨y, hy, hyid, hyp, hypid, hyet, hyk⟩ := horig2 z hz
          have hyp2 : y.parentId = some e.id := by
            rw [← hypid]
            exact hzp
          have hyk2 : y ∈ childrenOf st.entries (dirRound e).id :=
            mem_childrenOf.2 ⟨hy, hyp2⟩
          exact hyk y hyk2 (Or.inl rfl)
        have hfe2e : ∀ z ∈ st2.entries, z.parentId ≠ some e2.id := by
          rw [he2id]
          exact hfe2
        have hpide2 : e2.parentId = some pid0 := by
          rw [he2pid]
          exact hpid0
        obtain ⟨par2, hpar2m, hpar2id, hpar2dir, hpar2path, hpar2u⟩ :=
          tlink2 e2 he2m pid0 hpide2
        have hdnp : normalize (dirname (normalize path)) = par2.path := by
          rw [← hep, ← he2path, ← hpar2path]
          exact tnorm2 par2 hpar2m
        have hfindpar : findByPath st2
            (normalize (dirname (normalize path))) = some par2 := by
          rw [hdnp]
          exact find_self twf2 hpar2m
        have hdbM : ({ s with db := some st2, cache := c2 } :
            VFSState).db = some st2 := rfl
        obtain ⟨c3, hge2, hco3⟩ :=
          getEntry_ok hdbM hco2 (dirname (normalize path))
        rw [hfindpar] at hge2
        have hpar2f : par2.id ∉ st2.updateFaults := by
          rw [hfl2]
          exact List.not_mem_nil _
        have hpide2b : e2.parentId = some par2.id := by
          rw [hpide2, hpar2id]
        have hdb3 : ({ s with db := some st2, cache := c3 } :
            VFSState).db = some st2 := rfl
        have hrc2 : (removeChild (dirRound par2) e.id s.clock).id =
            par2.id := by
          rw [removeChild_id]
          rfl
        have hrcp2 : (removeChild (dirRound par2) e.id s.clock).path =
            par2.path := by
          rw [removeChild_path]
          rfl
        have hput := stPutEntry_replace
          (e := removeChild (dirRound par2) e.id s.clock) hdb3
          (fun h => hpar2f (hrc2 ▸ h))
          (no_other_path2 twf2 hpar2m hrc2.symm hrcp2.symm)
          ⟨par2, hpar2m, hrc2.symm⟩
        obtain ⟨ht4, horig4, hsurv4⟩ :=
          delete_unlink_store ht2 s.clock he2m hfe2e hpar2m hpide2b
        rw [he2id] at ht4 horig4 hsurv4
        obtain ⟨hwf4, hco4, hnone4, htr4⟩ :=
          unlink_delete_facts s.clock twf2 hco3 he2m hpar2m
            (by
              intro h
              have := underPath_length hpar2u
              rw [h] at this
              omega)
            hpar2f
        rw [he2id] at hwf4 hco4 hnone4 htr4
        have hkeyPar : par2.path = dirname (normalize path) := by
          rw [hpar2path, he2path, hep]
        have hkeyE2 : e2.path = normalize path := by
          rw [he2path, hep]
        refine ⟨cacheDel (cacheSet c3 (dirname (normalize path))
            (removeChild (dirRound par2) e.id s.clock)) (normalize path),
          { st2 with entries := removeById (st2.entries.map (fun w =>
            if w.id = (removeChild (dirRound par2) e.id s.clock).id then
              removeChild (dirRound par2) e.id s.clock else w)) e.id },
          ?_, hfl2, ht4, ?_, ?_, ?_⟩
        · simp only [deleteDirectory]
          rw [hge]
          dsimp only
          rw [if_pos hdir]
          rw [if_neg (fun h => h.2 trivial)]
          rw [if_pos (show True ∧ (dirRound e).children ≠ []
            from ⟨trivial, hch⟩)]
          rw [stGetChildren_eq hdb1 (dirRound e).id]
          dsimp only
          rw [hdc]
          dsimp only
          rw [hge2]
          dsimp only
          rw [hput]
          rfl
        · rw [hkeyPar, hkeyE2] at hco4
          exact hco4
        · intro z hz
          obtain ⟨y1, hy1, hid1, hp1, hpid1, het1, hnu1⟩ := horig4 z hz
          obtain ⟨y, hy, hid0, hp0, hpid0b, het0, hyk⟩ := horig2 y1 hy1
          refine ⟨y, hy, hid1.trans hid0, hp1.trans hp0,
            hpid1.trans hpid0b, het1.trans het0, ?_⟩
          intro hun
          refine hnu1 ?_
          rw [hkeyE2, hp0]
          exact hun
        · intro y hy hnu
          have hallk : ∀ c ∈ childrenOf st.entries (dirRound e).id,
              ¬ underEq c.path y.path := by
            intro c hc hun
            obtain ⟨hcm, hcp⟩ := mem_childrenOf.1 hc
            have hu : underPath e.path c.path := child_under ht hem hcm hcp
            refine hnu (Or.inr ?_)
            rw [← hep]
            exact underPath_of_underEq hu hun
          obtain ⟨z1, hz1, hid1, hp1, hpid1, het1⟩ := hsurv2 y hy hallk
          have hnu2 : ¬ underEq e2.path z1.path := by
            rw [hkeyE2, hp1]
            exact hnu
          obtain ⟨z, hz, hid2, hp2, hpid2, het2⟩ := hsurv4 z1 hz1 hnu2
          exact ⟨z, hz, hid2.trans hid1, hp2.trans hp1,
            hpid2.trans hpid1, het2.trans het1⟩
    refine ⟨hP, ?_⟩
    intro s st eid kids B
    revert s st
    induction kids with
    | nil =>
      intro s st hdb ht hco hfl hB hkids hpw
      refine ⟨s.cache, st, ?_, hfl, ht, hco, ?_, ?_⟩
      · simp only [deleteChildren]
        rw [← hdb]
      · intro z hz
        exact ⟨z, hz, rfl, rfl, rfl, rfl,
          fun c hc => absurd hc (List.not_mem_nil _)⟩
      · intro y hy _
        exact ⟨y, hy, rfl, rfl, rfl, rfl⟩
    | cons c rest ihk =>
      intro s st hdb ht hco hfl hB hkids hpw
      obtain ⟨twf, tnorm, tne, tnd, tlast, troot, tlink, tfib1, tfib2⟩ :=
        id ht
      obtain ⟨⟨w, hwm, hwid, hwpath, hwpid, hwet⟩, hfc⟩ :=
        hkids c (List.mem_cons_self _ _)
      have hwp_norm : normalize c.path = c.path := by
        rw [← hwpath]
        exact tnorm w hwm
      have hfindw : findByPath st (normalize c.path) = some w := by
        rw [hwp_norm, ← hwpath]
        exact find_self twf hwm
      obtain ⟨par, hparm, hparid, hpardir, hparpath, hparu⟩ :=
        tlink w hwm eid hwpid
      have hkrest : ∀ (st2 : Store),
          (∀ y ∈ st.entries, ¬ underEq w.path y.path →
            ∃ z ∈ st2.entries, z.id = y.id ∧ z.path = y.path ∧
              z.parentId = y.parentId ∧ z.etype = y.etype) →
          ∀ c' ∈ rest, (∃ w2 ∈ st2.entries, w2.id = c'.id ∧
            w2.path = c'.path ∧ w2.parentId = some eid ∧
            w2.etype = c'.etype) ∧
          B ≤ (fuel + 1) + c'.path.data.length := by
        intro st2 hsurv c' hc'
        obtain ⟨⟨w2, hw2m, hw2id, hw2path, hw2pid, hw2et⟩, hfc'⟩ :=
          hkids c' (List.mem_cons_of_mem _ hc')
        refine ⟨?_, hfc'⟩
        have hw2w : w2 ≠ w := by
          intro h
          have hcc : c.id = c'.id := by
            rw [← hwid, ← hw2id, h]
          exact (List.pairwise_cons.1 hpw).1 c' hc' hcc
        have hnu : ¬ underEq w.path w2.path :=
          sibling_not_under ht hwm hw2m hwpid hw2pid (fun h => hw2w h.symm)
        obtain ⟨z, hzm, hzid, hzpath, hzpid, hzet⟩ := hsurv w2 hw2m hnu
        refine ⟨z, hzm, hzid.trans hw2id, hzpath.trans hw2path, ?_,
          hzet.trans hw2et⟩
        rw [hzpid]
        exact hw2pid
      by_cases hct : c.etype = EType.dir
      · -- directory child: recursive deleteDirectory
        have hdirw : w.etype = EType.dir := by
          rw [hwet]
          exact hct
        have hwparent : w.parentId ≠ none := by
          rw [hwpid]
          exact fun h => Option.noConfusion h
        have hfuelc : B ≤ (fuel + 1) + (normalize c.path).data.length := by
          rw [hwp_norm]
          exact hfc
        obtain ⟨c2, st2, hdd, hfl2, ht2, hco2, horig2, hsurv2⟩ :=
          hP s st w c.path B hdb ht hco hfl hB hfindw hdirw hwparent hfuelc
        have hsurv2w : ∀ y ∈ st.entries, ¬ underEq w.path y.path →
            ∃ z ∈ st2.entries, z.id = y.id ∧ z.path = y.path ∧
              z.parentId = y.parentId ∧ z.etype = y.etype := by
          intro y hy hnu
          refine hsurv2 y hy ?_
          rw [hwp_norm, ← hwpath]
          exact hnu
        have hB2 : ∀ x ∈ st2.entries, x.path.data.length < B := by
          intro z hz
          obtain ⟨y, hy, _, hzp, _, _, _⟩ := horig2 z hz
          rw [hzp]
          exact hB y hy
        have hdb2 : ({ s with db := some st2, cache := c2 } :
            VFSState).db = some st2 := rfl
        obtain ⟨c3, st3, hdc, hfl3, ht3, hco3, horig3, hsurv3⟩ :=
          ihk { s with db := some st2, cache := c2 } st2 hdb2 ht2 hco2
            hfl2 hB2 (hkrest st2 hsurv2w) (List.pairwise_cons.1 hpw).2
        refine ⟨c3, st3, ?_, hfl3, ht3, hco3, ?_, ?_⟩
        · simp only [deleteChildren]
          rw [if_pos hct, hdd]
          dsimp only
          rw [hdc]
        · intro z hz
          obtain ⟨y1, hy1, hid1, hp1, hpid1, het1, hk1⟩ := horig3 z hz
          obtain ⟨y, hy, hid0, hp0, hpid0, het0, hnu0⟩ := horig2 y1 hy1
          refine ⟨y, hy, hid1.trans hid0, hp1.trans hp0,
            hpid1.trans hpid0, het1.trans het0, ?_⟩
          intro c' hc'
          rcases List.mem_cons.1 hc' with h | h
          · rw [h]
            intro hun
            refine hnu0 ?_
            rw [hwp_norm]
            exact hun
          · intro hun
            rw [← hp0] at hun
            exact hk1 c' h hun
        · intro y hy hall
          have h1 : ¬ underEq (normalize c.path) y.path := by
            rw [hwp_norm]
            exact hall c (List.mem_cons_self _ _)
          obtain ⟨z1, hz1, hid1, hp1, hpid1, het1⟩ := hsurv2 y hy h1
          have h2 : ∀ c' ∈ rest, ¬ underEq c'.path z1.path := by
            intro c' hc' hun
            rw [hp1] at hun
            exact hall c' (List.mem_cons_of_mem _ hc') hun
          obtain ⟨z, hz, hid2, hp2, hpid2, het2⟩ := hsurv3 z1 hz1 h2
          exact ⟨z, hz, hid2.trans hid1, hp2.trans hp1,
            hpid2.trans hpid1, het2.trans het1⟩
      · -- file child: deleteFile
        have hfilew : w.etype = EType.file := by
          cases hwe2 : w.etype with
          | file => rfl
          | dir => exact absurd (by rw [← hwet]; exact hwe2) hct
        have hdnc : normalize (dirname (normalize c.path)) =
            dirname (normalize c.path) := by
          rw [hwp_norm, ← hwpath, ← hparpath]
          exact tnorm par hparm
        have hfindpar : findByPath st
            (normalize (dirname (normalize c.path))) = some par := by
          rw [hwp_norm, ← hwpath, ← hparpath, tnorm par hparm]
          exact find_self twf hparm
        have hnec : normalize (dirname (normalize c.path)) ≠
            normalize c.path := by
          rw [hwp_norm, ← hwpath, ← hparpath, tnorm par hparm]
          intro h
          have := underPath_length hparu
          rw [h] at this
          omega
        have hqfpar : par.id ∉ st.updateFaults := by
          rw [hfl]
          exact List.not_mem_nil _
        obtain ⟨c4, st4, hdf, hst4, hfl4, hwf4, hco4, hnone4, htr4⟩ :=
          deleteFile_ok c.path hdb twf hco hfindw hfilew hfindpar hdnc
            hnec hqfpar
        have hfew : ∀ z ∈ st.entries, z.parentId ≠ some w.id :=
          file_fiber_empty ht hwm hfilew
        have hwparid : w.parentId = some par.id := by
          rw [hwpid, hparid]
        obtain ⟨ht4', horig4', hsurv4'⟩ :=
          delete_unlink_store ht s.clock hwm hfew hparm hwparid
        have ht4 : TreeOk st4 := by
          rw [hst4]
          exact ht4'
        have hst4e : st4.entries = removeById (st.entries.map (fun v =>
            if v.id = (removeChild (dirRound par) w.id s.clock).id then
              removeChild (dirRound par) w.id s.clock else v)) w.id := by
          rw [hst4]
        have horig4 : ∀ z ∈ st4.entries, ∃ y ∈ st.entries, z.id = y.id ∧
            z.path = y.path ∧ z.parentId = y.parentId ∧
            z.etype = y.etype ∧ ¬ underEq w.path y.path := by
          intro z hz
          rw [hst4e] at hz
          exact horig4' z hz
        have hsurv4 : ∀ y ∈ st.entries, ¬ underEq w.path y.path →
            ∃ z ∈ st4.entries, z.id = y.id ∧ z.path = y.path ∧
              z.parentId = y.parentId ∧ z.etype = y.etype := by
          intro y hy hnu
          obtain ⟨z, hz, hrest⟩ := hsurv4' y hy hnu
          refine ⟨z, ?_, hrest⟩
          rw [hst4e]
          exact hz
        have hfl4b : st4.updateFaults = [] := by
          rw [hfl4]
          exact hfl
        have hB4 : ∀ x ∈ st4.entries, x.path.data.length < B := by
          intro z hz
          obtain ⟨y, hy, _, hzp, _, _, _⟩ := horig4 z hz
          rw [hzp]
          exact hB y hy
        have hdb4 : ({ s with db := some st4, cache := c4 } :
            VFSState).db = some st4 := rfl
        obtain ⟨c3, st3, hdc, hfl3, ht3, hco3, horig3, hsurv3⟩ :=
          ihk { s with db := some st4, cache := c4 } st4 hdb4 ht4 hco4
            hfl4b hB4 (hkrest st4 hsurv4) (List.pairwise_cons.1 hpw).2
        refine ⟨c3, st3, ?_, hfl3, ht3, hco3, ?_, ?_⟩
        · simp only [deleteChildren]
          rw [if_neg hct, hdf]
          dsimp only
          rw [hdc]
        · intro z hz
          obtain ⟨y1, hy1, hid1, hp1, hpid1, het1, hk1⟩ := horig3 z hz
          obtain ⟨y, hy, hid0, hp0, hpid0, het0, hnu0⟩ := horig4 y1 hy1
          refine ⟨y, hy, hid1.trans hid0, hp1.trans hp0,
            hpid1.trans hpid0, het1.trans het0, ?_⟩
          intro c' hc'
          rcases List.mem_cons.1 hc' with h | h
          · rw [h]
            intro hun
            refine hnu0 ?_
            rw [hwpath]
            exact hun
          · intro hun
            rw [← hp0] at hun
            exact hk1 c' h hun
        · intro y hy hall
          have h1 : ¬ underEq w.path y.path := by
            rw [hwpath]
            exact hall c (List.mem_cons_self _ _)
          obtain ⟨z1, hz1, hid1, hp1, hpid1, het1⟩ := hsurv4 y hy h1
          have h2 : ∀ c' ∈ rest, ¬ underEq c'.path z1.path := by
            intro c' hc' hun
            rw [hp1] at hun
            exact hall c' (List.mem_cons_of_mem _ hc') hun
          obtain ⟨z, hz, hid2, hp2, hpid2, het2⟩ := hsurv3 z1 hz1 h2
          exact ⟨z, hz, hid2.trans hid1, hp2.trans hp1,
            hpid2.trans hpid1, het2.trans het1⟩


/-- C5: on a directory with at least one child, non-recursive
deleteDirectory fails with the directory-not-empty error and leaves the
stored tree untouched (only the read-through cache may change); recursive
deleteDirectory succeeds, removes the target and every entry whose path
lies inside it, leaves no orphaned entries (every surviving parentId still
resolves), and removes the target's id from its former parent's children
list. -/
theorem C5_deleteDirectory_behavior :
    (∀ (fuel : Nat) (s : VFSState) (st : Store) (e : Entry) (path : String),
      s.db = some st → cacheOk st s.cache →
      findByPath st (normalize path) = some e → e.etype = EType.dir →
      e.children ≠ [] →
      ∃ c1, deleteDirectory (fuel + 1) s path false =
        ({ s with cache := c1 },
          Except.error (Err.dirNotEmpty (normalize path)))) ∧
    (∀ (fuel : Nat) (s : VFSState) (st : Store) (e q : Entry)
        (path : String) (B : Nat),
      s.db = some st → TreeOk st → cacheOk st s.cache →
      st.updateFaults = [] →
      (∀ x ∈ st.entries, x.path.data.length < B) →
      findByPath st (normalize path) = some e → e.etype = EType.dir →
      e.parentId = some q.id → q ∈ st.entries →
      B ≤ fuel + (normalize path).data.length →
      ∃ c2 st2, deleteDirectory fuel s path true =
          ({ s with db := some st2, cache := c2 }, Except.ok true) ∧
        findByPath st2 (normalize path) = none ∧
        (∀ z ∈ st2.entries, ¬ underEq (normalize path) z.path) ∧
        (∀ z ∈ st2.entries, ∀ pid, z.parentId = some pid →
          ∃ par ∈ st2.entries, par.id = pid) ∧
        (∃ q2 ∈ st2.entries, q2.id = q.id ∧ e.id ∉ q2.children)) := by
  constructor
  · intro fuel s st e path hdb hco hfind hdir hch
    exact deleteDirectory_notEmpty fuel path hdb hco hfind hdir hch
  · intro fuel s st e q path B hdb ht hco hfl hB hfind hdir hpid hqm hfuel
    obtain ⟨twf, tnorm, tne, tnd, tlast, troot, tlink, tfib1, tfib2⟩ :=
      id ht
    have hem : e ∈ st.entries := (findByPath_mem hfind).1
    have hep : e.path = normalize path := (findByPath_mem hfind).2
    obtain ⟨c2, st2, heq, hfl2, ht2, hco2, horig, hsurv⟩ :=
      (deleteDirectory_rec_ok fuel).1 s st e path B hdb ht hco hfl hB
        hfind hdir (by rw [hpid]; exact fun h => Option.noConfusion h) hfuel
    obtain ⟨twf2, tnorm2, tne2, tnd2, tlast2, troot2, tlink2, tfib1b,
      tfib2b⟩ := id ht2
    have hrem : ∀ z ∈ st2.entries, ¬ underEq (normalize path) z.path := by
      intro z hz
      obtain ⟨y, hy, _, hzp, _, _, hnu⟩ := horig z hz
      rw [hzp]
      exact hnu
    refine ⟨c2, st2, heq, ?_, hrem, ?_, ?_⟩
    · cases hf : findByPath st2 (normalize path) with
      | none => rfl
      | some z =>
        obtain ⟨hzm, hzp⟩ := findByPath_mem hf
        exact absurd (Or.inl hzp) (hrem z hzm)
    · intro z hz pid hpidz
      obtain ⟨par, hparm, hparid, _, _, _⟩ := tlink2 z hz pid hpidz
      exact ⟨par, hparm, hparid⟩
    · have hqu : underPath q.path e.path := child_under ht hqm hem hpid
      have hqlen := underPath_length hqu
      have hnuq : ¬ underEq (normalize path) q.path := by
        rintro (h | h)
        · rw [h, ← hep] at hqlen
          exact lt_irrefl _ hqlen
        · have := underPath_length h
          rw [← hep] at this
          omega
      obtain ⟨q2, hq2m, hq2id, hq2path, hq2pid, hq2et⟩ := hsurv q hqm hnuq
      refine ⟨q2, hq2m, hq2id, ?_⟩
      intro hmem
      obtain ⟨c, hcm, hcid, hcp⟩ := tfib1b q2 hq2m e.id hmem
      obtain ⟨y, hy, hyid, hyp, _, _, hnu⟩ := horig c hcm
      have hye : y = e := unique_by_id twf hem hy (by rw [← hyid, hcid])
      refine hnu ?_
      rw [hye, hep]
      exact Or.inl rfl

/-- C5 witness: in the sample tree, non-recursive deletion of C:\\A (which
holds x.txt) fails with the not-empty error, while recursive deletion
succeeds, removes C:\\A and everything under it, leaves no orphans, and
unlinks d1 from the root's children. -/
theorem C5_witness :
    (∃ c1, deleteDirectory 1 sampleState "C:\\A" false =
      ({ sampleState with cache := c1 },
        Except.error (Err.dirNotEmpty (normalize "C:\\A")))) ∧
    (∃ c2 st2, deleteDirectory 11 sampleState "C:\\A" true =
        ({ sampleState with db := some st2, cache := c2 },
          Except.ok true) ∧
      findByPath st2 (normalize "C:\\A") = none ∧
      (∀ z ∈ st2.entries, ¬ underEq (normalize "C:\\A") z.path) ∧
      (∀ z ∈ st2.entries, ∀ pid, z.parentId = some pid →
        ∃ par ∈ st2.entries, par.id = pid) ∧
      (∃ q2 ∈ st2.entries, q2.id = sampleRoot.id ∧
        sampleDirA.id ∉ q2.children)) :=
  ⟨C5_deleteDirectory_behavior.1 0 sampleState sampleStore sampleDirA
      "C:\\A" rfl (by decide) (by decide) (by decide) (by decide),
    C5_deleteDirectory_behavior.2 11 sampleState sampleStore sampleDirA
      sampleRoot "C:\\A" 11 rfl (by decide) (by decide) rfl (by decide)
      (by decide) (by decide) (by decide) (by decide) (by decide)⟩


theorem listFindPath_replace_move {l : List Entry} {e f : Entry}
    (hwf : l.Pairwise (fun a b => a.id ≠ b.id ∧ a.path ≠ b.path))
    (hmem : e ∈ l) (hid : f.id = e.id) (hp : ∀ x ∈ l, x.path ≠ f.path) :
    listFindPath (l.map (fun w => if w.id = f.id then f else w)) f.path =
      some f := by
  induction l with
  | nil => simp at hmem
  | cons x rest ih =>
    rw [List.map_cons, listFindPath]
    by_cases hx : x.id = f.id
    · rw [if_pos hx, if_pos rfl]
    · rw [if_neg hx, if_neg (hp x (List.mem_cons_self _ _))]
      have hmem2 : e ∈ rest := by
        rcases List.mem_cons.1 hmem with h | h
        · exact absurd (by rw [← h]; exact hid.symm) hx
        · exact h
      exact ih (List.pairwise_cons.1 hwf).2 hmem2
        (fun y hy => hp y (List.mem_cons_of_mem _ hy))

theorem wf_replace_move {l : List Entry} {e f : Entry}
    (hwf : l.Pairwise (fun a b => a.id ≠ b.id ∧ a.path ≠ b.path))
    (hmem : e ∈ l) (hid : f.id = e.id) (hp : ∀ x ∈ l, x.path ≠ f.path) :
    (l.map (fun w => if w.id = f.id then f else w)).Pairwise
      (fun a b => a.id ≠ b.id ∧ a.path ≠ b.path) := by
  rw [List.pairwise_map]
  refine List.Pairwise.imp_of_mem ?_ hwf
  intro a b ha hb hab
  by_cases hai : a.id = f.id
  · rw [if_pos hai]
    by_cases hbi : b.id = f.id
    · exact absurd (hai.trans hbi.symm) hab.1
    · rw [if_neg hbi]
      exact ⟨fun h => hbi h.symm, fun h => hp b hb h.symm⟩
  · rw [if_neg hai]
    by_cases hbi : b.id = f.id
    · rw [if_pos hbi]
      exact ⟨hai, hp a ha⟩
    · rw [if_neg hbi]
      exact hab

theorem rename_ok {s : VFSState} {st : Store} {e : Entry}
    (oldPath newPath : String)
    (hdb : s.db = some st) (hwf : storeWF st) (hco : cacheOk st s.cache)
    (hfind : findByPath st (normalize oldPath) = some e)
    (hnf : e.id ∉ st.updateFaults)
    (hdest : findByPath st (normalize newPath) = none) :
    ∃ c2, rename s oldPath newPath =
        ({ s with
            db := some { st with entries := st.entries.map (fun w =>
              if w.id = (renamedEntry e (normalize newPath) s.clock).id then
                renamedEntry e (normalize newPath) s.clock else w) }
            cache := c2 },
          Except.ok (renamedEntry e (normalize newPath) s.clock)) ∧
      storeWF { st with entries := st.entries.map (fun w =>
        if w.id = (renamedEntry e (normalize newPath) s.clock).id then
          renamedEntry e (normalize newPath) s.clock else w) } ∧
      cacheOk { st with entries := st.entries.map (fun w =>
        if w.id = (renamedEntry e (normalize newPath) s.clock).id then
          renamedEntry e (normalize newPath) s.clock else w) } c2 ∧
      findByPath { st with entries := st.entries.map (fun w =>
        if w.id = (renamedEntry e (normalize newPath) s.clock).id then
          renamedEntry e (normalize newPath) s.clock else w) }
        (normalize newPath) =
        some (renamedEntry e (normalize newPath) s.clock) ∧
      findByPath { st with entries := st.entries.map (fun w =>
        if w.id = (renamedEntry e (normalize newPath) s.clock).id then
          renamedEntry e (normalize newPath) s.clock else w) }
        (normalize oldPath) = none := by
  have hmem : e ∈ st.entries := (findByPath_mem hfind).1
  have hep : e.path = normalize oldPath := (findByPath_mem hfind).2
  have hne : normalize newPath ≠ normalize oldPath := by
    intro h
    rw [h, hfind] at hdest
    exact Option.noConfusion hdest
  set e2 := renamedEntry e (normalize newPath) s.clock with he2
  have he2id : e2.id = e.id := rfl
  have he2path : e2.path = normalize newPath := rfl
  obtain ⟨c1, hge, hco1⟩ := getEntry_ok hdb hco (normalize oldPath)
  rw [normalize_idem, hfind] at hge
  have hdb1 : ({ s with cache := c1 } : VFSState).db = some st := hdb
  have hput := stPutEntry_replace (e := e2) hdb1 hnf
    (by
      rintro ⟨x, hx, _, hp⟩
      exact listFindPath_eq_none_iff.1 hdest x hx hp)
    ⟨e, hmem, rfl⟩
  set M := st.entries.map (fun w => if w.id = e2.id then e2 else w) with hM
  have hfnew : listFindPath M (normalize newPath) = some e2 := by
    rw [hM]
    exact listFindPath_replace_move hwf hmem he2id
      (fun x hx => listFindPath_eq_none_iff.1 hdest x hx)
  have htrans : ∀ r, r ≠ normalize newPath → r ≠ normalize oldPath →
      listFindPath M r = listFindPath st.entries r := by
    intro r h1 h2
    rw [hM]
    refine listFindPath_replace_other ?_ ?_
    · intro x hx hxi
      have hx2 : x = e := unique_by_id hwf hmem hx hxi
      rw [hx2, hep]
      exact fun hh => h2 hh.symm
    · rw [he2path]
      exact fun hh => h1 hh.symm
  have hfold : listFindPath M (normalize oldPath) = none := by
    rw [hM, listFindPath_eq_none_iff]
    intro x hx
    rcases mem_map_replace hx with h | h
    · rw [h, he2path]
      exact hne
    · rcases List.mem_map.1 hx with ⟨w, hw, hwz⟩
      by_cases hwi : w.id = e2.id
      · rw [if_pos hwi] at hwz
        rw [← hwz, he2path]
        exact hne
      · rw [if_neg hwi] at hwz
        intro hp
        have hwe : w = e := unique_by_path hwf hmem hw (by rw [hwz, hp, hep])
        exact hwi (by rw [hwe, he2id])
  refine ⟨cacheSet (cacheDel c1 (normalize oldPath)) (normalize newPath) e2,
    ?_, ?_, ?_, hfnew, hfold⟩
  · simp only [rename]
    rw [hge]
    dsimp only
    rw [hput]
  · exact wf_replace_move hwf hmem he2id
      (fun x hx => listFindPath_eq_none_iff.1 hdest x hx)
  · intro kv hm
    rcases mem_cacheSet hm with h | ⟨h, hkn⟩
    · subst h
      exact hfnew
    · obtain ⟨h1, hko⟩ := mem_cacheDel h
      have h3 := hco1 kv h1
      show listFindPath M kv.1 = some kv.2
      rw [htrans kv.1 hkn hko]
      exact h3


/-- C3 (amended): a getInfo/getEntry always returns exactly what durable
storage holds at the normalized path, and the mutating operations
(createFile, readFile's touch, deleteFile, rename, recursive
deleteDirectory) preserve cache/storage coherence — so subsequent gets on
the touched paths see the post-mutation state — PROVIDED the parent cache
key `dirname(normalizedPath)` is itself normalize-fixed; the coordinator
caches the parent under that raw key, so for paths whose dirname is not
normalized (e.g. the relative path "foo", whose dirname is ".") a
previously cached snapshot of the parent at its normalized key goes stale
and is served by later gets. -/
theorem C3_reads_see_storage :
    (∀ (s : VFSState) (st : Store) (q : String),
      s.db = some st → cacheOk st s.cache →
      ∃ c2, getInfo s q =
        ({ s with cache := c2 }, Except.ok (findByPath st (normalize q))) ∧
        cacheOk st c2) ∧
    (∀ (s : VFSState) (st : Store) (pd : Entry) (path content : String)
        (o : FileOpts),
      s.db = some st → storeWF st → cacheOk st s.cache →
      findByPath st (normalize path) = none →
      findByPath st (normalize (dirname (normalize path))) = some pd →
      normalize (dirname (normalize path)) = dirname (normalize path) →
      pd.etype = EType.dir →
      (∀ x ∈ st.entries, x.id ≠ fileId s.nextId) →
      pd.id ∉ st.updateFaults →
      ∃ c5 st5 nf, createFile s path content o =
          ({ s with db := some st5, cache := c5, nextId := s.nextId + 1 },
            Except.ok nf) ∧
        storeWF st5 ∧ cacheOk st5 c5 ∧
        findByPath st5 (normalize path) = some nf) ∧
    (∀ (s : VFSState) (st : Store) (e : Entry) (path : String),
      s.db = some st → storeWF st → cacheOk st s.cache →
      findByPath st (normalize path) = some e → e.etype = EType.file →
      e.id ∉ st.updateFaults →
      ∃ c2 st2, readFile s path =
          ({ s with db := some st2, cache := c2 }, Except.ok e.content) ∧
        cacheOk st2 c2) ∧
    (∀ (s : VFSState) (st : Store) (e q : Entry) (path : String),
      s.db = some st → storeWF st → cacheOk st s.cache →
      findByPath st (normalize path) = some e → e.etype = EType.file →
      findByPath st (normalize (dirname (normalize path))) = some q →
      normalize (dirname (normalize path)) = dirname (normalize path) →
      normalize (dirname (normalize path)) ≠ normalize path →
      q.id ∉ st.updateFaults →
      ∃ c4 st4, deleteFile s path =
          ({ s with db := some st4, cache := c4 }, Except.ok true) ∧
        storeWF st4 ∧ cacheOk st4 c4 ∧
        findByPath st4 (normalize path) = none) ∧
    (∀ (s : VFSState) (st : Store) (e : Entry) (oldPath newPath : String),
      s.db = some st → storeWF st → cacheOk st s.cache →
      findByPath st (normalize oldPath) = some e →
      e.id ∉ st.updateFaults →
      findByPath st (normalize newPath) = none →
      ∃ c2 st2 e2, rename s oldPath newPath =
          ({ s with db := some st2, cache := c2 }, Except.ok e2) ∧
        storeWF st2 ∧ cacheOk st2 c2 ∧
        findByPath st2 (normalize newPath) = some e2 ∧
        findByPath st2 (normalize oldPath) = none) ∧
    (∀ (fuel : Nat) (s : VFSState) (st : Store) (e : Entry) (path : String)
        (B : Nat),
      s.db = some st → TreeOk st → cacheOk st s.cache →
      st.updateFaults = [] →
      (∀ x ∈ st.entries, x.path.data.length < B) →
      findByPath st (normalize path) = some e → e.etype = EType.dir →
      e.parentId ≠ none →
      B ≤ fuel + (normalize path).data.length →
      ∃ c2 st2, deleteDirectory fuel s path true =
          ({ s with db := some st2, cache := c2 }, Except.ok true) ∧
        storeWF st2 ∧ cacheOk st2 c2 ∧
        findByPath st2 (normalize path) = none) := by
  refine ⟨?_, ?_, ?_, ?_, ?_, ?_⟩
  · intro s st q hdb hco
    obtain ⟨c2, hge, hco2⟩ := getEntry_ok hdb hco (normalize q)
    rw [normalize_idem] at hge
    exact ⟨c2, hge, hco2⟩
  · intro s st pd path content o hdb hwf hco hdest hpd hdn hpdd hfresh hqf
    obtain ⟨c5, st5, hcf, _, hwf5, hco5, hfind5, _, _, _⟩ :=
      createFile_ok path content o hdb hwf hco hdest hpd hdn hpdd hfresh hqf
    exact ⟨c5, st5, _, hcf, hwf5, hco5, hfind5⟩
  · intro s st e path hdb hwf hco hfind hft hnf
    obtain ⟨c2, hrf, hco2⟩ := readFile_ok hdb hwf hco hfind hft hnf
    exact ⟨c2, _, hrf, hco2⟩
  · intro s st e q path hdb hwf hco hfind hft hq hdn hne hqf
    obtain ⟨c4, st4, hdf, _, _, hwf4, hco4, hnone4, _⟩ :=
      deleteFile_ok path hdb hwf hco hfind hft hq hdn hne hqf
    exact ⟨c4, st4, hdf, hwf4, hco4, hnone4⟩
  · intro s st e oldPath newPath hdb hwf hco hfind hnf hdest
    obtain ⟨c2, heq, hwf2, hco2, hnew, hold⟩ :=
      rename_ok oldPath newPath hdb hwf hco hfind hnf hdest
    exact ⟨c2, _, _, heq, hwf2, hco2, hnew, hold⟩
  · intro fuel s st e path B hdb ht hco hfl hB hfind hdir hparent hfuel
    obtain ⟨c2, st2, heq, _, ht2, hco2, horig, _⟩ :=
      (deleteDirectory_rec_ok fuel).1 s st e path B hdb ht hco hfl hB
        hfind hdir hparent hfuel
    refine ⟨c2, st2, heq, ht2.1, hco2, ?_⟩
    cases hf : findByPath st2 (normalize path) with
    | none => rfl
    | some z =>
      obtain ⟨hzm, hzp⟩ := findByPath_mem hf
      obtain ⟨y, hy, _, hyp, _, _, hnu⟩ := horig z hzm
      exact absurd (Or.inl (by rw [← hyp, hzp])) hnu

/-- C3 counterexample: with the root directory cached under its normalized
path C:\\, a successful createFile of the relative path "foo" re-stores
the root (its parent) but caches the update only under the raw dirname
".", so a subsequent getInfo of C:\\ serves the stale pre-mutation root
snapshot while durable storage holds the updated record. -/
theorem C3_counterexample :
    ∃ st1, (createFile staleState "foo" "x" noOpts).2 =
        Except.ok (mkFile 0 "foo" "foo" "root" "x" noOpts 7) ∧
      ((createFile staleState "foo" "x" noOpts).1).db = some st1 ∧
      (getInfo (createFile staleState "foo" "x" noOpts).1 "C:\\").2 =
        Except.ok (some sampleRoot) ∧
      findByPath st1 (normalize "C:\\") ≠ some sampleRoot :=
  ⟨_, rfl, rfl, rfl, by decide⟩

/-- C3 witness. -/
theorem C3_witness :
    (∃ c2, getInfo sampleState "C:\\A" =
      ({ sampleState with cache := c2 },
        Except.ok (findByPath sampleStore (normalize "C:\\A"))) ∧
      cacheOk sampleStore c2) ∧
    (∃ c5 st5 nf, createFile sampleState "C:\\new.txt" "hi" noOpts =
        ({ sampleState with
          db := some st5
          cache := c5
          nextId := sampleState.nextId + 1 }, Except.ok nf) ∧
      storeWF st5 ∧ cacheOk st5 c5 ∧
      findByPath st5 (normalize "C:\\new.txt") = some nf) :=
  ⟨C3_reads_see_storage.1 sampleState sampleStore "C:\\A" rfl (by decide),
    C3_reads_see_storage.2.1 sampleState sampleStore sampleRoot
      "C:\\new.txt" "hi" noOpts rfl (by decide) (by decide) (by decide)
      (by decide) (by decide) (by decide) (by decide) (by decide)⟩

end RetroFS
